import Mathlib

/-!
Verification of the reStructuredText language-server document model:
inline parsing (interpreted text and roles) and the reference-resolution
transform pipeline, as described by the repository's specification and
its `test_interpreted.yaml` fixtures.
-/

set_option maxRecDepth 10000

namespace Rst

/-- Severity levels of diagnostics: `INFO | WARNING | ERROR | SEVERE`. -/
inductive Severity where
  | info
  | warning
  | error
  | severe
  deriving Repr, DecidableEq

/-- Numeric level of a severity (docutils levels 1-4). -/
def Severity.level : Severity → Nat
  | .info => 1
  | .warning => 2
  | .error => 3
  | .severe => 4

/-- Node attributes: `ids`, `names`, `refid`, `refname`, `refuri`,
`backrefs`, `classes`, `anonymous`, `auto`, and the severity `level`
for system-message nodes. -/
structure Attrs where
  ids : List String := []
  names : List String := []
  refid : Option String := none
  refname : Option String := none
  refuri : Option String := none
  backrefs : List String := []
  classes : List String := []
  anonymous : Bool := false
  auto : Bool := false
  level : Nat := 0
  deriving Repr, DecidableEq

/-- The universal document-tree element: either a text leaf or an
element with a kind tag, attributes and an ordered child list. -/
inductive Node where
  | text (s : String)
  | elem (kind : String) (attrs : Attrs) (children : List Node)
  deriving Repr

mutual

/-- Boolean equality on nodes. -/
def Node.beq : Node → Node → Bool
  | .text s, .text t => s == t
  | .elem k a c, .elem k2 a2 c2 =>
      k == k2 && decide (a = a2) && Node.beqList c c2
  | _, _ => false

/-- Boolean equality on node lists. -/
def Node.beqList : List Node → List Node → Bool
  | [], [] => true
  | x :: xs, y :: ys => Node.beq x y && Node.beqList xs ys
  | _, _ => false

end

mutual

theorem Node.beq_iff : ∀ a b : Node, Node.beq a b = true ↔ a = b
  | .text s, .text t => by simp [Node.beq]
  | .text _, .elem .. => by simp [Node.beq]
  | .elem .., .text _ => by simp [Node.beq]
  | .elem k a c, .elem k2 a2 c2 => by
      simp [Node.beq, Node.beqList_iff c c2, and_assoc]

theorem Node.beqList_iff : ∀ xs ys : List Node, Node.beqList xs ys = true ↔ xs = ys
  | [], [] => by simp [Node.beqList]
  | [], _ :: _ => by simp [Node.beqList]
  | _ :: _, [] => by simp [Node.beqList]
  | x :: xs, y :: ys => by
      simp [Node.beqList, Node.beq_iff x y, Node.beqList_iff xs ys]

end

instance : DecidableEq Node := fun a b =>
  decidable_of_iff _ (Node.beq_iff a b)

/-- An immutable diagnostic record: severity, message, the ids of the
system-message node itself and the backrefs to the offending nodes. -/
structure Diagnostic where
  severity : Severity
  message : String
  ids : List String := []
  backrefs : List String := []
  deriving Repr, DecidableEq

/-- Strip backslash escapes: `\c` becomes `c` for non-whitespace `c`,
while backslash-escaped whitespace is removed entirely. -/
def stripEscapes : List Char → List Char
  | [] => []
  | [c] => if c = '\\' then [] else [c]
  | '\\' :: c :: rest =>
      if c.isWhitespace then stripEscapes rest else c :: stripEscapes rest
  | c :: rest => c :: stripEscapes rest

/-- String form of `stripEscapes`. -/
def unescape (s : String) : String := String.mk (stripEscapes s.data)

/-- Parse a non-empty all-digit character list as a decimal number. -/
def natFromCharsAux : List Char → Nat → Option Nat
  | [], acc => some acc
  | c :: rest, acc =>
      if c.isDigit then natFromCharsAux rest (acc * 10 + (c.toNat - 48)) else none

/-- Parse a string of decimal digits as an unsigned integer; `none` on
the empty string or any non-digit character. -/
def natFromChars : List Char → Option Nat
  | [] => none
  | cs => natFromCharsAux cs 0

/-- Lowercase a string character by character. -/
def lower (s : String) : String := String.mk (s.data.map Char.toLower)

/-- Result of applying a role to an interpreted-text span: either
replacement nodes or a diagnostic message. -/
inductive RoleResult where
  | ok (nodes : List Node)
  | err (severity : Severity) (message : String)
  deriving Repr, DecidableEq

/-- Left-pad the decimal representation of `n` with zeros to 4 digits
(the `pep-%04d` URI format). -/
def pad4 (n : Nat) : String :=
  let s := toString n
  String.mk (List.replicate (4 - s.length) '0') ++ s

/-- Base URI for PEP references. -/
def pepBaseUrl : String := "http://www.python.org/dev/peps/pep-"

/-- Base URI for RFC references. -/
def rfcBaseUrl : String := "http://tools.ietf.org/html/rfc"

/-- A `reference` node with an external URI and display text. -/
def refNode (uri text : String) : Node :=
  .elem "reference" { refuri := some uri } [.text text]

/-- Modelled from the spec: the `PEP` role (the repository ships no
parser sources, only fixtures).  Content must be an unsigned integer in
0-9999; valid content produces a `Reference` with URI
`http://www.python.org/dev/peps/pep-<n padded to 4 digits>` and display
text `PEP <n>`; anything else is an `ERROR`. -/
def pepRole (content : String) : RoleResult :=
  match natFromChars content.data with
  | some n =>
      if n ≤ 9999 then
        .ok [refNode (pepBaseUrl ++ pad4 n) ("PEP " ++ content)]
      else
        .err .error
          ("PEP number must be a number from 0 to 9999; \"" ++ content ++
            "\" is invalid.")
  | none =>
      .err .error
        ("PEP number must be a number from 0 to 9999; \"" ++ content ++
          "\" is invalid.")

/-- Split a character list at the first occurrence of `c`; the second
component is `none` when `c` does not occur. -/
def breakAt (c : Char) : List Char → List Char × Option (List Char)
  | [] => ([], none)
  | x :: xs =>
      if x = c then ([], some xs)
      else
        let p := breakAt c xs
        (x :: p.1, p.2)

/-- Modelled from the spec: the `RFC` role (the repository ships no
parser sources, only fixtures).  Content is `<n>` or `<n>#fragment`
with `n ≥ 1`; valid content produces a `Reference` with URI
`http://tools.ietf.org/html/rfc<n>.html` (fragment appended verbatim
after `#`) and display text `RFC <n>`; anything else is an `ERROR`. -/
def rfcRole (content : String) : RoleResult :=
  let p := breakAt '#' content.data
  match natFromChars p.1 with
  | some n =>
      if 1 ≤ n then
        let frag := match p.2 with
          | some f => "#" ++ String.mk f
          | none => ""
        .ok [refNode (rfcBaseUrl ++ toString n ++ ".html" ++ frag)
              ("RFC " ++ toString n)]
      else
        .err .error
          ("RFC number must be a number greater than or equal to 1; \"" ++
            content ++ "\" is invalid.")
  | none =>
      .err .error
        ("RFC number must be a number greater than or equal to 1; \"" ++
          content ++ "\" is invalid.")

/-- The backtick character (interpreted-text delimiter). -/
def bq : Char := Char.ofNat 96

/-- The apostrophe character. -/
def sq : Char := Char.ofNat 39

/-- The opening curly brace character. -/
def obr : Char := Char.ofNat 123

/-- The closing curly brace character. -/
def cbr : Char := Char.ofNat 125

/-- A pluggable lexical highlighter: language name and content to
inline token nodes. -/
def Lexer := String → String → List Node

/-- A custom role registered by the `role` directive: its name, the
canonical base role, its `:class:` option (defaulting to the role name)
and its `:language:` option. -/
structure CustomRole where
  name : String
  base : String
  classes : List String
  language : Option String

/-- Children of a simple role node: the content as a text leaf, or no
children when the resolved content is empty. -/
def textChildren (content : String) : List Node :=
  if content = "" then [] else [.text content]

/-- A role producing a single node of the given kind wrapping the
content. -/
def simpleNode (kind : String) (content : String) : RoleResult :=
  .ok [.elem kind {} (textChildren content)]

/-- Class list of a `code`-role literal node: `code`, then the custom
role's own classes, then the `:language:` option (unless already
present). -/
def codeClasses (extra : List String) (lang : Option String) : List String :=
  let base := "code" :: extra
  match lang with
  | some l => if base.contains l then base else base ++ [l]
  | none => base

/-- Modelled from the spec: the `code` role (no parser sources in the
repository).  Produces a literal node tagged `code`; with a
`:language:` option the content is tokenized by the pluggable lexer,
otherwise it is kept as plain text. -/
def codeRole (lexer : Lexer) (extra : List String) (lang : Option String)
    (content : String) : RoleResult :=
  .ok [.elem "literal" { classes := codeClasses extra lang }
        (match lang with
         | some l => lexer l content
         | none => textChildren content)]

/-- Modelled from the spec: the compiled-in canonical role set
(`PEP`, `RFC`, `emphasis`, `strong`, `literal`, `code`, `title`,
`subscript`, `superscript`, `abbreviation`, `acronym`, aliases, and the
registered-but-unimplemented role). -/
def canonicalRole (lexer : Lexer) (name content : String) : Option RoleResult :=
  match name with
  | "pep" => some (pepRole content)
  | "pep-reference" => some (pepRole content)
  | "rfc" => some (rfcRole content)
  | "rfc-reference" => some (rfcRole content)
  | "title" => some (simpleNode "title_reference" content)
  | "title-reference" => some (simpleNode "title_reference" content)
  | "t" => some (simpleNode "title_reference" content)
  | "emphasis" => some (simpleNode "emphasis" content)
  | "strong" => some (simpleNode "strong" content)
  | "literal" => some (simpleNode "literal" content)
  | "subscript" => some (simpleNode "subscript" content)
  | "sub" => some (simpleNode "subscript" content)
  | "superscript" => some (simpleNode "superscript" content)
  | "sup" => some (simpleNode "superscript" content)
  | "abbreviation" => some (simpleNode "abbreviation" content)
  | "ab" => some (simpleNode "abbreviation" content)
  | "acronym" => some (simpleNode "acronym" content)
  | "ac" => some (simpleNode "acronym" content)
  | "code" => some (codeRole lexer [] none content)
  | "restructuredtext-unimplemented-role" =>
      some (.err .error
        ("Interpreted text role \"" ++ name ++ "\" not implemented."))
  | _ => none

/-- Prepend classes to an element node (class merging for derived
roles). -/
def addClasses (cls : List String) : Node → Node
  | .elem k a c => .elem k { a with classes := cls ++ a.classes } c
  | n => n

/-- Modelled from the spec: applying a custom role registered by the
`role` directive, inheriting the base role's resolution semantics and
merging class/language options. -/
def applyCustom (lexer : Lexer) (cr : CustomRole) (content : String) : RoleResult :=
  match cr.base with
  | "code" => codeRole lexer cr.classes cr.language content
  | b =>
      match canonicalRole lexer b content with
      | some (.ok ns) => .ok (ns.map (addClasses cr.classes))
      | some e => e
      | none => .err .error ("Unknown interpreted text role \"" ++ cr.name ++ "\".")

/-- The most recent custom role registered under `name`. -/
def findCustom (customs : List CustomRole) (name : String) : Option CustomRole :=
  customs.reverse.find? (fun cr => cr.name == name)

/-- Role resolution order: custom roles registered in this document
first, then the canonical set; `none` means total failure. -/
def applyRole (customs : List CustomRole) (lexer : Lexer)
    (name content : String) : Option RoleResult :=
  match findCustom customs name with
  | some cr => some (applyCustom lexer cr content)
  | none => canonicalRole lexer name content

/-- Modelled from the spec: the `role` directive registering a new
custom role derived from a base role; its `:class:` option defaults to
the new role's own name. -/
def registerRole (customs : List CustomRole) (name base : String)
    (classOpt : Option (List String)) (langOpt : Option String) : List CustomRole :=
  customs ++ [{ name := lower name, base := lower base,
                classes := classOpt.getD [lower name], language := langOpt }]

/-- Characters allowed inside a role name (simple name: alphanumerics
joined by internal `-._+`). -/
def roleNameChar (c : Char) : Bool :=
  c.isAlphanum || c = '-' || c = '.' || c = '_' || c = '+'

/-- Read a role name followed by the closing `:`; returns the name and
the characters after the closing colon. -/
def takeRole (cs : List Char) : Option (String × List Char) :=
  let nm := cs.takeWhile roleNameChar
  let rest := cs.drop nm.length
  match nm, rest with
  | [], _ => none
  | _ :: _, c :: rest2 =>
      if c = ':' ∧ nm.head?.all Char.isAlphanum ∧ nm.getLast?.all Char.isAlphanum then
        some (String.mk nm, rest2)
      else none
  | _ :: _, [] => none

/-- May an inline markup start-string begin right after `prev`?
(start of line, whitespace, or opening punctuation). -/
def canPrecede : Option Char → Bool
  | none => true
  | some c => c.isWhitespace || [sq, '"', '(', '[', obr, '<', '-', '/', ':'].contains c

/-- The closing character matching an opening quote or bracket. -/
def closerFor (c : Char) : Option Char :=
  if c = '(' then some ')'
  else if c = '[' then some ']'
  else if c = obr then some cbr
  else if c = '<' then some '>'
  else if c = sq then some sq
  else if c = '"' then some '"'
  else none

/-- A start-string must be immediately followed by a character that is
neither whitespace nor a backtick, and not the closing counterpart of
an opening quote or bracket immediately preceding the start-string. -/
def startAfterOk (prev : Option Char) : List Char → Bool
  | [] => false
  | d :: _ =>
      !d.isWhitespace && d != bq &&
        (match prev with
         | some p => closerFor p != some d
         | none => true)

/-- Characters that may follow an inline markup end-string. -/
def endSuffixChar (c : Char) : Bool :=
  c.isWhitespace ||
    [sq, '"', ')', ']', cbr, '>', '-', '/', ':', '.', ',', ';', '!', '?', '\\', '_'].contains c

/-- An end-string must be followed by end of text, whitespace, or
closing punctuation. -/
def endOk : List Char → Bool
  | [] => true
  | c :: _ => endSuffixChar c

/-- Recognize an interpreted-text start at the head of `cs` (with an
optional `:role:` prefix); returns the prefix role and the characters
after the opening backtick. -/
def tryStart (prev : Option Char) (cs : List Char) : Option (Option String × List Char) :=
  match cs with
  | ':' :: rest =>
      if canPrecede prev then
        match takeRole rest with
        | some (nm, rest2) =>
            match rest2 with
            | b :: rest3 =>
                if b = bq ∧ startAfterOk prev rest3 then some (some nm, rest3) else none
            | [] => none
        | none => none
      else none
  | b :: rest =>
      if b = bq ∧ canPrecede prev ∧ startAfterOk prev rest then some (none, rest)
      else none
  | [] => none

/-- Scan for the end-string of an interpreted-text span.  `prevOk`
records whether the previous raw character permits an end-string here
(not unescaped whitespace; escaped characters always permit one).
Returns the raw content, the optional `:role:` suffix, the characters
after the whole construct, and the construct's last character. -/
def findEnd : Nat → Bool → List Char → Option (List Char × Option String × List Char × Char)
  | 0, _, _ => none
  | _ + 1, _, [] => none
  | fuel + 1, prevOk, c :: rest =>
      if c = '\\' then
        match rest with
        | [] => none
        | d :: rest2 =>
            match findEnd fuel true rest2 with
            | some (content, suf, r, lc) => some ('\\' :: d :: content, suf, r, lc)
            | none => none
      else if c = bq && prevOk && (match rest with | b :: _ => b != bq | [] => true) then
        let sufP : Option String × List Char :=
          match rest with
          | ':' :: more =>
              match takeRole more with
              | some (nm, r2) => (some nm, r2)
              | none => (none, rest)
          | _ => (none, rest)
        if sufP.1.isSome ∧ endOk sufP.2 then
          some ([], sufP.1, sufP.2, ':')
        else if endOk rest then
          some ([], none, rest, bq)
        else
          match findEnd fuel true rest with
          | some (content, suf, r, lc) => some (c :: content, suf, r, lc)
          | none => none
      else
        match findEnd fuel (!c.isWhitespace) rest with
        | some (content, suf, r, lc) => some (c :: content, suf, r, lc)
        | none => none

/-- Render an optional role marker back to its source text. -/
def roleMark : Option String → String
  | some nm => ":" ++ nm ++ ":"
  | none => ""

/-- Flush accumulated raw characters as a single escape-stripped text
node (or nothing when empty). -/
def flushText (pending : List Char) : List Node :=
  match pending with
  | [] => []
  | _ => [.text (String.mk (stripEscapes pending))]

/-- Allocate a cross-linked system-message / problematic pair: the
message gets the next id, the problematic node the one after, the
problematic carries a `refid` to the message and the message a backref
to the problematic. -/
def mkProblematic (cnt : Nat) (sev : Severity) (msg : String) (rawtext : String) :
    List Node × List Diagnostic × Nat :=
  let msgId := "id" ++ toString (cnt + 1)
  let prbId := "id" ++ toString (cnt + 2)
  ([.elem "problematic" { ids := [prbId], refid := some msgId } [.text rawtext]],
   [{ severity := sev, message := msg, ids := [msgId], backrefs := [prbId] }],
   cnt + 2)

/-- Resolve one recognized interpreted-text span: reject double role
markers, apply the resolved role, and on failure emit the diagnostics
and `problematic` wrapper dictated by the spec. -/
def applySpan (customs : List CustomRole) (lexer : Lexer) (cnt : Nat)
    (pre suf : Option String) (content rawtext : String) :
    List Node × List Diagnostic × Nat :=
  match pre, suf with
  | some _, some _ =>
      mkProblematic cnt .warning
        "Multiple roles in interpreted text (both prefix and suffix present; only one allowed)."
        rawtext
  | _, _ =>
      let nameOrig := match pre with
        | some n => n
        | none => match suf with
          | some n => n
          | none => "title-reference"
      match applyRole customs lexer (lower nameOrig) content with
      | some (.ok ns) => (ns, [], cnt)
      | some (.err sev msg) => mkProblematic cnt sev msg rawtext
      | none =>
          let info : Diagnostic :=
            { severity := .info,
              message := "No role entry for \"" ++ nameOrig ++
                "\" in module \"docutils.parsers.rst.languages.en\".\nTrying \"" ++
                nameOrig ++ "\" as canonical role name." }
          let p := mkProblematic cnt .error
            ("Unknown interpreted text role \"" ++ nameOrig ++ "\".") rawtext
          (p.1, info :: p.2.1, p.2.2)

/-- Modelled from the spec: the inline scanner for one text-bearing
block line (the repository ships no parser sources, only fixtures).
Walks the raw characters, recognizing interpreted-text spans with
optional role markers; unmatched start-strings produce a `problematic`
leaf for the opening backtick plus a `WARNING`, and everything else is
escape-stripped plain text. -/
def scanAux (customs : List CustomRole) (lexer : Lexer) :
    Nat → Option Char → List Char → List Char → Nat →
    List Node × List Diagnostic × Nat
  | 0, _, pending, _, cnt => (flushText pending, [], cnt)
  | _ + 1, _, pending, [], cnt => (flushText pending, [], cnt)
  | fuel + 1, prev, pending, c :: rest, cnt =>
      if c = '\\' then
        match rest with
        | [] => (flushText (pending ++ [c]), [], cnt)
        | d :: rest2 => scanAux customs lexer fuel (some d) (pending ++ [c, d]) rest2 cnt
      else
        match tryStart prev (c :: rest) with
        | some (pre, afterStart) =>
            match findEnd (afterStart.length + 1) true afterStart with
            | some (content, suf, rest2, lastc) =>
                let rawtext := roleMark pre ++ "`" ++ String.mk content ++ "`" ++ roleMark suf
                let r := applySpan customs lexer cnt pre suf
                  (unescape (String.mk content)) rawtext
                let nxt := scanAux customs lexer fuel (some lastc) [] rest2 r.2.2
                (flushText pending ++ r.1 ++ nxt.1, r.2.1 ++ nxt.2.1, nxt.2.2)
            | none =>
                let msgId := "id" ++ toString (cnt + 1)
                let prbId := "id" ++ toString (cnt + 2)
                let prb : Node :=
                  .elem "problematic" { ids := [prbId], refid := some msgId } [.text "`"]
                let d : Diagnostic :=
                  { severity := .warning,
                    message := "Inline interpreted text or phrase reference start-string without end-string.",
                    ids := [msgId], backrefs := [prbId] }
                let nxt := scanAux customs lexer fuel (some bq) [] afterStart (cnt + 2)
                (flushText (pending ++ (roleMark pre).data) ++ [prb] ++ nxt.1,
                 d :: nxt.2.1, nxt.2.2)
        | none => scanAux customs lexer fuel (some c) (pending ++ [c]) rest cnt

/-- Inline-parse one line: nodes, diagnostics, and the id counter. -/
def parseInline (customs : List CustomRole) (lexer : Lexer) (s : String) :
    List Node × List Diagnostic × Nat :=
  scanAux customs lexer (s.length + 1) none [] s.data 0

/-- The `system_message` node of a diagnostic. -/
def sysMsgNode (d : Diagnostic) : Node :=
  .elem "system_message"
    { ids := d.ids, backrefs := d.backrefs, level := d.severity.level }
    [.elem "paragraph" {} [.text d.message]]

/-- Parse one paragraph line into a document node (paragraph followed
by the system-message nodes) plus the ordered diagnostic list. -/
def parseWith (customs : List CustomRole) (lexer : Lexer) (s : String) :
    Node × List Diagnostic :=
  let r := parseInline customs lexer s
  (.elem "document" {} (.elem "paragraph" {} r.1 :: r.2.1.map sysMsgNode), r.2.1)

/-- The fallback highlighter: unrecognized languages produce an
untokenized literal. -/
def defaultLexer : Lexer := fun _ content => textChildren content

/-- `parse` with no custom roles and the fallback highlighter. -/
def parse (s : String) : Node × List Diagnostic := parseWith [] defaultLexer s

/-! ## The transform pipeline

Modelled from the spec (the repository ships no transform sources; the
passes are specified in `README.md` and the spec's section 4.5).  Each
pass is a pure tree function; diagnostics are modelled where a claim
depends on them (the anonymous-hyperlink count mismatch). -/

/-- Look up a key in an association list. -/
def lookupName {α : Type} (tbl : List (String × α)) (nm : String) : Option α :=
  (tbl.find? (fun p => p.1 == nm)).map (fun p => p.2)

mutual

/-- Collect the substitution definitions of the tree: normalized name
to children, in document order. -/
def subDefs : Node → List (String × List Node)
  | .text _ => []
  | .elem k a c =>
      (if k = "substitution_definition" then a.names.map (fun nm => (lower nm, c)) else []) ++
        subDefsList c

/-- List form of `subDefs`. -/
def subDefsList : List Node → List (String × List Node)
  | [] => []
  | n :: ns => subDefs n ++ subDefsList ns

end

/-- A name absent from a table is found by no entry. -/
theorem lookupName_none {α : Type} (tbl : List (String × α)) (nm : String) :
    lookupName tbl nm = none ↔ ∀ p ∈ tbl, ¬(p.1 == nm) = true := by
  simp [lookupName, List.find?_eq_none]

/-- A successful lookup names an entry of the table. -/
theorem lookupName_some_mem {α : Type} (tbl : List (String × α)) (nm : String) (v : α)
    (h : lookupName tbl nm = some v) : (nm, v) ∈ tbl := by
  rw [lookupName, Option.map_eq_some'] at h
  obtain ⟨p, hfind, hv⟩ := h
  have hmem := List.mem_of_find?_eq_some hfind
  have hpred := List.find?_some hfind
  have h1 : p.1 = nm := by simpa using hpred
  have h2 : p = (nm, v) := by
    cases p
    simp_all
  rw [← h2]
  exact hmem

mutual

/-- One sweep of the Substitutions worklist: replace each
`substitution_reference` currently matching a table entry by the
entry's stored children; unmatched references are kept (their children
swept) for the dangling-reference pass. -/
def sweepNode (defs : List (String × List Node)) : Node → List Node
  | .text s => [.text s]
  | .elem k a c =>
      if k = "substitution_reference" then
        match a.refname with
        | some r =>
            match lookupName defs (lower r) with
            | some repl => repl
            | none => [.elem k a (sweepList defs c)]
        | none => [.elem k a (sweepList defs c)]
      else [.elem k a (sweepList defs c)]

/-- List form of `sweepNode` (replacements are spliced in place). -/
def sweepList (defs : List (String × List Node)) : List Node → List Node
  | [] => []
  | n :: ns => sweepNode defs n ++ sweepList defs ns

end

mutual

/-- No substitution reference of the tree names one of the given
definition keys: the postcondition of the Substitutions pass for its
own collected table. -/
def settledSub (keys : List String) : Node → Bool
  | .text _ => true
  | .elem k a c =>
      (!(k == "substitution_reference" &&
         (match a.refname with
          | some r => decide ((lower r) ∈ keys)
          | none => false))) && settledSubList keys c

/-- List form of `settledSub`. -/
def settledSubList (keys : List String) : List Node → Bool
  | [] => true
  | n :: ns => settledSub keys n && settledSubList keys ns

end

/-- One expansion step over the definition table: every stored body is
swept against the current table, resolving its references one level
further. -/
def expandStep (E : List (String × List Node)) : List (String × List Node) :=
  E.map (fun p => (p.1, sweepList E p.2))

/-- The closed definition table: expansion iterated once more than the
table is long, at which point every acyclic chain of definitions has
been fully expanded and only circular bodies still hold matched
references. -/
def expandedTbl (D : List (String × List Node)) : List (String × List Node) :=
  expandStep^[D.length + 1] D

/-- The table the Substitutions pass substitutes with: fully expanded
bodies, with a circular definition's body (one still holding a matched
reference after closure) replaced by a `problematic` marker, the
docutils treatment of a circular substitution. -/
def finalTbl (D : List (String × List Node)) : List (String × List Node) :=
  (expandedTbl D).map (fun p =>
    if settledSubList (D.map Prod.fst) p.2 then p
    else (p.1, [.elem "problematic" {} [.text ("|" ++ p.1 ++ "|")]]))

/-- Modelled from the spec: pass 1, Substitutions, replaces each
substitution reference below the document root by the matching
definition's fully expanded children (the worklist resolves references
nested in spliced copies within the same run; circular chains become
`problematic`). -/
def substT (t : Node) : Node :=
  match t with
  | .text s => .text s
  | .elem k a c => .elem k a (sweepList (finalTbl (subDefsList c)) c)

/-- An empty internal target: propagation subject of PropagateTargets
(no refid/refuri/refname, no content). -/
def eligibleTgt : Node → Bool
  | .elem k a c =>
      k == "target" && c.isEmpty && a.refid.isNone && a.refuri.isNone && a.refname.isNone
  | .text _ => false

/-- Does a chain of empty targets starting before this sibling list
reach a receiving element? -/
def lands : List Node → Bool
  | [] => false
  | .text _ :: _ => false
  | n :: rest => if eligibleTgt n then lands rest else true

/-- Append a propagation carry (ids and names) to a receiving
element's attrs. -/
def mergeCarry (carryIds carryNames : List String) : Node → Node
  | .text s => .text s
  | .elem k a c =>
      .elem k { a with ids := a.ids ++ carryIds, names := a.names ++ carryNames } c

mutual

/-- Pass 2, PropagateTargets, below one node. -/
def propNode : Node → Node
  | .text s => .text s
  | .elem k a c => .elem k a (propList [] [] c)

/-- Modelled from the spec: an empty internal target folds its ids and
names onto the next sibling element (transitively through a chain of
empty targets), becoming a refid-bearing placeholder; the carry is the
id/name set accumulated from the preceding chain. -/
def propList (carryIds carryNames : List String) : List Node → List Node
  | [] => []
  | .text s :: rest => .text s :: propList [] [] rest
  | .elem k a c :: rest =>
      if eligibleTgt (.elem k a c) && lands rest then
        .elem k { a with ids := [], names := [], refid := a.ids.head? } c ::
          propList (a.ids ++ carryIds) (a.names ++ carryNames) rest
      else
        mergeCarry carryIds carryNames (propNode (.elem k a c)) :: propList [] [] rest

end

/-- Pass 2, PropagateTargets, at the root. -/
def propagateT (t : Node) : Node := propNode t

/-- Pass 3a, DocTitle: a document whose only child is a section gets
the section's title promoted to document title and the section body
spliced into the document. -/
def docTitleT (t : Node) : Node :=
  match t with
  | .elem "document" a [.elem "section" sa (.elem "title" ta tc :: srest)] =>
      .elem "document" { a with ids := a.ids ++ sa.ids, names := a.names ++ sa.names }
        (.elem "title" ta tc :: srest)
  | _ => t

/-- Pass 3b, DocInfo: an initial field list (after the document title
when present) becomes structured document metadata. -/
def docInfoT (t : Node) : Node :=
  match t with
  | .elem "document" a (.elem "title" ta tc :: .elem "field_list" fa fc :: rest) =>
      .elem "document" a (.elem "title" ta tc :: .elem "docinfo" fa fc :: rest)
  | .elem "document" a (.elem "field_list" fa fc :: rest) =>
      .elem "document" a (.elem "docinfo" fa fc :: rest)
  | _ => t

/-- Pass 3c, SectionSubTitle: a document holding exactly a title and
one section promotes the section's title to a document subtitle. -/
def subTitleT (t : Node) : Node :=
  match t with
  | .elem "document" a [.elem "title" ta tc, .elem "section" sa (.elem "title" ta2 tc2 :: srest)] =>
      .elem "document" { a with ids := a.ids ++ sa.ids, names := a.names ++ sa.names }
        (.elem "title" ta tc :: .elem "subtitle" ta2 tc2 :: srest)
  | _ => t

/-- Pass 3, the frontmatter promotions in order: title, then docinfo,
then subtitle. -/
def frontmatterT (t : Node) : Node := subTitleT (docInfoT (docTitleT t))

mutual

/-- The attrs of the anonymous targets of the tree, in document
order. -/
def anonTgts : Node → List Attrs
  | .text _ => []
  | .elem k a c => (if k = "target" ∧ a.anonymous then [a] else []) ++ anonTgtsList c

/-- List form of `anonTgts`. -/
def anonTgtsList : List Node → List Attrs
  | [] => []
  | n :: ns => anonTgts n ++ anonTgtsList ns

end

mutual

/-- The attrs of the anonymous references of the tree, in document
order. -/
def anonRefs : Node → List Attrs
  | .text _ => []
  | .elem k a c => (if k = "reference" ∧ a.anonymous then [a] else []) ++ anonRefsList c

/-- List form of `anonRefs`. -/
def anonRefsList : List Node → List Attrs
  | [] => []
  | n :: ns => anonRefs n ++ anonRefsList ns

end

/-- The id a resolved internal target contributes: its first id, or
its refid when it is a propagated placeholder. -/
def targetDest (a : Attrs) : Option String :=
  match a.refid with
  | some i => some i
  | none => a.ids.head?

/-- Resolution of one anonymous reference against its paired target:
externally (refuri) when the target is external, else internally
(refid to the target's first id). -/
def pairedRef (tg a : Attrs) : Attrs :=
  match tg.refuri with
  | some u => { a with refuri := some u, refname := none }
  | none => { a with refid := targetDest tg, refname := none }

mutual

/-- Modelled from the spec: pair the anonymous references with the
anonymous targets strictly in document order, consuming the target
list reference by reference. -/
def anonRw : List Attrs → Node → List Attrs × Node
  | tgts, .text s => (tgts, .text s)
  | tgts, .elem k a c =>
      if k = "reference" ∧ a.anonymous then
        match tgts with
        | tg :: rest =>
            let p := anonRwList rest c
            (p.1, .elem k (pairedRef tg a) p.2)
        | [] =>
            let p := anonRwList [] c
            (p.1, .elem k a p.2)
      else
        let p := anonRwList tgts c
        (p.1, .elem k a p.2)

/-- List form of `anonRw`, threading the remaining targets. -/
def anonRwList : List Attrs → List Node → List Attrs × List Node
  | tgts, [] => (tgts, [])
  | tgts, n :: ns =>
      let p := anonRw tgts n
      let q := anonRwList p.1 ns
      (q.1, p.2 :: q.2)

end

/-- Pass 4, AnonymousHyperlinks: the tree rewrite. -/
def anonymousT (t : Node) : Node := (anonRw (anonTgts t) t).2

/-- Pass 4, AnonymousHyperlinks: the ERROR emitted exactly on a count
mismatch between anonymous references and anonymous targets. -/
def anonymousDiags (t : Node) : List Diagnostic :=
  if (anonRefs t).length = (anonTgts t).length then []
  else
    [{ severity := .error,
       message := "Anonymous hyperlink mismatch: " ++ toString (anonRefs t).length ++
         " references but " ++ toString (anonTgts t).length ++ " targets." }]

mutual

/-- The named-target table of the tree: normalized name to target
attrs, in document order. -/
def tgtTable : Node → List (String × Attrs)
  | .text _ => []
  | .elem k a c =>
      (if k = "target" then a.names.map (fun nm => (lower nm, a)) else []) ++ tgtTableList c

/-- List form of `tgtTable`. -/
def tgtTableList : List Node → List (String × Attrs)
  | [] => []
  | n :: ns => tgtTable n ++ tgtTableList ns

end

/-- One resolution step of an indirect target's attrs against a
table: a pending refname pointing at an external entry takes its
refuri, one pointing at a resolved internal entry takes a refid to its
destination; anything else is left alone. -/
def stepAttrs (tbl : List (String × Attrs)) (a : Attrs) : Attrs :=
  match a.refuri, a.refname with
  | none, some r =>
      match lookupName tbl (lower r) with
      | some a0 =>
          match a0.refuri, a0.refname with
          | some u, _ => { a with refuri := some u, refname := none }
          | none, none =>
              match targetDest a0 with
              | some i => { a with refid := some i, refname := none }
              | none => a
          | none, some _ => a
      | none => a
  | _, _ => a

/-- One simultaneous resolution step over the whole target table. -/
def step (tbl : List (String × Attrs)) : List (String × Attrs) :=
  tbl.map (fun p => (p.1, stepAttrs tbl p.2))

/-- Modelled from the spec: follow refname chains transitively by
iterating single resolution steps to a fixpoint (one more iteration
than the table is long, at which point every resolvable chain has
reached its terminal and only dangling or circular chains remain
pending). -/
def resolvedTbl (tbl : List (String × Attrs)) : List (String × Attrs) :=
  step^[tbl.length + 1] tbl

/-- Pass 5 on one element's attrs: an indirect target is rewritten to
its chain's terminal; a reference naming an indirect target whose
terminal is internal points directly at the terminal. -/
def indirectAttrs (tbl rtbl : List (String × Attrs)) (k : String) (a : Attrs) : Attrs :=
  if k = "target" then stepAttrs rtbl a
  else if k = "reference" then
    match a.refname with
    | some r =>
        match lookupName tbl (lower r) with
        | some a0 =>
            if a0.refname.isSome then
              match lookupName rtbl (lower r) with
              | some aR =>
                  match aR.refuri, aR.refname with
                  | none, none =>
                      match targetDest aR with
                      | some i => { a with refid := some i, refname := none }
                      | none => a
                  | _, _ => a
              | none => a
            else a
        | none => a
    | none => a
  else a

mutual

/-- Rewrite every element's attrs (kind-indexed), keeping the tree
shape. -/
def mapAttrs (f : String → Attrs → Attrs) : Node → Node
  | .text s => .text s
  | .elem k a c => .elem k (f k a) (mapAttrsList f c)

/-- List form of `mapAttrs`. -/
def mapAttrsList (f : String → Attrs → Attrs) : List Node → List Node
  | [] => []
  | n :: ns => mapAttrs f n :: mapAttrsList f ns

end

/-- Pass 5, IndirectHyperlinks, at the root. -/
def indirectT (t : Node) : Node :=
  mapAttrs (indirectAttrs (tgtTable t) (resolvedTbl (tgtTable t))) t

/-- A footnote or citation as seen by the Footnotes pass: kind, its
normalized names, its first id, its label text, and its auto flag. -/
structure FInfo where
  isFootnote : Bool
  names : List String
  fid : Option String
  label : Option String
  auto : Bool
  deriving Repr, DecidableEq

/-- The label text of a footnote's children (a leading `label` node
holding one text leaf). -/
def labelOf : List Node → Option String
  | .elem "label" _ [.text s] :: _ => some s
  | _ => none

/-- Does the child list already begin with a `label` node? -/
def hasLabelChild : List Node → Bool
  | .elem "label" _ _ :: _ => true
  | _ => false

mutual

/-- Modelled from the spec: assign autonumbers to auto footnotes as
sequential integers scoped to the whole document, in the order the
footnote definitions appear; a label node holding the number is
prepended unless a label is already present. -/
def numberNode : Nat → Node → Nat × Node
  | n, .text s => (n, .text s)
  | n, .elem k a c =>
      if k = "footnote" ∧ a.auto then
        let p := numberList (n + 1) c
        (p.1, .elem k a
          (if hasLabelChild c then p.2
           else .elem "label" {} [.text (toString (n + 1))] :: p.2))
      else
        let p := numberList n c
        (p.1, .elem k a p.2)

/-- List form of `numberNode`, threading the counter. -/
def numberList : Nat → List Node → Nat × List Node
  | n, [] => (n, [])
  | n, x :: xs =>
      let p := numberNode n x
      let q := numberList p.1 xs
      (q.1, p.2 :: q.2)

end

mutual

/-- The footnotes and citations of the tree, in document order. -/
def fnInfos : Node → List FInfo
  | .text _ => []
  | .elem k a c =>
      (if k = "footnote" then [⟨true, a.names.map lower, a.ids.head?, labelOf c, a.auto⟩]
       else if k = "citation" then [⟨false, a.names.map lower, a.ids.head?, labelOf c, a.auto⟩]
       else []) ++ fnInfosList c

/-- List form of `fnInfos`. -/
def fnInfosList : List Node → List FInfo
  | [] => []
  | n :: ns => fnInfos n ++ fnInfosList ns

end

/-- The footnote (or citation) declaring a normalized name. -/
def findByName (infos : List FInfo) (isFoot : Bool) (r : String) : Option FInfo :=
  infos.find? (fun fi => fi.isFootnote == isFoot && fi.names.contains (lower r))

/-- The display children a resolving reference receives: its target's
label text when the reference is empty, else its own children. -/
def labelText (fi : FInfo) (c : List Node) : List Node :=
  match c with
  | [] => (match fi.label with | some s => [Node.text s] | none => [])
  | _ => c

/-- Modelled from the spec: resolve one footnote or citation
reference.  A reference already carrying a refid is left alone (an
auto unlabeled one still consumes its positional slot); a labeled
reference resolves by name; an unlabeled auto footnote reference takes
the next unlabeled auto footnote from the positional pool.  Returns
the new attrs and children, the remaining pool, and the
(reference id, target id) pairs emitted for backref population. -/
def refUpdate (infos : List FInfo) (pool : List FInfo) (k : String) (a : Attrs)
    (c : List Node) : Attrs × List Node × List FInfo × List (String × String) :=
  let isFoot := k == "footnote_reference"
  if a.refid.isSome then
    (a, c, if isFoot && a.auto && a.refname.isNone then pool.drop 1 else pool, [])
  else
    match a.refname with
    | some r =>
        match findByName infos isFoot r with
        | some fi =>
            match fi.fid with
            | some i =>
                ({ a with refid := some i, refname := none },
                 labelText fi c,
                 pool,
                 (match a.ids.head? with | some rid => [(rid, i)] | none => []))
            | none => (a, c, pool, [])
        | none => (a, c, pool, [])
    | none =>
        if isFoot && a.auto then
          match pool with
          | fi :: rest =>
              match fi.fid with
              | some i =>
                  ({ a with refid := some i },
                   labelText fi c,
                   rest,
                   (match a.ids.head? with | some rid => [(rid, i)] | none => []))
              | none => (a, c, rest, [])
          | [] => (a, c, [], [])
        else (a, c, pool, [])

mutual

/-- The reference-resolution walk of the Footnotes pass, threading the
positional pool and accumulating backref pairs in document order. -/
def fnResNode (infos : List FInfo) : List FInfo → Node →
    List FInfo × List (String × String) × Node
  | pool, .text s => (pool, [], .text s)
  | pool, .elem k a c =>
      if k = "footnote_reference" ∨ k = "citation_reference" then
        let r := refUpdate infos pool k a c
        (r.2.2.1, r.2.2.2, .elem k r.1 r.2.1)
      else
        let p := fnResList infos pool c
        (p.1, p.2.1, .elem k a p.2.2)

/-- List form of `fnResNode`. -/
def fnResList (infos : List FInfo) : List FInfo → List Node →
    List FInfo × List (String × String) × List Node
  | pool, [] => (pool, [], [])
  | pool, n :: ns =>
      let p := fnResNode infos pool n
      let q := fnResList infos p.1 ns
      (q.1, p.2.1 ++ q.2.1, p.2.2 :: q.2.2)

end

mutual

/-- Append to each footnote's and citation's backrefs the ids of the
references that resolved to it, in document order of the references. -/
def addBackrefs (pairs : List (String × String)) : Node → Node
  | .text s => .text s
  | .elem k a c =>
      if k = "footnote" ∨ k = "citation" then
        let extra := match a.ids.head? with
          | some i => (pairs.filter (fun p => p.2 == i)).map (fun p => p.1)
          | none => []
        .elem k { a with backrefs := a.backrefs ++ extra } (addBackrefsList pairs c)
      else .elem k a (addBackrefsList pairs c)

/-- List form of `addBackrefs`. -/
def addBackrefsList (pairs : List (String × String)) : List Node → List Node
  | [] => []
  | n :: ns => addBackrefs pairs n :: addBackrefsList pairs ns

end

/-- The unlabeled auto footnotes of the tree, in document order: the
positional pool of the Footnotes pass. -/
def fnPool (infos : List FInfo) : List FInfo :=
  infos.filter (fun fi => fi.isFootnote && fi.auto && fi.names.isEmpty && fi.fid.isSome)

/-- Pass 6, Footnotes: number the auto footnotes in definition order,
resolve the references, and populate backrefs. -/
def footnotesT (t : Node) : Node :=
  let t1 := (numberNode 0 t).2
  let infos := fnInfos t1
  let r := fnResNode infos (fnPool infos) t1
  addBackrefs r.2.1 r.2.2

/-- Pass 7a, ExternalTargets, on one element's attrs: a reference
still carrying a refname whose target is external takes the target's
refuri. -/
def extAttrs (tbl : List (String × Attrs)) (k : String) (a : Attrs) : Attrs :=
  if k = "reference" ∧ a.refid.isNone ∧ a.refuri.isNone then
    match a.refname with
    | some r =>
        match lookupName tbl (lower r) with
        | some a0 =>
            match a0.refuri with
            | some u => { a with refuri := some u, refname := none }
            | none => a
        | none => a
    | none => a
  else a

/-- Pass 7b, InternalTargets, on one element's attrs: a reference
still carrying a refname whose target is a direct internal target
takes a refid to it. -/
def intAttrs (tbl : List (String × Attrs)) (k : String) (a : Attrs) : Attrs :=
  if k = "reference" ∧ a.refid.isNone ∧ a.refuri.isNone then
    match a.refname with
    | some r =>
        match lookupName tbl (lower r) with
        | some a0 =>
            if a0.refuri.isNone ∧ a0.refname.isNone then
              match targetDest a0 with
              | some i => { a with refid := some i, refname := none }
              | none => a
            else a
        | none => a
    | none => a
  else a

/-- Pass 7a, ExternalTargets. -/
def extT (t : Node) : Node := mapAttrs (extAttrs (tgtTable t)) t

/-- Pass 7b, InternalTargets. -/
def intT (t : Node) : Node := mapAttrs (intAttrs (tgtTable t)) t

/-- Pass 7, ExternalTargets then InternalTargets. -/
def extIntT (t : Node) : Node := intT (extT t)

mutual

/-- Pass 8, StripComments, below one node. -/
def stripNode : Node → Node
  | .text s => .text s
  | .elem k a c => .elem k a (stripList c)

/-- List form of `stripNode`: comment elements are removed. -/
def stripList : List Node → List Node
  | [] => []
  | .elem "comment" _ _ :: rest => stripList rest
  | n :: rest => stripNode n :: stripList rest

end

/-- Pass 8, StripComments. -/
def stripT (t : Node) : Node := stripNode t

/-- Pass 9, DanglingReferences: emits INFO diagnostics only and never
changes the tree (unresolved nodes are not converted to
`problematic`). -/
def danglingT (t : Node) : Node := t

/-- Is this node a transition element? -/
def isTransition : Node → Bool
  | .elem k _ _ => k == "transition"
  | .text _ => false

/-- Split off the maximal trailing run of transitions from a processed
child list. -/
def splitTrailingTrans (l : List Node) : List Node × List Node :=
  ((l.reverse.dropWhile isTransition).reverse, (l.reverse.takeWhile isTransition).reverse)

mutual

/-- Modelled from the spec: transitions ending a section's content are
extracted and handed up to be re-inserted as siblings after that
section (transitively, until no longer at the end of a section). -/
def transNode : Node → Node × List Node
  | .text s => (.text s, [])
  | .elem k a c =>
      let c2 := transList c
      if k = "section" then
        let p := splitTrailingTrans c2
        (.elem k a p.1, p.2)
      else (.elem k a c2, [])

/-- List form of `transNode`: extracted transitions are inserted right
after the section they came from. -/
def transList : List Node → List Node
  | [] => []
  | n :: rest =>
      let p := transNode n
      p.1 :: (p.2 ++ transList rest)

end

/-- Pass 10, Transitions (the document root is not a section, so a
document-final transition stays in place). -/
def transitionsT (t : Node) : Node := (transNode t).1

/-- The full transform pipeline's tree rewrite: the ten passes in
their fixed order. -/
def pipelineT (t : Node) : Node :=
  transitionsT (danglingT (stripT (extIntT (footnotesT (indirectT
    (anonymousT (frontmatterT (propagateT (substT t)))))))))

/-- A document made of one paragraph with the given inline nodes,
followed by the system-message nodes of the given diagnostics. -/
def docOut (ns : List Node) (ds : List Diagnostic) : Node × List Diagnostic :=
  (.elem "document" {} (.elem "paragraph" {} ns :: ds.map sysMsgNode), ds)

/-- C1: every PEP role whose content is a number in 0-9999 and every
RFC role whose content is `<n>` or `<n>#fragment` with `n ≥ 1` yields a
`Reference` with the deterministic external URI and display text
`PEP <n>` / `RFC <n>`, the fragment appended verbatim to the URI only;
in particular `:PEP:` on `0` gives refuri
`http://www.python.org/dev/peps/pep-0000` with text `PEP 0`, and
`:RFC:` on `2822#section1` gives refuri
`http://tools.ietf.org/html/rfc2822.html#section1` with text
`RFC 2822`. -/
theorem claim_C1 :
    (∀ s n, natFromChars s.data = some n → n ≤ 9999 →
      pepRole s = .ok [refNode (pepBaseUrl ++ pad4 n) ("PEP " ++ s)]) ∧
    (∀ s num n, breakAt '#' s.data = (num, none) →
      natFromChars num = some n → 1 ≤ n →
      rfcRole s = .ok [refNode (rfcBaseUrl ++ toString n ++ ".html") ("RFC " ++ toString n)]) ∧
    (∀ s num f n, breakAt '#' s.data = (num, some f) →
      natFromChars num = some n → 1 ≤ n →
      rfcRole s = .ok [refNode (rfcBaseUrl ++ toString n ++ ".html" ++ ("#" ++ String.mk f))
        ("RFC " ++ toString n)]) ∧
    parse ":PEP:`0`" =
      docOut [refNode "http://www.python.org/dev/peps/pep-0000" "PEP 0"] [] ∧
    parse ":RFC:`2822#section1`" =
      docOut [refNode "http://tools.ietf.org/html/rfc2822.html#section1" "RFC 2822"] [] := by
  refine ⟨?_, ?_, ?_, rfl, rfl⟩
  · intro s n h1 h2
    simp [pepRole, h1, h2]
  · intro s num n h1 h2 h3
    simp [rfcRole, h1, h2, h3]
  · intro s num f n h1 h2 h3
    simp [rfcRole, h1, h2, h3]

/-- C1 witness: the general parts of C1 applied at concrete inputs. -/
theorem claim_C1_witness :
    pepRole "42" = .ok [refNode (pepBaseUrl ++ pad4 42) ("PEP " ++ "42")] ∧
    rfcRole "7" = .ok [refNode (rfcBaseUrl ++ toString 7 ++ ".html") ("RFC " ++ toString 7)] ∧
    rfcRole "7#frag" = .ok [refNode (rfcBaseUrl ++ toString 7 ++ ".html" ++
      ("#" ++ String.mk ['f', 'r', 'a', 'g'])) ("RFC " ++ toString 7)] :=
  ⟨claim_C1.1 "42" 42 rfl (by decide),
   claim_C1.2.1 "7" ['7'] 7 rfl rfl (by decide),
   claim_C1.2.2.1 "7#frag" ['7'] ['f', 'r', 'a', 'g'] 7 rfl rfl (by decide)⟩

/-- C6: PEP/RFC content that is non-numeric or out of range (PEP above
9999, RFC below 1) produces exactly one ERROR diagnostic stating the
valid range and a `problematic` node wrapping the original text with
its role markup; in particular `:PEP:` on `-1` wraps `:PEP:`-1`` with
the single ERROR `PEP number must be a number from 0 to 9999; "-1" is
invalid.`. -/
theorem claim_C6 :
    (∀ s, natFromChars s.data = none →
      pepRole s = .err .error
        ("PEP number must be a number from 0 to 9999; \"" ++ s ++ "\" is invalid.")) ∧
    (∀ s n, natFromChars s.data = some n → 9999 < n →
      pepRole s = .err .error
        ("PEP number must be a number from 0 to 9999; \"" ++ s ++ "\" is invalid.")) ∧
    (∀ s, natFromChars (breakAt '#' s.data).1 = none →
      rfcRole s = .err .error
        ("RFC number must be a number greater than or equal to 1; \"" ++ s ++ "\" is invalid.")) ∧
    (∀ s, natFromChars (breakAt '#' s.data).1 = some 0 →
      rfcRole s = .err .error
        ("RFC number must be a number greater than or equal to 1; \"" ++ s ++ "\" is invalid.")) ∧
    parse ":PEP:`-1`" =
      docOut [.elem "problematic" { ids := ["id2"], refid := some "id1" } [.text ":PEP:`-1`"]]
        [{ severity := .error,
           message := "PEP number must be a number from 0 to 9999; \"-1\" is invalid.",
           ids := ["id1"], backrefs := ["id2"] }] := by
  refine ⟨?_, ?_, ?_, ?_, rfl⟩
  · intro s h
    simp [pepRole, h]
  · intro s n h1 h2
    simp [pepRole, h1, Nat.not_le.mpr h2]
  · intro s h
    simp [rfcRole, h]
  · intro s h
    simp [rfcRole, h]

/-- C6 witness: the general parts of C6 applied at concrete inputs. -/
theorem claim_C6_witness :
    pepRole "x" = .err .error
      ("PEP number must be a number from 0 to 9999; \"" ++ "x" ++ "\" is invalid.") ∧
    pepRole "10000" = .err .error
      ("PEP number must be a number from 0 to 9999; \"" ++ "10000" ++ "\" is invalid.") ∧
    rfcRole "x" = .err .error
      ("RFC number must be a number greater than or equal to 1; \"" ++ "x" ++ "\" is invalid.") ∧
    rfcRole "0" = .err .error
      ("RFC number must be a number greater than or equal to 1; \"" ++ "0" ++ "\" is invalid.") :=
  ⟨claim_C6.1 "x" rfl, claim_C6.2.1 "10000" 10000 rfl (by decide),
   claim_C6.2.2.1 "x" rfl, claim_C6.2.2.2.1 "0" rfl⟩

/-- C5: a role name matching neither a registered custom role nor the
canonical set makes the span resolver emit first an INFO diagnostic
(trying as canonical role name) and then an ERROR diagnostic (unknown
role), wrapping the original text with its delimiters in a
`problematic` node; in particular for `:role:` on `interpreted`. -/
theorem claim_C5 :
    (∀ customs lexer name content, findCustom customs name = none →
      canonicalRole lexer name content = none →
      applyRole customs lexer name content = none) ∧
    (∀ customs lexer cnt nameOrig content rawtext,
      applyRole customs lexer (lower nameOrig) content = none →
      applySpan customs lexer cnt (some nameOrig) none content rawtext =
        ([.elem "problematic"
            { ids := ["id" ++ toString (cnt + 2)], refid := some ("id" ++ toString (cnt + 1)) }
            [.text rawtext]],
         [{ severity := .info,
            message := "No role entry for \"" ++ nameOrig ++
              "\" in module \"docutils.parsers.rst.languages.en\".\nTrying \"" ++
              nameOrig ++ "\" as canonical role name." },
          { severity := .error,
            message := "Unknown interpreted text role \"" ++ nameOrig ++ "\".",
            ids := ["id" ++ toString (cnt + 1)], backrefs := ["id" ++ toString (cnt + 2)] }],
         cnt + 2)) ∧
    parse ":role:`interpreted`" =
      docOut [.elem "problematic" { ids := ["id2"], refid := some "id1" } [.text ":role:`interpreted`"]]
        [{ severity := .info,
           message := "No role entry for \"role\" in module \"docutils.parsers.rst.languages.en\".\nTrying \"role\" as canonical role name." },
         { severity := .error, message := "Unknown interpreted text role \"role\".",
           ids := ["id1"], backrefs := ["id2"] }] := by
  refine ⟨?_, ?_, rfl⟩
  · intro customs lexer name content h1 h2
    simp [applyRole, h1, h2]
  · intro customs lexer cnt nameOrig content rawtext h
    simp [applySpan, h, mkProblematic]

/-- C5 witness: the general parts of C5 applied at concrete inputs. -/
theorem claim_C5_witness :
    applyRole [] defaultLexer "nosuchrole" "x" = none ∧
    applySpan [] defaultLexer 0 (some "nosuchrole") none "x" ":nosuchrole:`x`" =
      ([.elem "problematic" { ids := ["id2"], refid := some "id1" } [.text ":nosuchrole:`x`"]],
       [{ severity := .info,
          message := "No role entry for \"nosuchrole\" in module \"docutils.parsers.rst.languages.en\".\nTrying \"nosuchrole\" as canonical role name." },
        { severity := .error, message := "Unknown interpreted text role \"nosuchrole\".",
          ids := ["id1"], backrefs := ["id2"] }],
       2) :=
  ⟨claim_C5.1 [] defaultLexer "nosuchrole" "x" rfl rfl,
   claim_C5.2.1 [] defaultLexer 0 "nosuchrole" "x" ":nosuchrole:`x`" rfl⟩

/-- C7: a custom role derived from `code` by the `role` directive
produces a literal node whose classes are `code`, then the custom
role's own classes, then the `:language:` option, and applies the same
pluggable tokenizer as `code`, keyed by the `:language:` option; in
particular registering `python(code)` with `:class: testclass` and
`:language: python` yields a literal with classes exactly
`code testclass python` tokenized by the lexer for `python`. -/
theorem claim_C7 :
    (∀ (lexer : Lexer) (cr : CustomRole) content, cr.base = "code" →
      applyCustom lexer cr content =
        .ok [.elem "literal" { classes := codeClasses cr.classes cr.language }
          (match cr.language with
           | some l => lexer l content
           | none => textChildren content)]) ∧
    (∀ cls l, l ∉ ("code" :: cls) →
      codeClasses cls (some l) = "code" :: (cls ++ [l])) ∧
    (∀ (lexer : Lexer) content,
      applyRole (registerRole [] "python" "code" (some ["testclass"]) (some "python"))
          lexer "python" content =
        some (.ok [.elem "literal" { classes := ["code", "testclass", "python"] }
          (lexer "python" content)])) := by
  refine ⟨?_, ?_, ?_⟩
  · intro lexer cr content h
    obtain ⟨n, b, cls, lang⟩ := cr
    simp only at h
    subst h
    simp [applyCustom, codeRole]
  · intro cls l h
    rw [List.mem_cons] at h
    push_neg at h
    simp [codeClasses, h.1, h.2]
  · intro lexer content
    rfl

/-- C7 witness: the general parts of C7 applied at concrete inputs. -/
theorem claim_C7_witness :
    applyCustom defaultLexer ⟨"tex", "code", ["tex"], some "latex"⟩ "x" =
      .ok [.elem "literal" { classes := codeClasses ["tex"] (some "latex") }
        (defaultLexer "latex" "x")] ∧
    codeClasses ["tex"] (some "latex") = "code" :: (["tex"] ++ ["latex"]) :=
  ⟨claim_C7.1 defaultLexer ⟨"tex", "code", ["tex"], some "latex"⟩ "x" rfl,
   claim_C7.2.1 ["tex"] "latex" (by decide)⟩

/-- C8: an interpreted-text start-string with no end-string before the
end of the block yields exactly one WARNING (start-string without
end-string), the opening backtick becomes a `problematic` leaf
cross-linked to the system message (the leaf carries a refid to the
message id and the message a backref to the leaf id), and the
remaining text stays plain paragraph content. -/
theorem claim_C8 :
    (∀ customs lexer fuel prev pending cs cnt pre rest2,
      tryStart prev cs = some (pre, rest2) →
      findEnd (rest2.length + 1) true rest2 = none →
      scanAux customs lexer (fuel + 1) prev pending cs cnt =
        (flushText (pending ++ (roleMark pre).data) ++
          .elem "problematic"
            { ids := ["id" ++ toString (cnt + 2)], refid := some ("id" ++ toString (cnt + 1)) }
            [.text "`"] ::
          (scanAux customs lexer fuel (some bq) [] rest2 (cnt + 2)).1,
         { severity := .warning,
           message := "Inline interpreted text or phrase reference start-string without end-string.",
           ids := ["id" ++ toString (cnt + 1)],
           backrefs := ["id" ++ toString (cnt + 2)] } ::
           (scanAux customs lexer fuel (some bq) [] rest2 (cnt + 2)).2.1,
         (scanAux customs lexer fuel (some bq) [] rest2 (cnt + 2)).2.2)) ∧
    parse "`interpreted without closing backquote" =
      docOut [.elem "problematic" { ids := ["id2"], refid := some "id1" } [.text "`"],
              .text "interpreted without closing backquote"]
        [{ severity := .warning,
           message := "Inline interpreted text or phrase reference start-string without end-string.",
           ids := ["id1"], backrefs := ["id2"] }] := by
  refine ⟨?_, rfl⟩
  intro customs lexer fuel prev pending cs cnt pre rest2 h1 h2
  cases cs with
  | nil => simp [tryStart] at h1
  | cons c rest =>
      have hc : ¬c = '\\' := by
        intro hcc
        subst hcc
        simp [tryStart, bq] at h1
      simp only [scanAux, if_neg hc, h1, h2]
      simp [List.append_assoc]

/-- C8 witness: the general part of C8 applied at a concrete input. -/
theorem claim_C8_witness :
    tryStart none "`ab".data = some (none, "ab".data) ∧
    findEnd ("ab".data.length + 1) true "ab".data = none ∧
    scanAux [] defaultLexer 1 none [] "`ab".data 0 =
      ([.elem "problematic" { ids := ["id2"], refid := some "id1" } [.text "`"]],
       [{ severity := .warning,
          message := "Inline interpreted text or phrase reference start-string without end-string.",
          ids := ["id1"], backrefs := ["id2"] }],
       2) :=
  ⟨rfl, rfl, claim_C8.1 [] defaultLexer 0 none [] "`ab".data 0 none "ab".data rfl rfl⟩

/-- C9: a span whose content is emptied by an escape (`\ `) is valid
and produces an empty-content node of the role's kind with no
diagnostic, while an unquoted trailing space with no covering escape
fails to parse as interpreted text and yields a `problematic` plus a
start-string-without-end-string WARNING. -/
theorem claim_C9 :
    (∀ kind content, unescape content = "" →
      simpleNode kind (unescape content) = .ok [.elem kind {} []]) ∧
    parse ":title:`\\ ` (interpreted text containing empty string)" =
      docOut [.elem "title_reference" {} [],
              .text " (interpreted text containing empty string)"] [] ∧
    parse ":title:`\\  ` (trailing unquoted space)" =
      docOut [.text ":title:",
              .elem "problematic" { ids := ["id2"], refid := some "id1" } [.text "`"],
              .text " ` (trailing unquoted space)"]
        [{ severity := .warning,
           message := "Inline interpreted text or phrase reference start-string without end-string.",
           ids := ["id1"], backrefs := ["id2"] }] := by
  refine ⟨?_, rfl, rfl⟩
  intro kind content h
  simp [simpleNode, textChildren, h]

/-- C9 witness: the general part of C9 applied at a concrete input. -/
theorem claim_C9_witness :
    simpleNode "title_reference" (unescape "\\ ") = .ok [.elem "title_reference" {} []] :=
  claim_C9.1 "title_reference" "\\ " rfl

/-- Pair a reference list with a target list positionally; references
beyond the target count stay as they are. -/
def pairUp : List Attrs → List Attrs → List Attrs
  | [], _ => []
  | a :: rs, [] => a :: pairUp rs []
  | a :: rs, tg :: ts => pairedRef tg a :: pairUp rs ts

theorem pairedRef_anonymous (tg a : Attrs) : (pairedRef tg a).anonymous = a.anonymous := by
  cases h : tg.refuri <;> simp [pairedRef, h]

theorem pairUp_nil : ∀ rs, pairUp rs [] = rs
  | [] => rfl
  | _ :: rs => by simp [pairUp, pairUp_nil rs]

theorem pairUp_append : ∀ (l1 l2 ts : List Attrs),
    pairUp (l1 ++ l2) ts = pairUp l1 ts ++ pairUp l2 (ts.drop l1.length)
  | [], l2, ts => by simp [pairUp]
  | a :: l1, l2, [] => by
      simp [pairUp, pairUp_nil, pairUp_append l1 l2 []]
  | a :: l1, l2, tg :: ts => by
      simp [pairUp, pairUp_append l1 l2 ts]

theorem pairUp_get : ∀ (rs ts : List Attrs) (n : Nat) (a tg : Attrs),
    rs[n]? = some a → ts[n]? = some tg → (pairUp rs ts)[n]? = some (pairedRef tg a)
  | [], _, n, _, _, h, _ => by simp at h
  | _ :: _, [], n, _, _, _, h => by simp at h
  | r :: rs, t :: ts, 0, a, tg, h1, h2 => by
      simp at h1 h2
      subst h1; subst h2
      simp [pairUp]
  | r :: rs, t :: ts, n + 1, a, tg, h1, h2 => by
      simp at h1 h2
      simpa [pairUp] using pairUp_get rs ts n a tg h1 h2

mutual

theorem anonRw_spec : ∀ (tgts : List Attrs) (t : Node),
    (anonRw tgts t).1 = tgts.drop (anonRefs t).length ∧
    anonRefs (anonRw tgts t).2 = pairUp (anonRefs t) tgts
  | tgts, .text s => by simp [anonRw, anonRefs, pairUp]
  | tgts, .elem k a c => by
      by_cases h : k = "reference" ∧ a.anonymous = true
      · match tgts with
        | [] =>
            have ih := anonRwList_spec [] c
            simp [anonRw, anonRefs, h, ih.1, ih.2, pairUp, pairUp_nil]
        | tg :: rest =>
            have ih := anonRwList_spec rest c
            simp [anonRw, anonRefs, h, ih.1, ih.2, pairUp, pairedRef_anonymous, h.2]
      · have ih := anonRwList_spec tgts c
        simp [anonRw, anonRefs, h, ih.1, ih.2]

theorem anonRwList_spec : ∀ (tgts : List Attrs) (l : List Node),
    (anonRwList tgts l).1 = tgts.drop (anonRefsList l).length ∧
    anonRefsList (anonRwList tgts l).2 = pairUp (anonRefsList l) tgts
  | tgts, [] => by simp [anonRwList, anonRefsList, pairUp]
  | tgts, n :: ns => by
      have ih1 := anonRw_spec tgts n
      have ih2 := anonRwList_spec (tgts.drop (anonRefs n).length) ns
      simp [anonRwList, anonRefsList, ih1.1, ih1.2, ih2.1, ih2.2,
        pairUp_append, List.drop_drop, Nat.add_comm]

end

/-- The README AnonymousHyperlinks scenario: two anonymous references
followed by an internal anonymous target and an external one. -/
def anonExample : Node := .elem "document" {}
  [.elem "paragraph" {}
    [.elem "reference" { anonymous := true } [.text "internal"],
     .elem "reference" { anonymous := true } [.text "external"]],
   .elem "target" { anonymous := true, ids := ["id1"] } [],
   .elem "target" { anonymous := true, ids := ["id2"], refuri := some "http://external" } []]

/-- Expected result: the first reference resolves internally (refid),
the second externally (refuri), in document order. -/
def anonExpected : Node := .elem "document" {}
  [.elem "paragraph" {}
    [.elem "reference" { anonymous := true, refid := some "id1" } [.text "internal"],
     .elem "reference" { anonymous := true, refuri := some "http://external" } [.text "external"]],
   .elem "target" { anonymous := true, ids := ["id1"] } [],
   .elem "target" { anonymous := true, ids := ["id2"], refuri := some "http://external" } []]

/-- C3: the AnonymousHyperlinks pass pairs the Nth anonymous reference
with the Nth anonymous target strictly in document order (internal
target gives a refid, external a refuri), and emits an ERROR exactly
when the reference and target counts differ; in the README scenario of
two anonymous references before an internal then an external anonymous
target, the first reference receives a refid and the second a
refuri. -/
theorem claim_C3 :
    (∀ (t : Node) (n : Nat) (a tg : Attrs),
      (anonRefs t)[n]? = some a → (anonTgts t)[n]? = some tg →
      (anonRefs (anonymousT t))[n]? = some (pairedRef tg a)) ∧
    (∀ t : Node, anonymousDiags t ≠ [] ↔ (anonRefs t).length ≠ (anonTgts t).length) ∧
    anonymousT anonExample = anonExpected ∧ anonymousDiags anonExample = [] := by
  refine ⟨?_, ?_, rfl, rfl⟩
  · intro t n a tg h1 h2
    rw [anonymousT, (anonRw_spec (anonTgts t) t).2]
    exact pairUp_get _ _ n a tg h1 h2
  · intro t
    by_cases h : (anonRefs t).length = (anonTgts t).length <;> simp [anonymousDiags, h]

/-- C3 witness: the general parts of C3 applied at concrete inputs. -/
theorem claim_C3_witness :
    (anonRefs anonExample)[0]? = some { anonymous := true } ∧
    (anonTgts anonExample)[0]? = some { anonymous := true, ids := ["id1"] } ∧
    (anonRefs (anonymousT anonExample))[0]? =
      some (pairedRef { anonymous := true, ids := ["id1"] } { anonymous := true }) ∧
    (anonymousDiags anonExample ≠ [] ↔
      (anonRefs anonExample).length ≠ (anonTgts anonExample).length) :=
  ⟨rfl, rfl,
   claim_C3.1 anonExample 0 { anonymous := true } { anonymous := true, ids := ["id1"] } rfl rfl,
   claim_C3.2.1 anonExample⟩

mutual

/-- The label of every auto footnote of the tree, in the document
order of the footnote definitions. -/
def autoLabels : Node → List (Option String)
  | .text _ => []
  | .elem k a c => (if k = "footnote" ∧ a.auto then [labelOf c] else []) ++ autoLabelsList c

/-- List form of `autoLabels`. -/
def autoLabelsList : List Node → List (Option String)
  | [] => []
  | n :: ns => autoLabels n ++ autoLabelsList ns

end

mutual

/-- No auto footnote of the tree carries a label yet. -/
def noPreLabels : Node → Bool
  | .text _ => true
  | .elem k a c =>
      !(k == "footnote" && a.auto && hasLabelChild c) && noPreLabelsList c

/-- List form of `noPreLabels`. -/
def noPreLabelsList : List Node → Bool
  | [] => true
  | n :: ns => noPreLabels n && noPreLabelsList ns

end

mutual

/-- The backrefs of every footnote and citation of the tree, in
document order. -/
def fnBackrefs : Node → List (List String)
  | .text _ => []
  | .elem k a c =>
      (if k = "footnote" ∨ k = "citation" then [a.backrefs] else []) ++ fnBackrefsList c

/-- List form of `fnBackrefs`. -/
def fnBackrefsList : List Node → List (List String)
  | [] => []
  | n :: ns => fnBackrefs n ++ fnBackrefsList ns

end

mutual

theorem numberNode_spec : ∀ (n : Nat) (t : Node), noPreLabels t = true →
    (numberNode n t).1 = n + (autoLabels t).length ∧
    autoLabels (numberNode n t).2 =
      (List.range' (n + 1) (autoLabels t).length).map (fun m => some (toString m))
  | n, .text s, _ => by simp [numberNode, autoLabels]
  | n, .elem k a c, h => by
      rw [noPreLabels, Bool.and_eq_true] at h
      by_cases hk : k = "footnote" ∧ a.auto = true
      · have hnl : hasLabelChild c = false := by
          rcases h with ⟨h1, _⟩
          simpa [hk.1, hk.2] using h1
        have ih := numberList_spec (n + 1) c h.2
        simp only [numberNode, hk.1, hk.2, autoLabels, hnl, if_true, if_false,
          Bool.false_eq_true, and_self, reduceIte]
        constructor
        · simp [ih.1, Nat.add_assoc, Nat.add_comm 1]
        · simp [autoLabels, autoLabelsList, labelOf, ih.2, List.range'_succ]
      · have ih := numberList_spec n c h.2
        simp [numberNode, autoLabels, hk, ih.1, ih.2]

theorem numberList_spec : ∀ (n : Nat) (l : List Node), noPreLabelsList l = true →
    (numberList n l).1 = n + (autoLabelsList l).length ∧
    autoLabelsList (numberList n l).2 =
      (List.range' (n + 1) (autoLabelsList l).length).map (fun m => some (toString m))
  | n, [], _ => by simp [numberList, autoLabelsList]
  | n, x :: xs, h => by
      rw [noPreLabelsList, Bool.and_eq_true] at h
      have ih1 := numberNode_spec n x h.1
      have ih2 := numberList_spec (n + (autoLabels x).length) xs h.2
      refine ⟨?_, ?_⟩
      · simp [numberList, autoLabelsList, ih1.1, ih2.1, Nat.add_assoc]
      · simp only [numberList, autoLabelsList, ih1.1, ih1.2, ih2.2, List.length_append]
        rw [← List.map_append]
        congr 1
        have hr := List.range'_append (n + 1) (autoLabels x).length (autoLabelsList xs).length 1
        simp only [Nat.one_mul, Nat.mul_one] at hr
        rw [Nat.add_comm ((autoLabelsList xs).length) ((autoLabels x).length)] at hr
        rw [Nat.add_right_comm n (autoLabels x).length 1]
        exact hr

end

theorem fnBackrefsList_labelText (fi : FInfo) (c : List Node) :
    fnBackrefsList (labelText fi c) = fnBackrefsList c := by
  cases c with
  | nil => cases h : fi.label <;> simp [labelText, h, fnBackrefsList, fnBackrefs]
  | cons x xs => simp [labelText]

theorem refUpdate_children (infos pool k a c) :
    fnBackrefsList (refUpdate infos pool k a c).2.1 = fnBackrefsList c := by
  cases h1 : a.refid with
  | some v => simp [refUpdate, h1]
  | none =>
      cases h2 : a.refname with
      | some r =>
          cases h3 : findByName infos (k == "footnote_reference") r with
          | none => simp [refUpdate, h1, h2, h3]
          | some fi =>
              cases h4 : fi.fid <;>
                simp [refUpdate, h1, h2, h3, h4, fnBackrefsList_labelText]
      | none =>
          by_cases h3 : (k == "footnote_reference") && a.auto
          · cases pool with
            | nil => simp [refUpdate, h1, h2, h3]
            | cons fi rest =>
                cases h4 : fi.fid <;>
                  simp [refUpdate, h1, h2, h3, h4, fnBackrefsList_labelText]
          · simp [refUpdate, h1, h2, h3]

mutual

theorem numberNode_backrefs : ∀ (n : Nat) (t : Node),
    fnBackrefs (numberNode n t).2 = fnBackrefs t
  | n, .text s => rfl
  | n, .elem k a c => by
      by_cases hk : k = "footnote" ∧ a.auto = true
      · by_cases hl : hasLabelChild c = true
        · simp [numberNode, hk.1, hk.2, hl, fnBackrefs, numberList_backrefs (n + 1) c]
        · simp [numberNode, hk.1, hk.2, eq_false_of_ne_true hl, fnBackrefs,
            fnBackrefsList, numberList_backrefs (n + 1) c]
      · simp [numberNode, hk, fnBackrefs, numberList_backrefs n c]

theorem numberList_backrefs : ∀ (n : Nat) (l : List Node),
    fnBackrefsList (numberList n l).2 = fnBackrefsList l
  | n, [] => rfl
  | n, x :: xs => by
      simp [numberList, fnBackrefsList, numberNode_backrefs n x,
        numberList_backrefs (numberNode n x).1 xs]

end

mutual

theorem fnResNode_backrefs : ∀ (infos : List FInfo) (pool : List FInfo) (t : Node),
    fnBackrefs (fnResNode infos pool t).2.2 = fnBackrefs t
  | infos, pool, .text s => rfl
  | infos, pool, .elem k a c => by
      by_cases hk : k = "footnote_reference" ∨ k = "citation_reference"
      · have hk2 : ¬(k = "footnote" ∨ k = "citation") := by
          rcases hk with h | h <;> subst h <;> simp
        simp [fnResNode, hk, fnBackrefs, hk2, refUpdate_children]
      · simp [fnResNode, hk, fnBackrefs, fnResList_backrefs infos pool c]

theorem fnResList_backrefs : ∀ (infos : List FInfo) (pool : List FInfo) (l : List Node),
    fnBackrefsList (fnResList infos pool l).2.2 = fnBackrefsList l
  | infos, pool, [] => rfl
  | infos, pool, n :: ns => by
      simp [fnResList, fnBackrefsList, fnResNode_backrefs infos pool n,
        fnResList_backrefs infos (fnResNode infos pool n).1 ns]

end

/-- Backrefs lists only ever grow: the relation between a node's
backrefs before and after a pass. -/
def Grows (b b2 : List String) : Prop := ∃ e, b2 = b ++ e

mutual

theorem addBackrefs_grows : ∀ (pairs : List (String × String)) (t : Node),
    List.Forall₂ Grows (fnBackrefs t) (fnBackrefs (addBackrefs pairs t))
  | pairs, .text s => by constructor
  | pairs, .elem k a c => by
      by_cases hk : k = "footnote" ∨ k = "citation"
      · simp only [addBackrefs, hk, if_true, fnBackrefs, reduceIte]
        exact List.Forall₂.cons ⟨_, rfl⟩ (addBackrefsList_grows pairs c)
      · simpa [addBackrefs, hk, fnBackrefs] using addBackrefsList_grows pairs c

theorem addBackrefsList_grows : ∀ (pairs : List (String × String)) (l : List Node),
    List.Forall₂ Grows (fnBackrefsList l) (fnBackrefsList (addBackrefsList pairs l))
  | pairs, [] => by constructor
  | pairs, n :: ns => by
      simp only [addBackrefsList, fnBackrefsList]
      exact List.rel_append (addBackrefs_grows pairs n) (addBackrefsList_grows pairs ns)

end

/-- The README Footnotes scenario: a labeled and an unlabeled
autonumbered footnote reference, then an unlabeled and a labeled
autonumbered footnote. -/
def fnExample : Node := .elem "document" {}
  [.elem "paragraph" {}
    [.text "A labeled autonumbered footnote referece:",
     .elem "footnote_reference" { auto := true, ids := ["id1"], refname := some "footnote" } []],
   .elem "paragraph" {}
    [.text "An unlabeled autonumbered footnote referece:",
     .elem "footnote_reference" { auto := true, ids := ["id2"] } []],
   .elem "footnote" { auto := true, ids := ["id3"] }
    [.elem "paragraph" {} [.text "Unlabeled autonumbered footnote."]],
   .elem "footnote" { auto := true, ids := ["footnote"], names := ["footnote"] }
    [.elem "paragraph" {} [.text "Labeled autonumbered footnote."]]]

/-- Expected result: numbers 1 and 2 assigned in definition order, the
labeled reference resolved by name to number 2, the unlabeled one
positionally to number 1, and backrefs populated. -/
def fnExpected : Node := .elem "document" {}
  [.elem "paragraph" {}
    [.text "A labeled autonumbered footnote referece:",
     .elem "footnote_reference" { auto := true, ids := ["id1"], refid := some "footnote" } [.text "2"]],
   .elem "paragraph" {}
    [.text "An unlabeled autonumbered footnote referece:",
     .elem "footnote_reference" { auto := true, ids := ["id2"], refid := some "id3" } [.text "1"]],
   .elem "footnote" { auto := true, ids := ["id3"], backrefs := ["id2"] }
    [.elem "label" {} [.text "1"], .elem "paragraph" {} [.text "Unlabeled autonumbered footnote."]],
   .elem "footnote" { auto := true, ids := ["footnote"], names := ["footnote"], backrefs := ["id1"] }
    [.elem "label" {} [.text "2"], .elem "paragraph" {} [.text "Labeled autonumbered footnote."]]]

/-- C4: the Footnotes pass numbers auto footnotes sequentially in the
document order of the definitions (not of the references), resolves a
labeled reference to the definition declaring its refname and an
unlabeled auto reference to the next unlabeled auto footnote
positionally, and appends each resolving reference's id to its
target's backrefs, which only ever grow; the README scenario resolves
as documented there. -/
theorem claim_C4 :
    (∀ (t : Node) (n : Nat), noPreLabels t = true →
      autoLabels (numberNode n t).2 =
        (List.range' (n + 1) (autoLabels t).length).map (fun m => some (toString m))) ∧
    (∀ infos pool a c r fi i, a.refid = none → a.refname = some r →
      findByName infos true r = some fi → fi.fid = some i →
      refUpdate infos pool "footnote_reference" a c =
        ({ a with refid := some i, refname := none }, labelText fi c, pool,
         match a.ids.head? with | some rid => [(rid, i)] | none => [])) ∧
    (∀ infos fi rest a c i, a.refid = none → a.refname = none → a.auto = true →
      fi.fid = some i →
      refUpdate infos (fi :: rest) "footnote_reference" a c =
        ({ a with refid := some i }, labelText fi c, rest,
         match a.ids.head? with | some rid => [(rid, i)] | none => [])) ∧
    (∀ t : Node, List.Forall₂ Grows (fnBackrefs t) (fnBackrefs (footnotesT t))) ∧
    footnotesT fnExample = fnExpected := by
  refine ⟨?_, ?_, ?_, ?_, rfl⟩
  · intro t n h
    exact (numberNode_spec n t h).2
  · intro infos pool a c r fi i h1 h2 h3 h4
    simp [refUpdate, h1, h2, h3, h4]
  · intro infos fi rest a c i h1 h2 h3 h4
    simp [refUpdate, h1, h2, h3, h4]
  · intro t
    have h1 := numberNode_backrefs 0 t
    have h2 := fnResNode_backrefs (fnInfos (numberNode 0 t).2)
      (fnPool (fnInfos (numberNode 0 t).2)) (numberNode 0 t).2
    have h3 := addBackrefs_grows
      (fnResNode (fnInfos (numberNode 0 t).2) (fnPool (fnInfos (numberNode 0 t).2))
        (numberNode 0 t).2).2.1
      (fnResNode (fnInfos (numberNode 0 t).2) (fnPool (fnInfos (numberNode 0 t).2))
        (numberNode 0 t).2).2.2
    rw [footnotesT]
    rw [h2, h1] at h3
    exact h3

/-- C4 witness: the general parts of C4 applied at concrete inputs. -/
theorem claim_C4_witness :
    noPreLabels fnExample = true ∧
    autoLabels (numberNode 0 fnExample).2 =
      (List.range' 1 (autoLabels fnExample).length).map (fun m => some (toString m)) ∧
    refUpdate [⟨true, ["fn"], some "i3", some "1", true⟩] [] "footnote_reference"
        { refname := some "fn", ids := ["r1"] } [] =
      ({ refname := none, ids := ["r1"], refid := some "i3" }, [.text "1"], [],
       [("r1", "i3")]) :=
  ⟨rfl, claim_C4.1 fnExample 0 rfl,
   claim_C4.2.1 [⟨true, ["fn"], some "i3", some "1", true⟩] [] { refname := some "fn", ids := ["r1"] }
     [] "fn" ⟨true, ["fn"], some "i3", some "1", true⟩ "i3" rfl rfl rfl rfl⟩

/-- C10: a role marker immediately followed by two backticks is not
recognized as interpreted text: the opening backtick fails the
start-string conditions (next character may not be a backtick), the
whole span stays literal paragraph text, and no node of the role's
kind, no `problematic` node and no diagnostic is produced. -/
theorem claim_C10 :
    (∀ prev rest, startAfterOk prev (bq :: rest) = false) ∧
    parse ":title:``" =
      (.elem "document" {} [.elem "paragraph" {} [.text ":title:``"]], []) ∧
    parse ":title:`` (empty interpreted text not recognized)" =
      docOut [.text ":title:`` (empty interpreted text not recognized)"] [] := by
  refine ⟨?_, rfl, rfl⟩
  intro prev rest
  simp [startAfterOk]

/-! ### The idempotence of the transform pipeline (C2)

The spec asks that each pass, and the composition of all ten, be
idempotent when rerun with no intervening tree change.  Each pass is
idempotent individually; the composition of all ten is not (see the
counterexample with the claim): AnonymousHyperlinks pairs an anonymous
reference against an anonymous indirect target before
IndirectHyperlinks rewrites that target to its chain's terminal, so a
rerun pairs the reference against the resolved target and changes
it. -/

mutual

/-- No comment element occurs in the tree. -/
def noComment : Node → Bool
  | .text _ => true
  | .elem k _ c => !(k == "comment") && noCommentList c

/-- List form of `noComment`. -/
def noCommentList : List Node → Bool
  | [] => true
  | n :: ns => noComment n && noCommentList ns

end

mutual

/-- No anonymous target carries a refname (no anonymous indirect
target). -/
def noAnonIndirect : Node → Bool
  | .text _ => true
  | .elem k a c => !(k == "target" && a.anonymous && a.refname.isSome) && noAnonIndirectList c

/-- List form of `noAnonIndirect`. -/
def noAnonIndirectList : List Node → Bool
  | [] => true
  | n :: ns => noAnonIndirect n && noAnonIndirectList ns

end


/-! #### Pass 8, StripComments, is idempotent -/

/-- Equation: a text leaf passes through StripComments. -/
theorem stripList_cons_text (s : String) (rest : List Node) :
    stripList (.text s :: rest) = .text s :: stripList rest := rfl

/-- Equation: a comment head is removed by StripComments. -/
theorem stripList_cons_comment (a : Attrs) (c : List Node) (rest : List Node) :
    stripList (.elem "comment" a c :: rest) = stripList rest := rfl

/-- Equation: a non-comment element passes through StripComments with
its children stripped. -/
theorem stripList_cons_elem (k : String) (a : Attrs) (c : List Node) (rest : List Node)
    (h : ¬k = "comment") :
    stripList (.elem k a c :: rest) = .elem k a (stripList c) :: stripList rest := by
  rw [stripList.eq_def]
  split
  · rename_i heq; exact absurd heq (by simp)
  · rename_i heq
    have hk : k = "comment" := by
      injection heq with e1 _
      injection e1 with ek _ _
    exact absurd hk h
  · rename_i n rest2 hne heq
    injection heq with e1 e2
    subst e1
    subst e2
    rfl

mutual

/-- StripComments is idempotent below one node. -/
theorem stripNode_stripNode : ∀ y, stripNode (stripNode y) = stripNode y
  | .text _ => rfl
  | .elem k a c => by simp [stripNode, stripList_stripList c]

/-- StripComments is idempotent on a child list. -/
theorem stripList_stripList : ∀ l, stripList (stripList l) = stripList l
  | [] => rfl
  | .text s :: rest => by
      rw [stripList_cons_text, stripList_cons_text, stripList_stripList rest]
  | .elem k a c :: rest => by
      by_cases h : k = "comment"
      · subst h
        rw [stripList_cons_comment]
        exact stripList_stripList rest
      · rw [stripList_cons_elem k a c rest h,
            stripList_cons_elem k a (stripList c) (stripList rest) h,
            stripList_stripList c, stripList_stripList rest]

end

/-- Pass 8, StripComments, is idempotent. -/
theorem stripT_idem (t : Node) : stripT (stripT t) = stripT t :=
  stripNode_stripNode t

/-! #### Pass 10, Transitions, is idempotent -/

/-- Does the list end in a transition? -/
def lastIsTrans (l : List Node) : Bool :=
  match l.getLast? with
  | some n => isTransition n
  | none => false

mutual

/-- No section's content ends in a transition, recursively: the
postcondition of the Transitions pass. -/
def noTrail : Node → Bool
  | .text _ => true
  | .elem k _ c => (!(k == "section") || !(lastIsTrans c)) && noTrailList c

/-- List form of `noTrail`. -/
def noTrailList : List Node → Bool
  | [] => true
  | n :: ns => noTrail n && noTrailList ns

end

/-- Taking while a predicate holds passes over a satisfying prefix. -/
theorem takeWhile_all_append {p : Node → Bool} :
    ∀ xs ys, (∀ x ∈ xs, p x = true) →
      List.takeWhile p (xs ++ ys) = xs ++ List.takeWhile p ys := by
  intro xs
  induction xs with
  | nil => intro ys _; rfl
  | cons x xs ih =>
      intro ys h
      have hx : p x = true := h x (by simp)
      simp only [List.cons_append, List.takeWhile_cons, hx, if_pos]
      rw [ih ys (fun z hz => h z (by simp [hz]))]

/-- Dropping while a predicate holds drops a satisfying prefix. -/
theorem dropWhile_all_append {p : Node → Bool} :
    ∀ xs ys, (∀ x ∈ xs, p x = true) →
      List.dropWhile p (xs ++ ys) = List.dropWhile p ys := by
  intro xs
  induction xs with
  | nil => intro ys _; rfl
  | cons x xs ih =>
      intro ys h
      have hx : p x = true := h x (by simp)
      simp only [List.cons_append, List.dropWhile_cons, hx, if_pos]
      exact ih ys (fun z hz => h z (by simp [hz]))

/-- A list whose head fails the predicate is untouched by takeWhile. -/
theorem takeWhile_head_false {p : Node → Bool} :
    ∀ l : List Node, (match l.head? with | some x => p x = false | none => True) →
      List.takeWhile p l = [] := by
  intro l h
  cases l with
  | nil => rfl
  | cons x xs => simp only [List.head?] at h; simp [List.takeWhile_cons, h]

/-- A list whose head fails the predicate is untouched by dropWhile. -/
theorem dropWhile_head_false {p : Node → Bool} :
    ∀ l : List Node, (match l.head? with | some x => p x = false | none => True) →
      List.dropWhile p l = l := by
  intro l h
  cases l with
  | nil => rfl
  | cons x xs => simp only [List.head?] at h; simp [List.dropWhile_cons, h]

/-- The two halves of `splitTrailingTrans` concatenate back to the
input. -/
theorem splitTT_concat (l : List Node) :
    (splitTrailingTrans l).1 ++ (splitTrailingTrans l).2 = l := by
  simp only [splitTrailingTrans]
  rw [← List.reverse_append, List.takeWhile_append_dropWhile, List.reverse_reverse]

/-- The trailing half of `splitTrailingTrans` is all transitions. -/
theorem splitTT_run_trans (l : List Node) :
    ∀ x ∈ (splitTrailingTrans l).2, isTransition x = true := by
  intro x hx
  simp only [splitTrailingTrans, List.mem_reverse] at hx
  exact List.mem_takeWhile_imp hx

/-- The front half of `splitTrailingTrans` does not end in a
transition. -/
theorem splitTT_front (l : List Node) :
    lastIsTrans (splitTrailingTrans l).1 = false := by
  simp only [splitTrailingTrans, lastIsTrans]
  rw [List.getLast?_reverse]
  have key : ∀ m : List Node, (match (List.dropWhile isTransition m).head? with
      | some x => isTransition x = false | none => True) := by
    intro m
    induction m with
    | nil => trivial
    | cons x xs ih =>
        by_cases hx : isTransition x
        · simpa [List.dropWhile_cons, hx] using ih
        · simp [List.dropWhile_cons, hx]
  have h := key l.reverse
  cases hh : (List.dropWhile isTransition l.reverse).head? with
  | none => simp [hh]
  | some x => rw [hh] at h; simp [hh, h]

/-- Splitting a list that is a non-trailing front followed by a run of
transitions returns exactly those halves. -/
theorem splitTT_of (A B : List Node) (hA : lastIsTrans A = false)
    (hB : ∀ x ∈ B, isTransition x = true) :
    splitTrailingTrans (A ++ B) = (A, B) := by
  have hBrev : ∀ x ∈ B.reverse, isTransition x = true := by
    intro x hx; exact hB x (List.mem_reverse.mp hx)
  have hAhead : (match A.reverse.head? with
      | some x => isTransition x = false | none => True) := by
    rw [← List.getLast?_reverse, List.reverse_reverse]
    simp only [lastIsTrans] at hA
    cases hh : A.getLast? with
    | none => trivial
    | some x => rw [hh] at hA; simpa using hA
  simp only [splitTrailingTrans, List.reverse_append]
  rw [takeWhile_all_append B.reverse A.reverse hBrev,
      dropWhile_all_append B.reverse A.reverse hBrev,
      takeWhile_head_false A.reverse hAhead,
      dropWhile_head_false A.reverse hAhead]
  simp

/-- `noTrailList` distributes over append. -/
theorem noTrailList_append : ∀ A B : List Node,
    noTrailList (A ++ B) = (noTrailList A && noTrailList B) := by
  intro A
  induction A with
  | nil => intro B; simp [noTrailList]
  | cons x xs ih => intro B; simp [noTrailList, ih, Bool.and_assoc]

mutual

/-- The Transitions pass establishes its postcondition below one
node. -/
theorem noTrail_transNode : ∀ y, noTrail (transNode y).1 = true ∧
    noTrailList (transNode y).2 = true
  | .text _ => ⟨rfl, rfl⟩
  | .elem k a c => by
      have hc := noTrailList_transList c
      by_cases hk : k = "section"
      · have hsplit := splitTT_concat (transList c)
        have hfront := splitTT_front (transList c)
        have hparts := noTrailList_append (splitTrailingTrans (transList c)).1
          (splitTrailingTrans (transList c)).2
        rw [hsplit, hc] at hparts
        have hand := hparts.symm
        rw [Bool.and_eq_true] at hand
        have h1 := hand.1
        have h2 := hand.2
        constructor
        · simp only [transNode, hk, if_pos rfl]
          simp [noTrail, hfront, h1]
        · simp only [transNode, hk, if_pos rfl]
          exact h2
      · constructor
        · simp only [transNode, if_neg hk]
          simp [noTrail, hk, hc]
        · simp only [transNode, if_neg hk]
          rfl

/-- The Transitions pass establishes its postcondition on a child
list. -/
theorem noTrailList_transList : ∀ l, noTrailList (transList l) = true
  | [] => rfl
  | n :: rest => by
      have h1 := noTrail_transNode n
      have h2 := noTrailList_transList rest
      simp only [transList, noTrailList, Bool.and_eq_true]
      rw [noTrailList_append]
      exact ⟨h1.1, by simp [h1.2, h2]⟩

end

mutual

/-- A node already satisfying the Transitions postcondition is left
unchanged. -/
theorem transNode_fix : ∀ y, noTrail y = true → transNode y = (y, [])
  | .text _, _ => rfl
  | .elem k a c, h => by
      simp only [noTrail, Bool.and_eq_true] at h
      have hc := transList_fix c h.2
      by_cases hk : k = "section"
      · have hlast : lastIsTrans c = false := by
          have h1 := h.1
          simp [hk] at h1
          exact h1
        have hsp : splitTrailingTrans c = (c, []) := by
          have := splitTT_of c [] hlast (by intro x hx; cases hx)
          simpa using this
        simp [transNode, hk, hc, hsp]
      · simp [transNode, hk, hc]

/-- A child list already satisfying the Transitions postcondition is
left unchanged. -/
theorem transList_fix : ∀ l, noTrailList l = true → transList l = l
  | [], _ => rfl
  | n :: rest, h => by
      simp only [noTrailList, Bool.and_eq_true] at h
      simp [transList, transNode_fix n h.1, transList_fix rest h.2]

end

/-- Pass 10, Transitions, is idempotent. -/
theorem transitionsT_idem (t : Node) : transitionsT (transitionsT t) = transitionsT t := by
  have h := (noTrail_transNode t).1
  simp only [transitionsT]
  rw [transNode_fix _ h]

/-! #### Pass 3, frontmatter promotions, is idempotent -/

/-- Does the DocTitle promotion fire on these document children? -/
def dtShape : List Node → Bool
  | [.elem "section" _ (.elem "title" _ _ :: _)] => true
  | _ => false

/-- Does the DocInfo promotion fire after a document title? -/
def diShapeA : List Node → Bool
  | .elem "title" _ _ :: .elem "field_list" _ _ :: _ => true
  | _ => false

/-- Does the DocInfo promotion fire with no document title? -/
def diShapeB : List Node → Bool
  | .elem "field_list" _ _ :: _ => true
  | _ => false

/-- Does the SectionSubTitle promotion fire on these document
children? -/
def stShape : List Node → Bool
  | [.elem "title" _ _, .elem "section" _ (.elem "title" _ _ :: _)] => true
  | _ => false

/-- A list headed by a non-section element is not a DocTitle shape. -/
theorem dtShape_head_ne (k : String) (a : Attrs) (c : List Node) (r : List Node)
    (h : ¬k = "section") : dtShape (.elem k a c :: r) = false := by
  rw [dtShape.eq_def]
  split
  · rename_i heq
    injection heq with e1 _
    injection e1 with ek _ _
    exact absurd ek h
  · rfl

/-- A list headed by a non-title element is not a titled DocInfo
shape. -/
theorem diShapeA_head_ne (k : String) (a : Attrs) (c : List Node) (r : List Node)
    (h : ¬k = "title") : diShapeA (.elem k a c :: r) = false := by
  rw [diShapeA.eq_def]
  split
  · rename_i heq
    injection heq with e1 _
    injection e1 with ek _ _
    exact absurd ek h
  · rfl

/-- A titled list whose second element is not a field list is not a
titled DocInfo shape. -/
theorem diShapeA_second_ne (ta : Attrs) (tc : List Node) (k2 : String) (a2 : Attrs)
    (c2 : List Node) (r : List Node) (h : ¬k2 = "field_list") :
    diShapeA (.elem "title" ta tc :: .elem k2 a2 c2 :: r) = false := by
  rw [diShapeA.eq_def]
  split
  · rename_i heq
    injection heq with _ e2
    injection e2 with e3 _
    injection e3 with ek _ _
    exact absurd ek h
  · rfl

/-- A title followed by a text leaf is not a titled DocInfo shape. -/
theorem diShapeA_second_text (ta : Attrs) (tc : List Node) (s : String) (r : List Node) :
    diShapeA (.elem "title" ta tc :: .text s :: r) = false := by
  rw [diShapeA.eq_def]
  split
  · rename_i heq
    injection heq with _ e2
    injection e2 with e3 _
    exact absurd e3 (by intro hh; cases hh)
  · rfl

/-- A singleton title is not a titled DocInfo shape. -/
theorem diShapeA_single (ta : Attrs) (tc : List Node) :
    diShapeA [.elem "title" ta tc] = false := by
  rw [diShapeA.eq_def]
  split
  · rename_i heq
    injection heq with _ e2
    exact absurd e2 (by simp)
  · rfl

/-- A list headed by a non-field-list element is not an untitled
DocInfo shape. -/
theorem diShapeB_head_ne (k : String) (a : Attrs) (c : List Node) (r : List Node)
    (h : ¬k = "field_list") : diShapeB (.elem k a c :: r) = false := by
  rw [diShapeB.eq_def]
  split
  · rename_i heq
    injection heq with e1 _
    injection e1 with ek _ _
    exact absurd ek h
  · rfl

/-- A list headed by a non-title element is not a SectionSubTitle
shape. -/
theorem stShape_head_ne (k : String) (a : Attrs) (c : List Node) (r : List Node)
    (h : ¬k = "title") : stShape (.elem k a c :: r) = false := by
  rw [stShape.eq_def]
  split
  · rename_i heq
    injection heq with e1 _
    injection e1 with ek _ _
    exact absurd ek h
  · rfl

/-- A titled list whose second element is not a section is not a
SectionSubTitle shape. -/
theorem stShape_second_ne (ta : Attrs) (tc : List Node) (k2 : String) (a2 : Attrs)
    (c2 : List Node) (r : List Node) (h : ¬k2 = "section") :
    stShape (.elem "title" ta tc :: .elem k2 a2 c2 :: r) = false := by
  rw [stShape.eq_def]
  split
  · rename_i heq
    injection heq with _ e2
    injection e2 with e3 _
    injection e3 with ek _ _
    exact absurd ek h
  · rfl

/-- A title followed by a text leaf is not a SectionSubTitle shape. -/
theorem stShape_second_text (ta : Attrs) (tc : List Node) (s : String) (r : List Node) :
    stShape (.elem "title" ta tc :: .text s :: r) = false := by
  rw [stShape.eq_def]
  split
  · rename_i heq
    injection heq with _ e2
    injection e2 with e3 _
    exact absurd e3 (by intro hh; cases hh)
  · rfl

/-- A singleton title is not a SectionSubTitle shape. -/
theorem stShape_single (ta : Attrs) (tc : List Node) :
    stShape [.elem "title" ta tc] = false := by
  rw [stShape.eq_def]
  split
  · rename_i heq
    injection heq with _ e2
    exact absurd e2 (by simp)
  · rfl

/-- A true DocTitle shape is exactly a singleton titled section. -/
theorem dtShape_eq_true (c : List Node) (h : dtShape c = true) :
    ∃ sa ta tc srest, c = [.elem "section" sa (.elem "title" ta tc :: srest)] := by
  rw [dtShape.eq_def] at h
  split at h
  · rename_i sa ta tc srest
    exact ⟨sa, ta, tc, srest, rfl⟩
  · exact absurd h (by simp)

/-- A true titled DocInfo shape is exactly a title then a field
list. -/
theorem diShapeA_eq_true (c : List Node) (h : diShapeA c = true) :
    ∃ ta tc fa fc r, c = .elem "title" ta tc :: .elem "field_list" fa fc :: r := by
  rw [diShapeA.eq_def] at h
  split at h
  · rename_i ta tc fa fc r
    exact ⟨ta, tc, fa, fc, r, rfl⟩
  · exact absurd h (by simp)

/-- A true untitled DocInfo shape is exactly a leading field list. -/
theorem diShapeB_eq_true (c : List Node) (h : diShapeB c = true) :
    ∃ fa fc r, c = .elem "field_list" fa fc :: r := by
  rw [diShapeB.eq_def] at h
  split at h
  · rename_i fa fc r
    exact ⟨fa, fc, r, rfl⟩
  · exact absurd h (by simp)

/-- A true SectionSubTitle shape is exactly a title and one titled
section. -/
theorem stShape_eq_true (c : List Node) (h : stShape c = true) :
    ∃ ta tc sa ta2 tc2 srest,
      c = [.elem "title" ta tc, .elem "section" sa (.elem "title" ta2 tc2 :: srest)] := by
  rw [stShape.eq_def] at h
  split at h
  · rename_i ta tc sa ta2 tc2 srest
    exact ⟨ta, tc, sa, ta2, tc2, srest, rfl⟩
  · exact absurd h (by simp)

/-- DocTitle leaves a non-document element alone. -/
theorem docTitleT_nondoc (k : String) (a : Attrs) (c : List Node) (h : ¬k = "document") :
    docTitleT (.elem k a c) = .elem k a c := by
  rw [docTitleT.eq_def]
  split
  · rename_i heq
    injection heq with ek _ _
    exact absurd ek h
  · rfl

/-- DocInfo leaves a non-document element alone. -/
theorem docInfoT_nondoc (k : String) (a : Attrs) (c : List Node) (h : ¬k = "document") :
    docInfoT (.elem k a c) = .elem k a c := by
  rw [docInfoT.eq_def]
  split
  · rename_i heq
    injection heq with ek _ _
    exact absurd ek h
  · rename_i heq
    injection heq with ek _ _
    exact absurd ek h
  · rfl

/-- SectionSubTitle leaves a non-document element alone. -/
theorem subTitleT_nondoc (k : String) (a : Attrs) (c : List Node) (h : ¬k = "document") :
    subTitleT (.elem k a c) = .elem k a c := by
  rw [subTitleT.eq_def]
  split
  · rename_i heq
    injection heq with ek _ _
    exact absurd ek h
  · rfl

/-- DocTitle leaves a document without the promotion shape alone. -/
theorem docTitleT_nofire (a : Attrs) (c : List Node) (h : dtShape c = false) :
    docTitleT (.elem "document" a c) = .elem "document" a c := by
  rw [docTitleT.eq_def]
  split
  · rename_i heq
    injection heq with _ _ ec
    rw [ec] at h
    exact absurd h (by simp [dtShape])
  · rfl

/-- DocInfo leaves a document without either promotion shape alone. -/
theorem docInfoT_nofire (a : Attrs) (c : List Node) (hA : diShapeA c = false)
    (hB : diShapeB c = false) :
    docInfoT (.elem "document" a c) = .elem "document" a c := by
  rw [docInfoT.eq_def]
  split
  · rename_i heq
    injection heq with _ _ ec
    rw [ec] at hA
    exact absurd hA (by simp [diShapeA])
  · rename_i heq
    injection heq with _ _ ec
    rw [ec] at hB
    exact absurd hB (by simp [diShapeB])
  · rfl

/-- SectionSubTitle leaves a document without the promotion shape
alone. -/
theorem subTitleT_nofire (a : Attrs) (c : List Node) (h : stShape c = false) :
    subTitleT (.elem "document" a c) = .elem "document" a c := by
  rw [subTitleT.eq_def]
  split
  · rename_i heq
    injection heq with _ _ ec
    rw [ec] at h
    exact absurd h (by simp [stShape])
  · rfl

/-- Equation: the DocTitle promotion on its shape. -/
theorem docTitleT_fire (a sa ta : Attrs) (tc srest : List Node) :
    docTitleT (.elem "document" a [.elem "section" sa (.elem "title" ta tc :: srest)]) =
    .elem "document" { a with ids := a.ids ++ sa.ids, names := a.names ++ sa.names }
      (.elem "title" ta tc :: srest) := rfl

/-- Equation: the DocInfo promotion after a document title. -/
theorem docInfoT_fireA (a ta fa : Attrs) (tc fc r : List Node) :
    docInfoT (.elem "document" a (.elem "title" ta tc :: .elem "field_list" fa fc :: r)) =
    .elem "document" a (.elem "title" ta tc :: .elem "docinfo" fa fc :: r) := rfl

/-- Equation: the DocInfo promotion with no document title. -/
theorem docInfoT_fireB (a fa : Attrs) (fc r : List Node) :
    docInfoT (.elem "document" a (.elem "field_list" fa fc :: r)) =
    .elem "document" a (.elem "docinfo" fa fc :: r) := rfl

/-- Equation: the SectionSubTitle promotion on its shape. -/
theorem subTitleT_fire (a ta sa ta2 : Attrs) (tc tc2 srest : List Node) :
    subTitleT (.elem "document" a
      [.elem "title" ta tc, .elem "section" sa (.elem "title" ta2 tc2 :: srest)]) =
    .elem "document" { a with ids := a.ids ++ sa.ids, names := a.names ++ sa.names }
      (.elem "title" ta tc :: .elem "subtitle" ta2 tc2 :: srest) := rfl

/-- Pass 3, the frontmatter promotions, is idempotent. -/
theorem frontmatterT_idem (t : Node) : frontmatterT (frontmatterT t) = frontmatterT t := by
  unfold frontmatterT
  cases t with
  | text s => rfl
  | elem k a c =>
    by_cases hk : k = "document"
    case neg =>
      rw [docTitleT_nondoc k a c hk, docInfoT_nondoc k a c hk, subTitleT_nondoc k a c hk,
          docTitleT_nondoc k a c hk, docInfoT_nondoc k a c hk, subTitleT_nondoc k a c hk]
    case pos =>
    subst hk
    by_cases hdt : dtShape c = true
    · obtain ⟨sa, ta, tc, srest, rfl⟩ := dtShape_eq_true c hdt
      rw [docTitleT_fire]
      by_cases hdiA : diShapeA (.elem "title" ta tc :: srest) = true
      · obtain ⟨ta2, tc2, fa, fc, r, heq⟩ := diShapeA_eq_true _ hdiA
        injection heq with e1 e2
        injection e1 with _ eta etc
        subst eta
        subst etc
        subst e2
        rw [docInfoT_fireA,
            subTitleT_nofire _ _ (stShape_second_ne ta tc "docinfo" fa fc r (by decide)),
            docTitleT_nofire _ _ (dtShape_head_ne "title" ta tc _ (by decide)),
            docInfoT_nofire _ _ (diShapeA_second_ne ta tc "docinfo" fa fc r (by decide))
              (diShapeB_head_ne "title" ta tc _ (by decide)),
            subTitleT_nofire _ _ (stShape_second_ne ta tc "docinfo" fa fc r (by decide))]
      · have hdiA' : diShapeA (.elem "title" ta tc :: srest) = false :=
          eq_false_of_ne_true hdiA
        rw [docInfoT_nofire _ _ hdiA' (diShapeB_head_ne "title" ta tc _ (by decide))]
        by_cases hst : stShape (.elem "title" ta tc :: srest) = true
        · obtain ⟨ta3, tc3, sa2, ta4, tc4, srest2, heq⟩ := stShape_eq_true _ hst
          injection heq with e1 e2
          injection e1 with _ eta etc
          subst eta
          subst etc
          subst e2
          rw [subTitleT_fire,
              docTitleT_nofire _ _ (dtShape_head_ne "title" ta tc _ (by decide)),
              docInfoT_nofire _ _ (diShapeA_second_ne ta tc "subtitle" ta4 tc4 srest2 (by decide))
                (diShapeB_head_ne "title" ta tc _ (by decide)),
              subTitleT_nofire _ _ (stShape_second_ne ta tc "subtitle" ta4 tc4 srest2 (by decide))]
        · have hst' := eq_false_of_ne_true hst
          rw [subTitleT_nofire _ _ hst',
              docTitleT_nofire _ _ (dtShape_head_ne "title" ta tc _ (by decide)),
              docInfoT_nofire _ _ hdiA' (diShapeB_head_ne "title" ta tc _ (by decide)),
              subTitleT_nofire _ _ hst']
    · have hdt' := eq_false_of_ne_true hdt
      rw [docTitleT_nofire _ _ hdt']
      by_cases hdiA : diShapeA c = true
      · obtain ⟨ta, tc, fa, fc, r, rfl⟩ := diShapeA_eq_true c hdiA
        rw [docInfoT_fireA,
            subTitleT_nofire _ _ (stShape_second_ne ta tc "docinfo" fa fc r (by decide)),
            docTitleT_nofire _ _ (dtShape_head_ne "title" ta tc _ (by decide)),
            docInfoT_nofire _ _ (diShapeA_second_ne ta tc "docinfo" fa fc r (by decide))
              (diShapeB_head_ne "title" ta tc _ (by decide)),
            subTitleT_nofire _ _ (stShape_second_ne ta tc "docinfo" fa fc r (by decide))]
      · by_cases hdiB : diShapeB c = true
        · obtain ⟨fa, fc, r, rfl⟩ := diShapeB_eq_true c hdiB
          rw [docInfoT_fireB,
              subTitleT_nofire _ _ (stShape_head_ne "docinfo" fa fc _ (by decide)),
              docTitleT_nofire _ _ (dtShape_head_ne "docinfo" fa fc _ (by decide)),
              docInfoT_nofire _ _ (diShapeA_head_ne "docinfo" fa fc _ (by decide))
                (diShapeB_head_ne "docinfo" fa fc _ (by decide)),
              subTitleT_nofire _ _ (stShape_head_ne "docinfo" fa fc _ (by decide))]
        · have hdiA' := eq_false_of_ne_true hdiA
          have hdiB' := eq_false_of_ne_true hdiB
          rw [docInfoT_nofire _ _ hdiA' hdiB']
          by_cases hst : stShape c = true
          · obtain ⟨ta, tc, sa, ta2, tc2, srest, rfl⟩ := stShape_eq_true c hst
            rw [subTitleT_fire,
                docTitleT_nofire _ _ (dtShape_head_ne "title" ta tc _ (by decide)),
                docInfoT_nofire _ _ (diShapeA_second_ne ta tc "subtitle" ta2 tc2 srest (by decide))
                  (diShapeB_head_ne "title" ta tc _ (by decide)),
                subTitleT_nofire _ _ (stShape_second_ne ta tc "subtitle" ta2 tc2 srest (by decide))]
          · have hst' := eq_false_of_ne_true hst
            rw [subTitleT_nofire _ _ hst', docTitleT_nofire _ _ hdt',
                docInfoT_nofire _ _ hdiA' hdiB', subTitleT_nofire _ _ hst']

/-! #### Pass 7, external and internal targets, is idempotent -/

mutual

/-- Composing two attrs rewrites composes pointwise. -/
theorem mapAttrs_comp (f g : String → Attrs → Attrs) :
    ∀ y, mapAttrs f (mapAttrs g y) = mapAttrs (fun k a => f k (g k a)) y
  | .text _ => rfl
  | .elem k a c => by simp [mapAttrs, mapAttrsList_comp f g c]

/-- List form of `mapAttrs_comp`. -/
theorem mapAttrsList_comp (f g : String → Attrs → Attrs) :
    ∀ l, mapAttrsList f (mapAttrsList g l) = mapAttrsList (fun k a => f k (g k a)) l
  | [] => rfl
  | n :: ns => by simp [mapAttrsList, mapAttrs_comp f g n, mapAttrsList_comp f g ns]

end

mutual

/-- Pointwise equal attrs rewrites rewrite trees equally. -/
theorem mapAttrs_congr (f g : String → Attrs → Attrs) (h : ∀ k a, f k a = g k a) :
    ∀ y, mapAttrs f y = mapAttrs g y
  | .text _ => rfl
  | .elem k a c => by simp [mapAttrs, h k a, mapAttrsList_congr f g h c]

/-- List form of `mapAttrs_congr`. -/
theorem mapAttrsList_congr (f g : String → Attrs → Attrs) (h : ∀ k a, f k a = g k a) :
    ∀ l, mapAttrsList f l = mapAttrsList g l
  | [] => rfl
  | n :: ns => by simp [mapAttrsList, mapAttrs_congr f g h n, mapAttrsList_congr f g h ns]

end

mutual

/-- An attrs rewrite that fixes targets leaves the target table
unchanged. -/
theorem tgtTable_mapAttrs (f : String → Attrs → Attrs) (hf : ∀ a, f "target" a = a) :
    ∀ y, tgtTable (mapAttrs f y) = tgtTable y
  | .text _ => rfl
  | .elem k a c => by
      by_cases hk : k = "target"
      · subst hk
        simp [mapAttrs, tgtTable, hf a, tgtTableList_mapAttrs f hf c]
      · simp [mapAttrs, tgtTable, hk, tgtTableList_mapAttrs f hf c]

/-- List form of `tgtTable_mapAttrs`. -/
theorem tgtTableList_mapAttrs (f : String → Attrs → Attrs) (hf : ∀ a, f "target" a = a) :
    ∀ l, tgtTableList (mapAttrsList f l) = tgtTableList l
  | [] => rfl
  | n :: ns => by
      simp [mapAttrsList, tgtTableList, tgtTable_mapAttrs f hf n, tgtTableList_mapAttrs f hf ns]

end

/-- ExternalTargets does not rewrite a target's attrs. -/
theorem extAttrs_target (tbl : List (String × Attrs)) (a : Attrs) :
    extAttrs tbl "target" a = a := by
  unfold extAttrs
  rw [if_neg]
  intro hcon
  exact absurd hcon.1 (by decide)

/-- InternalTargets does not rewrite a target's attrs. -/
theorem intAttrs_target (tbl : List (String × Attrs)) (a : Attrs) :
    intAttrs tbl "target" a = a := by
  unfold intAttrs
  rw [if_neg]
  intro hcon
  exact absurd hcon.1 (by decide)

/-- ExternalTargets skips attrs already carrying a refid. -/
theorem extAttrs_of_refid (tbl : List (String × Attrs)) (k : String) (a : Attrs)
    (h : a.refid.isSome = true) : extAttrs tbl k a = a := by
  unfold extAttrs
  rw [if_neg]
  rintro ⟨-, h2, -⟩
  rw [Option.isNone_iff_eq_none] at h2
  simp [h2] at h

/-- ExternalTargets skips attrs already carrying a refuri. -/
theorem extAttrs_of_refuri (tbl : List (String × Attrs)) (k : String) (a : Attrs)
    (h : a.refuri.isSome = true) : extAttrs tbl k a = a := by
  unfold extAttrs
  rw [if_neg]
  rintro ⟨-, -, h2⟩
  rw [Option.isNone_iff_eq_none] at h2
  simp [h2] at h

/-- InternalTargets skips attrs already carrying a refid. -/
theorem intAttrs_of_refid (tbl : List (String × Attrs)) (k : String) (a : Attrs)
    (h : a.refid.isSome = true) : intAttrs tbl k a = a := by
  unfold intAttrs
  rw [if_neg]
  rintro ⟨-, h2, -⟩
  rw [Option.isNone_iff_eq_none] at h2
  simp [h2] at h

/-- InternalTargets skips attrs already carrying a refuri. -/
theorem intAttrs_of_refuri (tbl : List (String × Attrs)) (k : String) (a : Attrs)
    (h : a.refuri.isSome = true) : intAttrs tbl k a = a := by
  unfold intAttrs
  rw [if_neg]
  rintro ⟨-, -, h2⟩
  rw [Option.isNone_iff_eq_none] at h2
  simp [h2] at h

/-- ExternalTargets either fixes the attrs or installs a refuri. -/
theorem extAttrs_cases (tbl : List (String × Attrs)) (k : String) (a : Attrs) :
    extAttrs tbl k a = a ∨ (extAttrs tbl k a).refuri.isSome = true := by
  unfold extAttrs
  repeat' split
  all_goals simp

/-- InternalTargets either fixes the attrs or installs a refid. -/
theorem intAttrs_cases (tbl : List (String × Attrs)) (k : String) (a : Attrs) :
    intAttrs tbl k a = a ∨ (intAttrs tbl k a).refid.isSome = true := by
  unfold intAttrs
  repeat' split
  all_goals simp

/-- One external-then-internal rewrite of attrs is a fixed point of a
second. -/
theorem extIntAttrs_idem (tbl : List (String × Attrs)) (k : String) (a : Attrs) :
    intAttrs tbl k (extAttrs tbl k (intAttrs tbl k (extAttrs tbl k a))) =
    intAttrs tbl k (extAttrs tbl k a) := by
  rcases extAttrs_cases tbl k a with he | he
  · rw [he]
    rcases intAttrs_cases tbl k a with hi | hi
    · rw [hi, he, hi]
    · rw [extAttrs_of_refid tbl k _ hi, intAttrs_of_refid tbl k _ hi]
  · rw [intAttrs_of_refuri tbl k _ he, extAttrs_of_refuri tbl k _ he,
        intAttrs_of_refuri tbl k _ he]

/-- Pass 7, ExternalTargets then InternalTargets, is idempotent. -/
theorem extIntT_idem (t : Node) : extIntT (extIntT t) = extIntT t := by
  unfold extIntT extT intT
  rw [tgtTable_mapAttrs _ (fun a => extAttrs_target _ a) t]
  rw [tgtTable_mapAttrs _ (fun a => intAttrs_target _ a) _]
  rw [tgtTable_mapAttrs _ (fun a => extAttrs_target _ a) _]
  rw [tgtTable_mapAttrs _ (fun a => intAttrs_target _ a) _]
  rw [tgtTable_mapAttrs _ (fun a => extAttrs_target _ a) t]
  rw [mapAttrs_comp, mapAttrs_comp, mapAttrs_comp]
  rw [mapAttrs_comp (intAttrs (tgtTable t)) (extAttrs (tgtTable t)) t]
  exact mapAttrs_congr _ _ (fun k a => extIntAttrs_idem (tgtTable t) k a) t

/-! #### Pass 4, AnonymousHyperlinks, is idempotent -/

/-- Pairing a reference twice with the same target is the same as
once. -/
theorem pairedRef_pairedRef (tg a : Attrs) :
    pairedRef tg (pairedRef tg a) = pairedRef tg a := by
  cases h : tg.refuri <;> simp [pairedRef, h]

mutual

/-- The anonymous-hyperlink rewrite does not change the anonymous
targets. -/
theorem anonTgts_anonRw : ∀ (tgts : List Attrs) (y : Node),
    anonTgts (anonRw tgts y).2 = anonTgts y
  | tgts, .text _ => rfl
  | tgts, .elem k a c => by
      by_cases h : k = "reference" ∧ a.anonymous
      · cases tgts with
        | nil =>
            simp [anonRw, h, anonTgts, anonTgtsList_anonRwList [] c, h.1]
        | cons tg rest =>
            have hka : ¬("reference" = "target" ∧ (pairedRef tg a).anonymous = true ∧ True) := by
              rintro ⟨hk, -⟩; exact absurd hk (by decide)
            simp [anonRw, h, anonTgts, anonTgtsList_anonRwList rest c, h.1,
              pairedRef_anonymous]
      · simp [anonRw, h, anonTgts, anonTgtsList_anonRwList tgts c]

/-- List form of `anonTgts_anonRw`. -/
theorem anonTgtsList_anonRwList : ∀ (tgts : List Attrs) (l : List Node),
    anonTgtsList (anonRwList tgts l).2 = anonTgtsList l
  | tgts, [] => rfl
  | tgts, n :: ns => by
      simp [anonRwList, anonTgtsList, anonTgts_anonRw tgts n,
        anonTgtsList_anonRwList (anonRw tgts n).1 ns]

end

mutual

/-- Rerunning the anonymous-hyperlink rewrite with the same target
list changes nothing. -/
theorem anonRw_anonRw : ∀ (tgts : List Attrs) (y : Node),
    anonRw tgts (anonRw tgts y).2 = anonRw tgts y
  | tgts, .text _ => rfl
  | tgts, .elem k a c => by
      by_cases h : k = "reference" ∧ a.anonymous
      · cases tgts with
        | nil =>
            simp [anonRw, h, anonRwList_anonRwList [] c]
        | cons tg rest =>
            have h2 : k = "reference" ∧ (pairedRef tg a).anonymous := by
              exact ⟨h.1, by rw [pairedRef_anonymous]; exact h.2⟩
            simp [anonRw, h, h2, anonRwList_anonRwList rest c, pairedRef_pairedRef]
      · have h2 : ¬(k = "reference" ∧ a.anonymous) := h
        simp [anonRw, h, anonRwList_anonRwList tgts c]

/-- List form of `anonRw_anonRw`. -/
theorem anonRwList_anonRwList : ∀ (tgts : List Attrs) (l : List Node),
    anonRwList tgts (anonRwList tgts l).2 = anonRwList tgts l
  | tgts, [] => rfl
  | tgts, n :: ns => by
      have hn := anonRw_anonRw tgts n
      have hns := anonRwList_anonRwList (anonRw tgts n).1 ns
      simp [anonRwList]
      constructor
      · rw [show (anonRw tgts (anonRw tgts n).2).1 = (anonRw tgts n).1 from congrArg Prod.fst hn]
        rw [show (anonRwList (anonRw tgts n).1 (anonRwList (anonRw tgts n).1 ns).2).1 =
              (anonRwList (anonRw tgts n).1 ns).1 from congrArg Prod.fst hns]
      · constructor
        · exact congrArg Prod.snd hn
        · rw [show (anonRw tgts (anonRw tgts n).2).1 = (anonRw tgts n).1 from congrArg Prod.fst hn]
          exact congrArg Prod.snd hns

end

/-- Pass 4, AnonymousHyperlinks, is idempotent. -/
theorem anonymousT_idem (t : Node) : anonymousT (anonymousT t) = anonymousT t := by
  unfold anonymousT
  rw [anonTgts_anonRw (anonTgts t) t]
  exact congrArg Prod.snd (anonRw_anonRw (anonTgts t) t)

/-! #### Pass 2, PropagateTargets, is idempotent -/

/-- Merging an empty carry changes nothing. -/
theorem mergeCarry_nil (y : Node) : mergeCarry [] [] y = y := by
  cases y <;> simp [mergeCarry]

/-- Propagation never changes whether a child list is empty. -/
theorem propList_isEmpty (ci cn : List String) (l : List Node) :
    (propList ci cn l).isEmpty = l.isEmpty := by
  cases l with
  | nil => rfl
  | cons x xs =>
      cases x with
      | text s => simp [propList, List.isEmpty]
      | elem k a c =>
          simp only [propList]
          split <;> simp [List.isEmpty]

/-- Eligibility of a node is unchanged by merging a carry after
propagating below it. -/
theorem eligible_merge_prop (ci cn : List String) (y : Node) :
    eligibleTgt (mergeCarry ci cn (propNode y)) = eligibleTgt y := by
  cases y with
  | text s => rfl
  | elem k a c =>
      simp [mergeCarry, propNode, eligibleTgt, propList_isEmpty]

/-- Propagating below a sibling list does not change whether a chain
starting before it lands. -/
theorem lands_propList : ∀ (l : List Node) (ci cn : List String),
    lands (propList ci cn l) = lands l
  | [], _, _ => rfl
  | .text s :: rest, ci, cn => by simp [propList, lands]
  | .elem k a c :: rest, ci, cn => by
      by_cases hE : eligibleTgt (.elem k a c) = true
      · by_cases hL : lands rest = true
        · have hcond : (eligibleTgt (.elem k a c) && lands rest) = true := by
            rw [hE, hL]; rfl
          simp only [propList, hcond, if_pos]
          have hRHS : lands (Node.elem k a c :: rest) = true := by simp [lands, hE, hL]
          rw [hRHS]
          have hsplit : lands (Node.elem k
                { a with ids := [], names := [], refid := a.ids.head? } c ::
                propList (a.ids ++ ci) (a.names ++ cn) rest) =
              if eligibleTgt (.elem k { a with ids := [], names := [], refid := a.ids.head? } c) then
                lands (propList (a.ids ++ ci) (a.names ++ cn) rest) else true := by
            simp [lands]
          rw [hsplit]
          split
          · rw [lands_propList rest _ _]; exact hL
          · rfl
        · have hcond : (eligibleTgt (.elem k a c) && lands rest) = false := by
            rw [hE, eq_false_of_ne_true hL]; rfl
          simp only [propList, hcond, Bool.false_eq_true, if_neg, if_false]
          rw [show lands (mergeCarry ci cn (propNode (.elem k a c)) :: propList [] [] rest) =
                if eligibleTgt (mergeCarry ci cn (propNode (.elem k a c))) then
                  lands (propList [] [] rest) else true from by
              cases hm : mergeCarry ci cn (propNode (.elem k a c)) with
              | text s => exact absurd hm (by cases hpn : propNode (.elem k a c) with
                  | text s2 => exact absurd hpn (by simp [propNode])
                  | elem k2 a2 c2 => simp [mergeCarry])
              | elem k2 a2 c2 => simp [lands]]
          rw [eligible_merge_prop, lands_propList rest [] []]
          simp [lands, hE, eq_false_of_ne_true hL]
      · have hcond : (eligibleTgt (.elem k a c) && lands rest) = false := by
          rw [eq_false_of_ne_true hE]; rfl
        simp only [propList, hcond, Bool.false_eq_true, if_neg, if_false]
        rw [show lands (mergeCarry ci cn (propNode (.elem k a c)) :: propList [] [] rest) =
              if eligibleTgt (mergeCarry ci cn (propNode (.elem k a c))) then
                lands (propList [] [] rest) else true from by
            cases hm : mergeCarry ci cn (propNode (.elem k a c)) with
            | text s => exact absurd hm (by cases hpn : propNode (.elem k a c) with
                | text s2 => exact absurd hpn (by simp [propNode])
                | elem k2 a2 c2 => simp [mergeCarry])
            | elem k2 a2 c2 => simp [lands]]
        rw [eligible_merge_prop]
        simp [lands, eq_false_of_ne_true hE]

/-- The components of target eligibility. -/
theorem eligibleTgt_parts (k : String) (a : Attrs) (c : List Node)
    (h : eligibleTgt (.elem k a c) = true) :
    k = "target" ∧ c = [] ∧ a.refid = none ∧ a.refuri = none ∧ a.refname = none := by
  simp only [eligibleTgt, Bool.and_eq_true, beq_iff_eq, List.isEmpty_iff,
    Option.isNone_iff_eq_none] at h
  exact ⟨h.1.1.1.1, h.1.1.1.2, h.1.1.2, h.1.2, h.2⟩

mutual

/-- PropagateTargets is idempotent below one node. -/
theorem propNode_propNode : ∀ y, propNode (propNode y) = propNode y
  | .text _ => rfl
  | .elem k a c => by
      simp only [propNode]
      rw [propList_propList c [] []]

/-- Rerunning propagation with an empty carry over an already
propagated sibling list changes nothing. -/
theorem propList_propList : ∀ (l : List Node) (ci cn : List String),
    propList [] [] (propList ci cn l) = propList ci cn l
  | [], _, _ => rfl
  | .text s :: rest, ci, cn => by
      simp only [propList]
      rw [propList_propList rest [] []]
  | .elem k a c :: rest, ci, cn => by
      by_cases hcond : (eligibleTgt (.elem k a c) && lands rest) = true
      · have hEL := hcond
        rw [Bool.and_eq_true] at hEL
        have hE : eligibleTgt (.elem k a c) = true := hEL.1
        have hL : lands rest = true := hEL.2
        obtain ⟨hk, hc, hrid, hruri, hrname⟩ := eligibleTgt_parts k a c hE
        subst hc
        simp only [propList, hcond, if_pos]
        cases hids : a.ids with
        | nil =>
            simp only [hids, List.head?_nil, List.nil_append]
            have h1 : eligibleTgt (.elem k
                { a with ids := [], names := [], refid := none } []) = true := by
              simp [eligibleTgt, hk, hruri, hrname]
            have hcond2 : (eligibleTgt (.elem k
                { a with ids := [], names := [], refid := none } []) &&
                lands (propList ci (a.names ++ cn) rest)) = true := by
              rw [h1, lands_propList rest _ _, hL]; rfl
            simp only [propList, hcond2, if_pos, List.head?_nil, List.nil_append]
            rw [propList_propList rest ci (a.names ++ cn)]
        | cons i is =>
            simp only [hids, List.head?_cons, List.cons_append]
            have h1 : eligibleTgt (.elem k
                { a with ids := [], names := [], refid := some i } []) = false := by
              simp [eligibleTgt]
            have hcond2 : (eligibleTgt (.elem k
                { a with ids := [], names := [], refid := some i } []) &&
                lands (propList (i :: (is ++ ci)) (a.names ++ cn) rest)) = false := by
              rw [h1]; rfl
            simp only [propList, hcond2, Bool.false_eq_true, if_false]
            rw [propList_propList rest (i :: (is ++ ci)) (a.names ++ cn)]
            simp [mergeCarry, propNode, propList]
      · have hF : (eligibleTgt (.elem k a c) && lands rest) = false := eq_false_of_ne_true hcond
        simp only [propList, hF, Bool.false_eq_true, if_false]
        have hm : mergeCarry ci cn (propNode (.elem k a c)) =
            .elem k { a with ids := a.ids ++ ci, names := a.names ++ cn } (propList [] [] c) := by
          simp [propNode, mergeCarry]
        rw [hm]
        have hX2 : eligibleTgt (.elem k { a with ids := a.ids ++ ci, names := a.names ++ cn } (propList [] [] c)) = eligibleTgt (.elem k a c) := by
          simp [eligibleTgt, propList_isEmpty]
        have hcond2 : (eligibleTgt (.elem k { a with ids := a.ids ++ ci, names := a.names ++ cn } (propList [] [] c)) && lands (propList [] [] rest)) = false := by
          rw [hX2, lands_propList rest [] []]; exact hF
        simp only [propList, hcond2, Bool.false_eq_true, if_false]
        rw [propList_propList rest [] []]
        simp only [mergeCarry, propNode]
        rw [propList_propList c [] []]
        simp

end

/-- Pass 2, PropagateTargets, is idempotent. -/
theorem propagateT_idem (t : Node) : propagateT (propagateT t) = propagateT t :=
  propNode_propNode t

/-! #### Pass 5, IndirectHyperlinks, is idempotent -/

/-- Looking up in a value-mapped table maps the looked-up value. -/
theorem lookupName_map (tbl : List (String × Attrs)) (g : Attrs → Attrs) (nm : String) :
    lookupName (tbl.map (fun p => (p.1, g p.2))) nm = (lookupName tbl nm).map g := by
  induction tbl with
  | nil => rfl
  | cons p ps ih =>
      by_cases h : p.1 == nm
      · simp [lookupName, List.find?, h]
      · have hb : (p.1 == nm) = false := by simpa using h
        simp only [lookupName, List.map, List.find?, hb] at ih ⊢
        simpa [lookupName] using ih

/-- A pending indirect target: no refuri yet, refname still to
resolve. -/
def pendingA (a : Attrs) : Bool := a.refuri.isNone && a.refname.isSome

/-- A settled attrs value is a fixed point of a resolution step. -/
theorem stepAttrs_settled (tbl : List (String × Attrs)) (a : Attrs)
    (h : pendingA a = false) : stepAttrs tbl a = a := by
  unfold stepAttrs
  cases huri : a.refuri with
  | some u => rfl
  | none =>
      cases hname : a.refname with
      | none => rfl
      | some r => simp [pendingA, huri, hname] at h

/-- A resolution step either keeps the attrs or settles them. -/
theorem stepAttrs_cases (tbl : List (String × Attrs)) (a : Attrs) :
    stepAttrs tbl a = a ∨ pendingA (stepAttrs tbl a) = false := by
  unfold stepAttrs
  repeat' split
  all_goals simp [pendingA]

/-- A resolution step never changes the names. -/
theorem stepAttrs_names (tbl : List (String × Attrs)) (a : Attrs) :
    (stepAttrs tbl a).names = a.names := by
  unfold stepAttrs
  repeat' split
  all_goals rfl

/-- A resolution step of attrs depends on the table only through its
lookups. -/
theorem stepAttrs_lookup_congr (tblA tblB : List (String × Attrs)) (a : Attrs)
    (h : ∀ nm, lookupName tblA nm = lookupName tblB nm) :
    stepAttrs tblA a = stepAttrs tblB a := by
  unfold stepAttrs
  cases a.refuri <;> cases a.refname <;> simp [h]

/-- One table step keeps the length. -/
theorem step_length (tbl : List (String × Attrs)) : (step tbl).length = tbl.length := by
  simp [step]

/-- Iterated table steps keep the length. -/
theorem step_iterate_length (tbl : List (String × Attrs)) :
    ∀ j, (step^[j] tbl).length = tbl.length := by
  intro j
  induction j with
  | zero => rfl
  | succ j ih => rw [Function.iterate_succ_apply', step_length, ih]

/-- The settled entries of a table. -/
def resolvedCount (tbl : List (String × Attrs)) : Nat :=
  tbl.countP (fun p => !pendingA p.2)

/-- A table step never unsettles an entry. -/
theorem step_count_le (tbl : List (String × Attrs)) :
    ∀ l : List (String × Attrs),
      l.countP (fun p => !pendingA p.2) ≤
        (l.map (fun p => (p.1, stepAttrs tbl p.2))).countP (fun p => !pendingA p.2) := by
  intro l
  induction l with
  | nil => simp
  | cons p ps ih =>
      simp only [List.map_cons, List.countP_cons]
      rcases stepAttrs_cases tbl p.2 with h | h
      · rw [h]
        exact Nat.add_le_add ih (Nat.le_refl _)
      · have h1 : (if (!pendingA ((p.1, stepAttrs tbl p.2).2)) = true then 1 else 0) = 1 := by
          simp [h]
        have h0 : (if (!pendingA p.2) = true then 1 else 0) ≤ 1 := by
          split
          · exact Nat.le_refl 1
          · exact Nat.zero_le 1
        rw [h1]
        exact Nat.add_le_add ih h0

/-- A table step that changes the table settles at least one more
entry. -/
theorem step_count_lt (tbl : List (String × Attrs)) :
    ∀ l : List (String × Attrs),
      l.map (fun p => (p.1, stepAttrs tbl p.2)) ≠ l →
      l.countP (fun p => !pendingA p.2) <
        (l.map (fun p => (p.1, stepAttrs tbl p.2))).countP (fun p => !pendingA p.2) := by
  intro l
  induction l with
  | nil => intro h; exact absurd rfl h
  | cons p ps ih =>
      intro h
      by_cases hhead : stepAttrs tbl p.2 = p.2
      · have htail : ps.map (fun p => (p.1, stepAttrs tbl p.2)) ≠ ps := by
          intro he
          exact h (by simp [hhead, he])
        simp only [List.map_cons, List.countP_cons, hhead]
        exact Nat.add_lt_add_right (ih htail) _
      · have hpend : pendingA p.2 = true := by
          cases hq : pendingA p.2
          · exact absurd (stepAttrs_settled tbl p.2 hq) hhead
          · rfl
        rcases stepAttrs_cases tbl p.2 with h2 | h2
        · exact absurd h2 hhead
        · simp only [List.map_cons, List.countP_cons]
          have h1 : (if (!pendingA ((p.1, stepAttrs tbl p.2).2)) = true then 1 else 0) = 1 := by
            simp [h2]
          have h0 : (if (!pendingA p.2) = true then 1 else 0) = 0 := by
            simp [hpend]
          rw [h1, h0]
          have := step_count_le tbl ps
          omega

/-- A fully settled table is a fixed point of the table step. -/
theorem step_of_all_settled (tbl : List (String × Attrs))
    (h : resolvedCount tbl = tbl.length) : step tbl = tbl := by
  unfold resolvedCount at h
  have hall := List.countP_eq_length.mp h
  unfold step
  have : ∀ l : List (String × Attrs), (∀ p ∈ l, pendingA p.2 = false) →
      l.map (fun p => (p.1, stepAttrs tbl p.2)) = l := by
    intro l
    induction l with
    | nil => intro _; rfl
    | cons p ps ih =>
        intro hl
        have hp : pendingA p.2 = false := hl p (by simp)
        simp [stepAttrs_settled tbl p.2 hp, ih (fun q hq => hl q (by simp [hq]))]
    
  refine this tbl (fun p hp => ?_)
  have := hall p hp
  simpa using this

/-- By each stage either the table step has stabilized or the stage
number bounds the settled entries from below. -/
theorem step_stage (tbl : List (String × Attrs)) :
    ∀ j, step (step^[j] tbl) = step^[j] tbl ∨ j ≤ resolvedCount (step^[j] tbl) := by
  intro j
  induction j with
  | zero => right; exact Nat.zero_le _
  | succ j ih =>
      by_cases hfix : step (step^[j] tbl) = step^[j] tbl
      · left
        rw [Function.iterate_succ_apply', hfix]
        exact hfix
      · right
        rcases ih with hfix2 | hcount
        · exact absurd hfix2 hfix
        · have hlt : resolvedCount (step^[j] tbl) < resolvedCount (step (step^[j] tbl)) := by
            unfold resolvedCount
            exact step_count_lt (step^[j] tbl) (step^[j] tbl) (fun he => hfix he)
          rw [Function.iterate_succ_apply']
          omega

/-- After as many stages as the table is long, the table step has
stabilized. -/
theorem step_fixN (tbl : List (String × Attrs)) :
    step (step^[tbl.length] tbl) = step^[tbl.length] tbl := by
  rcases step_stage tbl tbl.length with h | h
  · exact h
  · have hle : resolvedCount (step^[tbl.length] tbl) ≤ tbl.length := by
      unfold resolvedCount
      calc (step^[tbl.length] tbl).countP (fun p => !pendingA p.2)
          ≤ (step^[tbl.length] tbl).length := List.countP_le_length _
        _ = tbl.length := step_iterate_length tbl _
    have heq : resolvedCount (step^[tbl.length] tbl) = (step^[tbl.length] tbl).length := by
      rw [step_iterate_length]
      omega
    exact step_of_all_settled _ heq

/-- The resolved table is already reached one stage earlier. -/
theorem resolvedTbl_eq_iterN (tbl : List (String × Attrs)) :
    resolvedTbl tbl = step^[tbl.length] tbl := by
  unfold resolvedTbl
  rw [Function.iterate_succ_apply']
  exact step_fixN tbl

/-- The resolved table is a fixed point of the table step. -/
theorem step_resolvedTbl (tbl : List (String × Attrs)) :
    step (resolvedTbl tbl) = resolvedTbl tbl := by
  rw [resolvedTbl_eq_iterN]
  exact step_fixN tbl

/-- The per-entry view of the table iteration. -/
def iterStep (tbl : List (String × Attrs)) : Nat → Attrs → Attrs
  | 0, a => a
  | j + 1, a => stepAttrs (step^[j] tbl) (iterStep tbl j a)

/-- Looking up in an iterated table iterates the looked-up value. -/
theorem lookupName_iterate (tbl : List (String × Attrs)) (nm : String) :
    ∀ j, lookupName (step^[j] tbl) nm = (lookupName tbl nm).map (iterStep tbl j) := by
  intro j
  induction j with
  | zero => cases h : lookupName tbl nm <;> simp [iterStep, h]
  | succ j ih =>
      rw [Function.iterate_succ_apply']
      rw [show step (step^[j] tbl) =
            (step^[j] tbl).map (fun p => (p.1, stepAttrs (step^[j] tbl) p.2)) from rfl]
      rw [lookupName_map, ih]
      cases h : lookupName tbl nm <;> simp [iterStep, h]

/-- A settled per-entry iterate stays put. -/
theorem iterStep_freeze (tbl : List (String × Attrs)) (a : Attrs) :
    ∀ j m, j ≤ m → pendingA (iterStep tbl j a) = false →
      iterStep tbl m a = iterStep tbl j a := by
  intro j m
  induction m with
  | zero =>
      intro hjm _
      cases Nat.le_zero.mp hjm
      rfl
  | succ m ih =>
      intro hjm hset
      by_cases hj : j = m + 1
      · rw [hj]
      · have hjm2 : j ≤ m := by omega
        rw [show iterStep tbl (m + 1) a = stepAttrs (step^[m] tbl) (iterStep tbl m a) from rfl]
        rw [ih hjm2 hset]
        exact stepAttrs_settled _ _ hset

/-- The resolution step on pending attrs, written through the
lookup. -/
theorem stepAttrs_pending_eq (tbl : List (String × Attrs)) (a : Attrs) (r : String)
    (huri : a.refuri = none) (hname : a.refname = some r) :
    stepAttrs tbl a =
      (match lookupName tbl (lower r) with
       | some a0 =>
           (match a0.refuri, a0.refname with
            | some u, _ => { a with refuri := some u, refname := none }
            | none, none =>
                (match targetDest a0 with
                 | some i => { a with refid := some i, refname := none }
                 | none => a)
            | none, some _ => a)
       | none => a) := by
  unfold stepAttrs
  rw [huri, hname]

/-- A pending reference to a still pending entry does not fire. -/
theorem stepAttrs_noFire_pending_entry (tbl : List (String × Attrs)) (a b : Attrs)
    (r : String) (huri : a.refuri = none) (hname : a.refname = some r)
    (hb : lookupName tbl (lower r) = some b) (hbu : b.refuri = none)
    (hbn : b.refname.isSome = true) : stepAttrs tbl a = a := by
  rw [stepAttrs_pending_eq tbl a r huri hname, hb]
  obtain ⟨rb, hrb⟩ := Option.isSome_iff_exists.mp hbn
  simp [hbu, hrb]

/-- One resolution step against the resolved table equals the full
per-entry iteration. -/
theorem stepAttrs_resolved_iter (tbl : List (String × Attrs)) (a : Attrs) :
    stepAttrs (resolvedTbl tbl) a = iterStep tbl (tbl.length + 1) a := by
  have hC : ∀ j, j ≤ tbl.length → iterStep tbl j a = a ∨
      (pendingA (iterStep tbl j a) = false ∧
        iterStep tbl j a = stepAttrs (resolvedTbl tbl) a) := by
    intro j
    induction j with
    | zero => intro _; left; rfl
    | succ j ih =>
        intro hj
        have hj' : j ≤ tbl.length := by omega
        rcases ih hj' with hL | ⟨hS, hEq⟩
        · by_cases hfire : stepAttrs (step^[j] tbl) a = a
          · left
            rw [show iterStep tbl (j + 1) a =
                  stepAttrs (step^[j] tbl) (iterStep tbl j a) from rfl, hL, hfire]
          · have hpa : pendingA a = true := by
              cases hq : pendingA a
              · exact absurd (stepAttrs_settled _ _ hq) hfire
              · rfl
            have huri : a.refuri = none := by
              have := hpa
              unfold pendingA at this
              rw [Bool.and_eq_true] at this
              exact Option.isNone_iff_eq_none.mp this.1
            obtain ⟨r, hname⟩ : ∃ r, a.refname = some r := by
              have := hpa
              unfold pendingA at this
              rw [Bool.and_eq_true] at this
              exact Option.isSome_iff_exists.mp this.2
            cases hb : lookupName (step^[j] tbl) (lower r) with
            | none =>
                exfalso
                apply hfire
                rw [stepAttrs_pending_eq (step^[j] tbl) a r huri hname, hb]
            | some b =>
                have hbset : pendingA b = false := by
                  cases hq : pendingA b
                  · rfl
                  · exfalso
                    apply hfire
                    have hq2 := hq
                    unfold pendingA at hq2
                    rw [Bool.and_eq_true] at hq2
                    exact stepAttrs_noFire_pending_entry (step^[j] tbl) a b r huri hname hb
                      (Option.isNone_iff_eq_none.mp hq2.1) hq2.2
                have hRb : lookupName (resolvedTbl tbl) (lower r) = some b := by
                  rw [resolvedTbl_eq_iterN, lookupName_iterate]
                  have hb' := hb
                  rw [lookupName_iterate] at hb'
                  cases h0 : lookupName tbl (lower r) with
                  | none => rw [h0] at hb'; simp at hb'
                  | some b0 =>
                      rw [h0] at hb'
                      simp at hb'
                      simp
                      rw [iterStep_freeze tbl b0 j tbl.length hj' (by rw [hb']; exact hbset)]
                      exact hb'
                right
                constructor
                · rcases stepAttrs_cases (step^[j] tbl) a with hcc | hcc
                  · exact absurd hcc hfire
                  · rw [show iterStep tbl (j + 1) a =
                        stepAttrs (step^[j] tbl) (iterStep tbl j a) from rfl, hL]
                    exact hcc
                · rw [show iterStep tbl (j + 1) a =
                      stepAttrs (step^[j] tbl) (iterStep tbl j a) from rfl, hL]
                  rw [stepAttrs_pending_eq (step^[j] tbl) a r huri hname, hb,
                      stepAttrs_pending_eq (resolvedTbl tbl) a r huri hname, hRb]
        · right
          constructor
          · rw [show iterStep tbl (j + 1) a =
                stepAttrs (step^[j] tbl) (iterStep tbl j a) from rfl,
                stepAttrs_settled _ _ hS]
            exact hS
          · rw [show iterStep tbl (j + 1) a =
                stepAttrs (step^[j] tbl) (iterStep tbl j a) from rfl,
                stepAttrs_settled _ _ hS]
            exact hEq
  rcases hC tbl.length (Nat.le_refl _) with hL | ⟨hS, hEq⟩
  · rw [show iterStep tbl (tbl.length + 1) a =
        stepAttrs (step^[tbl.length] tbl) (iterStep tbl tbl.length a) from rfl, hL,
        ← resolvedTbl_eq_iterN]
  · rw [show iterStep tbl (tbl.length + 1) a =
        stepAttrs (step^[tbl.length] tbl) (iterStep tbl tbl.length a) from rfl,
        stepAttrs_settled _ _ hS, hEq]


mutual

/-- An attrs rewrite that keeps target names maps the target table
entrywise. -/
theorem tgtTable_map_entries (f : String → Attrs → Attrs)
    (hnm : ∀ a, (f "target" a).names = a.names) :
    ∀ y, tgtTable (mapAttrs f y) = (tgtTable y).map (fun p => (p.1, f "target" p.2))
  | .text _ => rfl
  | .elem k a c => by
      by_cases hk : k = "target"
      · subst hk
        simp only [mapAttrs, tgtTable, if_pos rfl, List.map_append, List.map_map]
        rw [hnm a, tgtTableList_map_entries f hnm c]
        simp
      · simp only [mapAttrs, tgtTable, if_neg hk, List.map_append]
        rw [tgtTableList_map_entries f hnm c]
        simp

/-- List form of `tgtTable_map_entries`. -/
theorem tgtTableList_map_entries (f : String → Attrs → Attrs)
    (hnm : ∀ a, (f "target" a).names = a.names) :
    ∀ l, tgtTableList (mapAttrsList f l) = (tgtTableList l).map (fun p => (p.1, f "target" p.2))
  | [] => rfl
  | n :: ns => by
      simp only [mapAttrsList, tgtTableList, List.map_append]
      rw [tgtTable_map_entries f hnm n, tgtTableList_map_entries f hnm ns]

end

/-- On a target, pass 5 is one resolution step against the resolved
table. -/
theorem indirectAttrs_target (tbl rtbl : List (String × Attrs)) (a : Attrs) :
    indirectAttrs tbl rtbl "target" a = stepAttrs rtbl a := rfl

/-- On kinds other than target and reference, pass 5 changes
nothing. -/
theorem indirectAttrs_other (tbl rtbl : List (String × Attrs)) (k : String) (a : Attrs)
    (hk : ¬k = "target") (hr : ¬k = "reference") : indirectAttrs tbl rtbl k a = a := by
  simp [indirectAttrs, hk, hr]

/-- On a reference, pass 5 written through its lookups. -/
theorem indirectAttrs_ref_eq (tbl rtbl : List (String × Attrs)) (a : Attrs) :
    indirectAttrs tbl rtbl "reference" a =
      (match a.refname with
       | some r =>
           (match lookupName tbl (lower r) with
            | some a0 =>
                if a0.refname.isSome then
                  (match lookupName rtbl (lower r) with
                   | some aR =>
                       (match aR.refuri, aR.refname with
                        | none, none =>
                            (match targetDest aR with
                             | some i => { a with refid := some i, refname := none }
                             | none => a)
                        | _, _ => a)
                   | none => a)
                else a
            | none => a)
       | none => a) := by
  rw [indirectAttrs]
  rw [if_neg (by decide), if_pos rfl]

/-- The target table after pass 5: every entry stepped against the
resolved table. -/
theorem tgtTable_indirectT (t : Node) :
    tgtTable (indirectT t) =
      (tgtTable t).map (fun p => (p.1, stepAttrs (resolvedTbl (tgtTable t)) p.2)) := by
  unfold indirectT
  rw [tgtTable_map_entries _ (fun a => by rw [indirectAttrs_target, stepAttrs_names]) t]
  apply List.map_congr_left
  intro p _
  rw [indirectAttrs_target]

/-- The resolved table read through lookups, per entry. -/
theorem lookup_resolvedTbl (tbl : List (String × Attrs)) (nm : String) :
    lookupName (resolvedTbl tbl) nm =
      (lookupName tbl nm).map (iterStep tbl (tbl.length + 1)) := by
  unfold resolvedTbl
  exact lookupName_iterate tbl nm (tbl.length + 1)

/-- After pass 5 the target table is lookup-equal to the resolved
table. -/
theorem lookup_indirectT_resolved (t : Node) (nm : String) :
    lookupName (tgtTable (indirectT t)) nm =
      lookupName (resolvedTbl (tgtTable t)) nm := by
  rw [tgtTable_indirectT, lookupName_map, lookup_resolvedTbl]
  cases h : lookupName (tgtTable t) nm with
  | none => rfl
  | some a => simp [stepAttrs_resolved_iter]

/-- Iterating the table step on a table lookup-equal to a resolved
table stays lookup-equal to it. -/
theorem lookup_iterate_congr (S R : List (String × Attrs))
    (hR : step R = R) (h : ∀ nm, lookupName S nm = lookupName R nm) :
    ∀ j nm, lookupName (step^[j] S) nm = lookupName R nm := by
  intro j
  induction j with
  | zero => exact h
  | succ j ih =>
      intro nm
      rw [Function.iterate_succ_apply']
      rw [show step (step^[j] S) =
            (step^[j] S).map (fun p => (p.1, stepAttrs (step^[j] S) p.2)) from rfl]
      rw [lookupName_map, ih nm]
      have hRs : lookupName (step R) nm = (lookupName R nm).map (stepAttrs R) := by
        rw [show step R = R.map (fun p => (p.1, stepAttrs R p.2)) from rfl, lookupName_map]
      rw [hR] at hRs
      rw [show (lookupName R nm).map (stepAttrs (step^[j] S)) =
            (lookupName R nm).map (stepAttrs R) from ?_]
      · exact hRs.symm
      · cases hx : lookupName R nm with
        | none => rfl
        | some b => simp [stepAttrs_lookup_congr (step^[j] S) R b ih]

/-- The second run's resolved table is lookup-equal to the first
run's. -/
theorem lookup_resolvedTbl_twice (t : Node) (nm : String) :
    lookupName (resolvedTbl (tgtTable (indirectT t))) nm =
      lookupName (resolvedTbl (tgtTable t)) nm := by
  unfold resolvedTbl
  exact lookup_iterate_congr (tgtTable (indirectT t)) (resolvedTbl (tgtTable t))
    (step_resolvedTbl _) (lookup_indirectT_resolved t)
    ((tgtTable (indirectT t)).length + 1) nm


/-- A second pass-5 rewrite of one element's attrs changes nothing. -/
theorem indirectAttrs_idem_pt (t : Node) (k : String) (a : Attrs) :
    indirectAttrs (tgtTable (indirectT t)) (resolvedTbl (tgtTable (indirectT t))) k
      (indirectAttrs (tgtTable t) (resolvedTbl (tgtTable t)) k a) =
    indirectAttrs (tgtTable t) (resolvedTbl (tgtTable t)) k a := by
  by_cases hk : k = "target"
  · subst hk
    rw [indirectAttrs_target, indirectAttrs_target,
        stepAttrs_lookup_congr (resolvedTbl (tgtTable (indirectT t)))
          (resolvedTbl (tgtTable t)) _ (lookup_resolvedTbl_twice t)]
    rcases stepAttrs_cases (resolvedTbl (tgtTable t)) a with h | h
    · rw [h]
      exact h
    · exact stepAttrs_settled _ _ h
  · by_cases hr : k = "reference"
    · subst hr
      rw [indirectAttrs_ref_eq (tgtTable t) (resolvedTbl (tgtTable t)),
          indirectAttrs_ref_eq (tgtTable (indirectT t)) (resolvedTbl (tgtTable (indirectT t)))]
      cases hn : a.refname with
      | none => simp [hn]
      | some r =>
          cases h0 : lookupName (tgtTable t) (lower r) with
          | none =>
              have h2 : lookupName (tgtTable (indirectT t)) (lower r) = none := by
                rw [lookup_indirectT_resolved, lookup_resolvedTbl, h0]
                rfl
              simp [h0, h2, hn]
          | some a0 =>
              have hRr : lookupName (resolvedTbl (tgtTable t)) (lower r) =
                  some (stepAttrs (resolvedTbl (tgtTable t)) a0) := by
                rw [lookup_resolvedTbl, h0]
                simp [stepAttrs_resolved_iter]
              have hT2r : lookupName (tgtTable (indirectT t)) (lower r) =
                  some (stepAttrs (resolvedTbl (tgtTable t)) a0) := by
                rw [lookup_indirectT_resolved]
                exact hRr
              have hR2r : lookupName (resolvedTbl (tgtTable (indirectT t))) (lower r) =
                  some (stepAttrs (resolvedTbl (tgtTable t)) a0) := by
                rw [lookup_resolvedTbl_twice]
                exact hRr
              by_cases hind : a0.refname.isSome = true
              · cases haru : (stepAttrs (resolvedTbl (tgtTable t)) a0).refuri with
                | some u =>
                    cases harn : (stepAttrs (resolvedTbl (tgtTable t)) a0).refname with
                    | some r2 => simp [h0, hind, hRr, hT2r, hR2r, haru, harn, hn]
                    | none => simp [h0, hind, hRr, hT2r, hR2r, haru, harn, hn]
                | none =>
                    cases harn : (stepAttrs (resolvedTbl (tgtTable t)) a0).refname with
                    | some r2 => simp [h0, hind, hRr, hT2r, hR2r, haru, harn, hn]
                    | none =>
                        cases hdest : targetDest (stepAttrs (resolvedTbl (tgtTable t)) a0) with
                        | some i => simp [h0, hind, hRr, hT2r, hR2r, haru, harn, hdest, hn]
                        | none => simp [h0, hind, hRr, hT2r, hR2r, haru, harn, hdest, hn]
              · have hset : pendingA a0 = false := by
                  unfold pendingA
                  rw [eq_false_of_ne_true hind]
                  simp
                have hstep : stepAttrs (resolvedTbl (tgtTable t)) a0 = a0 :=
                  stepAttrs_settled _ _ hset
                rw [hstep] at hT2r
                simp [h0, hind, hT2r, hn, eq_false_of_ne_true hind]
    · rw [indirectAttrs_other _ _ k _ hk hr, indirectAttrs_other _ _ k _ hk hr]

/-- Pass 5, IndirectHyperlinks, is idempotent. -/
theorem indirectT_idem (t : Node) : indirectT (indirectT t) = indirectT t := by
  rw [show indirectT (indirectT t) =
        mapAttrs (indirectAttrs (tgtTable (indirectT t))
          (resolvedTbl (tgtTable (indirectT t)))) (indirectT t) from rfl]
  rw [show indirectT t =
        mapAttrs (indirectAttrs (tgtTable t) (resolvedTbl (tgtTable t))) t from rfl]
  rw [mapAttrs_comp]
  rw [← show indirectT t =
        mapAttrs (indirectAttrs (tgtTable t) (resolvedTbl (tgtTable t))) t from rfl]
  exact mapAttrs_congr _ _ (fun k a => indirectAttrs_idem_pt t k a) t


/-! #### Pass 6, Footnotes, is idempotent -/

/-- Equation: a list headed by a non-label element has no label
text. -/
theorem labelOf_cons_ne (k : String) (a : Attrs) (c rest : List Node)
    (h : ¬k = "label") : labelOf (.elem k a c :: rest) = none := by
  rw [labelOf.eq_def]
  split
  · rename_i heq
    injection heq with e1 _
    injection e1 with ek _ _
    exact absurd ek h
  · rfl

/-- Equation: a list headed by a text leaf has no label text. -/
theorem labelOf_cons_text (s : String) (rest : List Node) :
    labelOf (.text s :: rest) = none := rfl

/-- The text of a singleton text list. -/
def singleTextOf : List Node → Option String
  | [.text s] => some s
  | _ => none

/-- Equation: the label text of a list headed by a label element. -/
theorem labelOf_cons_label (la : Attrs) (lc rest : List Node) :
    labelOf (.elem "label" la lc :: rest) = singleTextOf lc := by
  cases lc with
  | nil => rfl
  | cons y ys => cases y <;> cases ys <;> rfl

/-- Equation: an element-headed list is not a singleton text. -/
theorem singleTextOf_elem_head (k : String) (a : Attrs) (c rest : List Node) :
    singleTextOf (.elem k a c :: rest) = none := rfl

/-- Equation: a two-or-more element list is not a singleton text. -/
theorem singleTextOf_text_cons (s : String) (y : Node) (rest : List Node) :
    singleTextOf (.text s :: y :: rest) = none := rfl

/-- Equation: a list headed by a non-label element has no leading
label. -/
theorem hasLabelChild_cons_ne (k : String) (a : Attrs) (c rest : List Node)
    (h : ¬k = "label") : hasLabelChild (.elem k a c :: rest) = false := by
  rw [hasLabelChild.eq_def]
  split
  · rename_i heq
    injection heq with e1 _
    injection e1 with ek _ _
    exact absurd ek h
  · rfl

/-- Equation: a leading label element. -/
theorem hasLabelChild_cons_label (la : Attrs) (lc rest : List Node) :
    hasLabelChild (.elem "label" la lc :: rest) = true := rfl

/-- Equation: a list headed by a text leaf has no leading label. -/
theorem hasLabelChild_cons_text (s : String) (rest : List Node) :
    hasLabelChild (.text s :: rest) = false := rfl

mutual

/-- Every auto footnote is labeled: the postcondition of
autonumbering. -/
def allLabeled : Node → Bool
  | .text _ => true
  | .elem k a c => (!(k == "footnote" && a.auto) || hasLabelChild c) && allLabeledList c

/-- List form of `allLabeled`. -/
def allLabeledList : List Node → Bool
  | [] => true
  | n :: ns => allLabeled n && allLabeledList ns

end

/-- Numbering keeps whether a child list leads with a label. -/
theorem hasLabelChild_numberList (n : Nat) (c : List Node) :
    hasLabelChild (numberList n c).2 = hasLabelChild c := by
  cases c with
  | nil => rfl
  | cons x xs =>
      cases x with
      | text s => simp [numberList, numberNode, hasLabelChild_cons_text]
      | elem k a c2 =>
          by_cases hk : k = "label"
          · subst hk
            simp only [numberList, numberNode]
            rw [if_neg (by rintro ⟨hc, -⟩; exact absurd hc (by decide))]
            rw [hasLabelChild_cons_label, hasLabelChild_cons_label]
          · simp only [numberList, numberNode]
            split <;> rw [hasLabelChild_cons_ne _ _ _ _ hk, hasLabelChild_cons_ne _ _ _ _ hk]

mutual

/-- Autonumbering leaves every auto footnote labeled. -/
theorem allLabeled_numberNode : ∀ (n : Nat) (y : Node), allLabeled (numberNode n y).2 = true
  | n, .text _ => rfl
  | n, .elem k a c => by
      by_cases hf : k = "footnote" ∧ a.auto = true
      · simp only [numberNode, if_pos hf]
        by_cases hl : hasLabelChild c = true
        · simp only [if_pos hl]
          simp [allLabeled, hasLabelChild_numberList, hl, allLabeledList_numberList (n + 1) c]
        · simp only [if_neg hl]
          simp [allLabeled, allLabeledList, hasLabelChild_cons_label,
            allLabeledList_numberList (n + 1) c]

      · have hb : (k == "footnote" && a.auto) = false := by
          cases hq : (k == "footnote" && a.auto)
          · rfl
          · exfalso
            apply hf
            rw [Bool.and_eq_true] at hq
            exact ⟨by simpa using hq.1, hq.2⟩
        simp only [numberNode, if_neg hf]
        simp [allLabeled, hb, allLabeledList_numberList n c]

/-- List form of `allLabeled_numberNode`. -/
theorem allLabeledList_numberList : ∀ (n : Nat) (l : List Node),
    allLabeledList (numberList n l).2 = true
  | _, [] => rfl
  | n, x :: xs => by
      simp [numberList, allLabeledList, allLabeled_numberNode n x,
        allLabeledList_numberList (numberNode n x).1 xs]

end

mutual

/-- Autonumbering leaves an already fully labeled node unchanged. -/
theorem numberNode_fix : ∀ (n : Nat) (y : Node), allLabeled y = true → (numberNode n y).2 = y
  | _, .text _, _ => rfl
  | n, .elem k a c, h => by
      simp only [allLabeled, Bool.and_eq_true] at h
      by_cases hf : k = "footnote" ∧ a.auto = true
      · have hkb : (k == "footnote" && a.auto) = true := by
          rw [Bool.and_eq_true]
          exact ⟨by simp [hf.1], hf.2⟩
        have hl : hasLabelChild c = true := by simpa [hkb] using h.1
        simp only [numberNode, if_pos hf, if_pos hl]
        rw [numberList_fix (n + 1) c h.2]
      · simp only [numberNode, if_neg hf]
        rw [numberList_fix n c h.2]

/-- List form of `numberNode_fix`. -/
theorem numberList_fix : ∀ (n : Nat) (l : List Node), allLabeledList l = true →
    (numberList n l).2 = l
  | _, [], _ => rfl
  | n, x :: xs, h => by
      simp only [allLabeledList, Bool.and_eq_true] at h
      simp [numberList, numberNode_fix n x h.1, numberList_fix (numberNode n x).1 xs h.2]

end

/-- Dropping one element preserves the suffix relation. -/
theorem suffix_drop_one {α : Type} (l1 l2 : List α) (h : l2 <:+ l1) :
    l2.drop 1 <:+ l1.drop 1 := by
  obtain ⟨pre, rfl⟩ := h
  cases pre with
  | nil => exact List.suffix_refl _
  | cons p ps =>
      simp only [List.cons_append, List.drop_succ_cons, List.drop_zero]
      exact (List.drop_suffix 1 l2).trans (List.suffix_append ps l2)

/-- Every entry of the positional pool carries an id. -/
theorem fnPool_fid (infos : List FInfo) : ∀ fi ∈ fnPool infos, fi.fid.isSome = true := by
  intro fi hfi
  unfold fnPool at hfi
  have := List.of_mem_filter hfi
  rw [Bool.and_eq_true, Bool.and_eq_true, Bool.and_eq_true] at this
  exact this.2

/-- Equation: a reference already carrying a refid. -/
theorem refUpdate_eq_refid (infos : List FInfo) (pool : List FInfo) (k : String)
    (a : Attrs) (c : List Node) (h1 : a.refid.isSome = true) :
    refUpdate infos pool k a c =
      (a, c, if (k == "footnote_reference") && a.auto && a.refname.isNone
        then pool.drop 1 else pool, []) := by
  simp only [refUpdate, if_pos h1]

/-- Equation: a labeled reference. -/
theorem refUpdate_eq_labeled (infos : List FInfo) (pool : List FInfo) (k : String)
    (a : Attrs) (c : List Node) (r : String) (h1 : a.refid.isSome = false)
    (hn : a.refname = some r) :
    refUpdate infos pool k a c =
      (match findByName infos (k == "footnote_reference") r with
       | some fi =>
           (match fi.fid with
            | some i =>
                ({ a with refid := some i, refname := none }, labelText fi c, pool,
                 (match a.ids.head? with | some rid => [(rid, i)] | none => []))
            | none => (a, c, pool, []))
       | none => (a, c, pool, [])) := by
  simp only [refUpdate, hn]
  rw [if_neg (show ¬(a.refid.isSome = true) from by simp [h1])]

/-- Equation: an unlabeled reference. -/
theorem refUpdate_eq_bare (infos : List FInfo) (pool : List FInfo) (k : String)
    (a : Attrs) (c : List Node) (h1 : a.refid.isSome = false) (hn : a.refname = none) :
    refUpdate infos pool k a c =
      (if (k == "footnote_reference") && a.auto then
        (match pool with
         | fi :: rest =>
             (match fi.fid with
              | some i =>
                  ({ a with refid := some i }, labelText fi c, rest,
                   (match a.ids.head? with | some rid => [(rid, i)] | none => []))
              | none => (a, c, rest, []))
         | [] => (a, c, [], []))
       else (a, c, pool, [])) := by
  simp only [refUpdate, hn]
  rw [if_neg (show ¬(a.refid.isSome = true) from by simp [h1])]

/-- The pool after resolving one reference is a suffix of the pool
before. -/
theorem refUpdate_pool_suffix (infos : List FInfo) (pool : List FInfo) (k : String)
    (a : Attrs) (c : List Node) : (refUpdate infos pool k a c).2.2.1 <:+ pool := by
  by_cases h1 : a.refid.isSome = true
  · rw [refUpdate_eq_refid infos pool k a c h1]
    dsimp only
    split
    · exact List.drop_suffix 1 pool
    · exact List.suffix_refl _
  · have h1' : a.refid.isSome = false := by
      cases hq : a.refid.isSome
      · rfl
      · exact absurd hq h1
    cases hn : a.refname with
    | some r =>
        rw [refUpdate_eq_labeled infos pool k a c r h1' hn]
        cases hfind : findByName infos (k == "footnote_reference") r with
        | some fi =>
            cases hfid : fi.fid with
            | some i =>
                simp only [hfid]
                exact List.suffix_refl _
            | none =>
                simp only [hfid]
                exact List.suffix_refl _
        | none => exact List.suffix_refl _
    | none =>
        rw [refUpdate_eq_bare infos pool k a c h1' hn]
        split
        · cases pool with
          | nil => exact List.suffix_refl _
          | cons fi rest =>
              cases hfid : fi.fid with
              | some i =>
                  simp only [hfid]
                  exact List.suffix_cons _ _
              | none =>
                  simp only [hfid]
                  exact List.suffix_cons _ _
        · exact List.suffix_refl _

/-- Rerunning reference resolution on an already resolved reference
with a later pool changes nothing and only advances the pool. -/
theorem refUpdate_rerun (infos : List FInfo) (pool1 pool2 : List FInfo) (k : String)
    (a : Attrs) (c : List Node) (hsuf : pool2 <:+ pool1)
    (hf : ∀ fi ∈ pool1, fi.fid.isSome = true) :
    ∃ q, refUpdate infos pool2 k (refUpdate infos pool1 k a c).1
        (refUpdate infos pool1 k a c).2.1 =
      ((refUpdate infos pool1 k a c).1, (refUpdate infos pool1 k a c).2.1, q, []) ∧
      q <:+ (refUpdate infos pool1 k a c).2.2.1 := by
  by_cases h1 : a.refid.isSome = true
  · rw [refUpdate_eq_refid infos pool1 k a c h1]
    dsimp only
    rw [refUpdate_eq_refid infos pool2 k a c h1]
    refine ⟨_, rfl, ?_⟩
    dsimp only
    split
    · exact suffix_drop_one _ _ hsuf
    · exact hsuf
  · have h1' : a.refid.isSome = false := by
      cases hq : a.refid.isSome
      · rfl
      · exact absurd hq h1
    cases hn : a.refname with
    | some r =>
        rw [refUpdate_eq_labeled infos pool1 k a c r h1' hn]
        cases hfind : findByName infos (k == "footnote_reference") r with
        | some fi =>
            cases hfid : fi.fid with
            | some i =>
                simp only [hfid]
                rw [refUpdate_eq_refid infos pool2 k _ _ (by simp)]
                refine ⟨_, rfl, ?_⟩
                dsimp only
                split
                · exact (List.drop_suffix 1 pool2).trans hsuf
                · exact hsuf
            | none =>
                simp only [hfid]
                rw [refUpdate_eq_labeled infos pool2 k a c r h1' hn, hfind]
                simp only [hfid]
                exact ⟨pool2, rfl, hsuf⟩
        | none =>
            dsimp only
            rw [refUpdate_eq_labeled infos pool2 k a c r h1' hn, hfind]
            exact ⟨pool2, rfl, hsuf⟩
    | none =>
        rw [refUpdate_eq_bare infos pool1 k a c h1' hn]
        by_cases hauto : ((k == "footnote_reference") && a.auto) = true
        · rw [if_pos hauto]
          cases pool1 with
          | nil =>
              have hp2 : pool2 = [] := by
                cases hsuf with
                | intro pre hpre => exact List.append_eq_nil.mp hpre |>.2
              subst hp2
              dsimp only
              rw [refUpdate_eq_bare infos [] k a c h1' hn, if_pos hauto]
              exact ⟨[], rfl, List.suffix_refl _⟩
          | cons fi rest =>
              have hfi := hf fi (by simp)
              obtain ⟨i, hfid⟩ := Option.isSome_iff_exists.mp hfi
              simp only [hfid]
              rw [refUpdate_eq_refid infos pool2 k _ _ (by simp)]
              refine ⟨_, rfl, ?_⟩
              dsimp only
              split
              · exact suffix_drop_one _ _ hsuf
              · rename_i hcond
                exfalso
                apply hcond
                simp [hn]
                rw [Bool.and_eq_true] at hauto
                exact ⟨by simpa using hauto.1, hauto.2⟩
        · rw [if_neg hauto]
          dsimp only
          rw [refUpdate_eq_bare infos pool2 k a c h1' hn, if_neg hauto]
          exact ⟨pool2, rfl, hsuf⟩

mutual

/-- The resolution walk only consumes the pool. -/
theorem fnRes_pool_suffix (infos : List FInfo) : ∀ (pool : List FInfo) (y : Node),
    (fnResNode infos pool y).1 <:+ pool
  | _, .text _ => List.suffix_refl _
  | pool, .elem k a c => by
      by_cases hk : k = "footnote_reference" ∨ k = "citation_reference"
      · simp only [fnResNode, if_pos hk]
        exact refUpdate_pool_suffix infos pool k a c
      · simp only [fnResNode, if_neg hk]
        exact fnResList_pool_suffix infos pool c

/-- List form of `fnRes_pool_suffix`. -/
theorem fnResList_pool_suffix (infos : List FInfo) : ∀ (pool : List FInfo) (l : List Node),
    (fnResList infos pool l).1 <:+ pool
  | _, [] => List.suffix_refl _
  | pool, n :: ns => by
      simp only [fnResList]
      exact (fnResList_pool_suffix infos (fnResNode infos pool n).1 ns).trans
        (fnRes_pool_suffix infos pool n)

end

mutual

/-- Rerunning the resolution walk over its own output with a later
pool leaves the tree alone, emits no backref pairs, and only advances
the pool. -/
theorem fnRes_rerun (infos : List FInfo) : ∀ (y : Node) (pool1 pool2 : List FInfo),
    pool2 <:+ pool1 → (∀ fi ∈ pool1, fi.fid.isSome = true) →
    ∃ q, fnResNode infos pool2 (fnResNode infos pool1 y).2.2 =
      (q, [], (fnResNode infos pool1 y).2.2) ∧ q <:+ (fnResNode infos pool1 y).1
  | .text _, _, pool2, hsuf, _ => ⟨pool2, rfl, hsuf⟩
  | .elem k a c, pool1, pool2, hsuf, hf => by
      by_cases hk : k = "footnote_reference" ∨ k = "citation_reference"
      · simp only [fnResNode, if_pos hk]
        obtain ⟨q, hq, hsq⟩ := refUpdate_rerun infos pool1 pool2 k a c hsuf hf
        refine ⟨q, ?_, hsq⟩
        simp only [fnResNode, if_pos hk, hq]
      · simp only [fnResNode, if_neg hk]
        obtain ⟨q, hq, hsq⟩ := fnResList_rerun infos c pool1 pool2 hsuf hf
        refine ⟨q, ?_, hsq⟩
        simp only [fnResNode, if_neg hk, hq]

/-- List form of `fnRes_rerun`. -/
theorem fnResList_rerun (infos : List FInfo) : ∀ (l : List Node) (pool1 pool2 : List FInfo),
    pool2 <:+ pool1 → (∀ fi ∈ pool1, fi.fid.isSome = true) →
    ∃ q, fnResList infos pool2 (fnResList infos pool1 l).2.2 =
      (q, [], (fnResList infos pool1 l).2.2) ∧ q <:+ (fnResList infos pool1 l).1
  | [], _, pool2, hsuf, _ => ⟨pool2, rfl, hsuf⟩
  | n :: ns, pool1, pool2, hsuf, hf => by
      obtain ⟨qh, hqh, hsqh⟩ := fnRes_rerun infos n pool1 pool2 hsuf hf
      have hp1suf : (fnResNode infos pool1 n).1 <:+ pool1 := fnRes_pool_suffix infos pool1 n
      have hf1 : ∀ fi ∈ (fnResNode infos pool1 n).1, fi.fid.isSome = true :=
        fun fi hm => hf fi (hp1suf.subset hm)
      obtain ⟨qt, hqt, hsqt⟩ :=
        fnResList_rerun infos ns (fnResNode infos pool1 n).1 qh hsqh hf1
      refine ⟨qt, ?_, ?_⟩
      · simp only [fnResList, hqh, hqt]
        simp
      · simp only [fnResList]
        exact hsqt

end

/-- The shape of the walk's output on an element. -/
theorem fnResNode_elem_shape (infos : List FInfo) (pool : List FInfo) (k : String)
    (a : Attrs) (c : List Node) :
    ∃ a2 c2, (fnResNode infos pool (.elem k a c)).2.2 = .elem k a2 c2 := by
  by_cases hk : k = "footnote_reference" ∨ k = "citation_reference"
  · simp only [fnResNode, if_pos hk]
    exact ⟨_, _, rfl⟩
  · simp only [fnResNode, if_neg hk]
    exact ⟨_, _, rfl⟩

/-- Label text keeps the footnote table of the children. -/
theorem fnInfosList_labelText (fi : FInfo) (c : List Node) :
    fnInfosList (labelText fi c) = fnInfosList c := by
  cases c with
  | nil =>
      unfold labelText
      cases fi.label with
      | none => rfl
      | some s => simp [fnInfosList, fnInfos]
  | cons x xs => rfl

/-- Label text keeps whether the children lead with a label. -/
theorem hasLabelChild_labelText (fi : FInfo) (c : List Node) :
    hasLabelChild (labelText fi c) = hasLabelChild c := by
  cases c with
  | nil =>
      unfold labelText
      cases fi.label with
      | none => rfl
      | some s => rfl
  | cons x xs => rfl

/-- Resolution returns a reference's own children or its target's
label text. -/
theorem refUpdate_children_form (infos : List FInfo) (pool : List FInfo) (k : String)
    (a : Attrs) (c : List Node) :
    (refUpdate infos pool k a c).2.1 = c ∨
      ∃ fi, (refUpdate infos pool k a c).2.1 = labelText fi c := by
  by_cases h1 : a.refid.isSome = true
  · rw [refUpdate_eq_refid infos pool k a c h1]
    exact Or.inl rfl
  · have h1' : a.refid.isSome = false := by
      cases hq : a.refid.isSome
      · rfl
      · exact absurd hq h1
    cases hn : a.refname with
    | some r =>
        rw [refUpdate_eq_labeled infos pool k a c r h1' hn]
        cases hfind : findByName infos (k == "footnote_reference") r with
        | some fi =>
            cases hfid : fi.fid with
            | some i =>
                simp only [hfid]
                exact Or.inr ⟨fi, rfl⟩
            | none =>
                simp only [hfid]
                exact Or.inl trivial
        | none => refine Or.inl (by simp)
    | none =>
        rw [refUpdate_eq_bare infos pool k a c h1' hn]
        split
        · cases pool with
          | nil => exact Or.inl rfl
          | cons fi rest =>
              cases hfid : fi.fid with
              | some i =>
                  simp only [hfid]
                  exact Or.inr ⟨fi, rfl⟩
              | none =>
                  simp only [hfid]
                  exact Or.inl trivial
        · refine Or.inl (by simp)

/-- The label text of walked children is the label text of the
children. -/
theorem labelOf_fnResList (infos : List FInfo) (pool : List FInfo) (c : List Node) :
    labelOf (fnResList infos pool c).2.2 = labelOf c := by
  cases c with
  | nil => rfl
  | cons x xs =>
      cases x with
      | text s =>
          simp only [fnResList, fnResNode]
          rw [labelOf_cons_text, labelOf_cons_text]
      | elem k a c2 =>
          by_cases hkl : k = "label"
          · subst hkl
            have hk : ¬("label" = "footnote_reference" ∨ "label" = "citation_reference") := by
              decide
            simp only [fnResList, fnResNode, if_neg hk]
            rw [labelOf_cons_label, labelOf_cons_label]
            cases c2 with
            | nil => rfl
            | cons y ys =>
                cases y with
                | text s =>
                    cases ys with
                    | nil => simp [fnResList, fnResNode]
                    | cons z zs =>
                        simp only [fnResList, fnResNode]
                        rw [singleTextOf_text_cons, singleTextOf_text_cons]
                | elem k2 a2 c3 =>
                    obtain ⟨a3, c4, hsh⟩ := fnResNode_elem_shape infos pool k2 a2 c3
                    simp only [fnResList]
                    rw [hsh, singleTextOf_elem_head, singleTextOf_elem_head]
          · obtain ⟨a2, c3, hsh⟩ := fnResNode_elem_shape infos pool k a c2
            simp only [fnResList]
            rw [hsh, labelOf_cons_ne _ _ _ _ hkl, labelOf_cons_ne _ _ _ _ hkl]

mutual

/-- The resolution walk keeps the footnote table. -/
theorem fnInfos_fnRes (infos : List FInfo) : ∀ (pool : List FInfo) (y : Node),
    fnInfos (fnResNode infos pool y).2.2 = fnInfos y
  | _, .text _ => rfl
  | pool, .elem k a c => by
      by_cases hk : k = "footnote_reference" ∨ k = "citation_reference"
      · have hnf : ¬k = "footnote" := by rcases hk with h | h <;> subst h <;> decide
        have hnc : ¬k = "citation" := by rcases hk with h | h <;> subst h <;> decide
        simp only [fnResNode, if_pos hk, fnInfos, if_neg hnf, if_neg hnc]
        rcases refUpdate_children_form infos pool k a c with hc | ⟨fi, hc⟩
        · rw [hc]
        · rw [hc, fnInfosList_labelText]
      · simp only [fnResNode, if_neg hk, fnInfos]
        rw [labelOf_fnResList, fnInfosList_fnRes infos pool c]

/-- List form of `fnInfos_fnRes`. -/
theorem fnInfosList_fnRes (infos : List FInfo) : ∀ (pool : List FInfo) (l : List Node),
    fnInfosList (fnResList infos pool l).2.2 = fnInfosList l
  | _, [] => rfl
  | pool, n :: ns => by
      simp only [fnResList, fnInfosList]
      rw [fnInfos_fnRes infos pool n,
          fnInfosList_fnRes infos (fnResNode infos pool n).1 ns]

end

mutual

/-- With no backref pairs, backref population is the identity. -/
theorem addBackrefs_nil : ∀ (y : Node), addBackrefs [] y = y
  | .text _ => rfl
  | .elem k a c => by
      by_cases hk : k = "footnote" ∨ k = "citation"
      · simp only [addBackrefs, if_pos hk, addBackrefsList_nil c]
        cases hh : a.ids.head? <;> simp [hh]
      · simp only [addBackrefs, if_neg hk, addBackrefsList_nil c]

/-- List form of `addBackrefs_nil`. -/
theorem addBackrefsList_nil : ∀ (l : List Node), addBackrefsList [] l = l
  | [] => rfl
  | n :: ns => by
      simp only [addBackrefsList, addBackrefs_nil n, addBackrefsList_nil ns]

end

/-- The shape of backref population on an element. -/
theorem addBackrefs_elem_shape (prs : List (String × String)) (k : String) (a : Attrs)
    (c : List Node) :
    ∃ a2, addBackrefs prs (.elem k a c) = .elem k a2 (addBackrefsList prs c) := by
  by_cases hk : k = "footnote" ∨ k = "citation"
  · simp only [addBackrefs, if_pos hk]
    exact ⟨_, rfl⟩
  · simp only [addBackrefs, if_neg hk]
    exact ⟨_, rfl⟩

/-- Backref population keeps whether a child list leads with a
label. -/
theorem hasLabelChild_addBackrefsList (prs : List (String × String)) (c : List Node) :
    hasLabelChild (addBackrefsList prs c) = hasLabelChild c := by
  cases c with
  | nil => rfl
  | cons x xs =>
      cases x with
      | text s => rfl
      | elem k a c2 =>
          obtain ⟨a2, hsh⟩ := addBackrefs_elem_shape prs k a c2
          simp only [addBackrefsList]
          rw [hsh]
          by_cases hkl : k = "label"
          · subst hkl
            rw [hasLabelChild_cons_label, hasLabelChild_cons_label]
          · rw [hasLabelChild_cons_ne _ _ _ _ hkl, hasLabelChild_cons_ne _ _ _ _ hkl]

/-- Backref population keeps the label text of a child list. -/
theorem labelOf_addBackrefsList (prs : List (String × String)) (c : List Node) :
    labelOf (addBackrefsList prs c) = labelOf c := by
  cases c with
  | nil => rfl
  | cons x xs =>
      cases x with
      | text s => rfl
      | elem k a c2 =>
          obtain ⟨a2, hsh⟩ := addBackrefs_elem_shape prs k a c2
          simp only [addBackrefsList]
          rw [hsh]
          by_cases hkl : k = "label"
          · subst hkl
            rw [labelOf_cons_label, labelOf_cons_label]
            cases c2 with
            | nil => rfl
            | cons y ys =>
                cases y with
                | text s2 =>
                    cases ys with
                    | nil => rfl
                    | cons z zs =>
                        simp only [addBackrefsList, addBackrefs]
                        rw [singleTextOf_text_cons, singleTextOf_text_cons]
                | elem k2 a3 c3 =>
                    obtain ⟨a4, hsh2⟩ := addBackrefs_elem_shape prs k2 a3 c3
                    simp only [addBackrefsList]
                    rw [hsh2, singleTextOf_elem_head, singleTextOf_elem_head]
          · rw [labelOf_cons_ne _ _ _ _ hkl, labelOf_cons_ne _ _ _ _ hkl]

mutual

/-- Backref population keeps the footnote table. -/
theorem fnInfos_addBackrefs (prs : List (String × String)) :
    ∀ (y : Node), fnInfos (addBackrefs prs y) = fnInfos y
  | .text _ => rfl
  | .elem k a c => by
      by_cases hk : k = "footnote" ∨ k = "citation"
      · rcases hk with hf | hf <;> subst hf <;>
          simp [addBackrefs, fnInfos, labelOf_addBackrefsList,
            fnInfosList_addBackrefsList prs c]
      · have hnf : ¬k = "footnote" := fun h => hk (Or.inl h)
        have hnc : ¬k = "citation" := fun h => hk (Or.inr h)
        simp only [addBackrefs, if_neg hk, fnInfos, if_neg hnf, if_neg hnc]
        rw [fnInfosList_addBackrefsList prs c]

/-- List form of `fnInfos_addBackrefs`. -/
theorem fnInfosList_addBackrefsList (prs : List (String × String)) :
    ∀ (l : List Node), fnInfosList (addBackrefsList prs l) = fnInfosList l
  | [] => rfl
  | n :: ns => by
      simp only [addBackrefsList, fnInfosList]
      rw [fnInfos_addBackrefs prs n, fnInfosList_addBackrefsList prs ns]

end

/-- Label text commutes with backref population. -/
theorem labelText_addBackrefsList (prs : List (String × String)) (fi : FInfo)
    (c : List Node) :
    labelText fi (addBackrefsList prs c) = addBackrefsList prs (labelText fi c) := by
  cases c with
  | nil => cases hl : fi.label <;> simp [labelText, addBackrefsList, hl, addBackrefs]
  | cons x xs => rfl

/-- Reference resolution commutes with backref population of the
children. -/
theorem refUpdate_addBackrefs (infos : List FInfo) (pool : List FInfo)
    (prs : List (String × String)) (k : String) (a : Attrs) (c : List Node) :
    refUpdate infos pool k a (addBackrefsList prs c) =
      ((refUpdate infos pool k a c).1,
       addBackrefsList prs (refUpdate infos pool k a c).2.1,
       (refUpdate infos pool k a c).2.2) := by
  by_cases h1 : a.refid.isSome = true
  · rw [refUpdate_eq_refid infos pool k a _ h1, refUpdate_eq_refid infos pool k a c h1]
  · have h1' : a.refid.isSome = false := by
      cases hv : a.refid.isSome
      · rfl
      · exact absurd hv h1
    cases hn : a.refname with
    | some r =>
        rw [refUpdate_eq_labeled infos pool k a _ r h1' hn,
            refUpdate_eq_labeled infos pool k a c r h1' hn]
        cases hfind : findByName infos (k == "footnote_reference") r with
        | some fi =>
            cases hfid : fi.fid with
            | some i =>
                simp only [hfid]
                rw [labelText_addBackrefsList]
            | none => simp only [hfid]
        | none => rfl
    | none =>
        rw [refUpdate_eq_bare infos pool k a _ h1' hn,
            refUpdate_eq_bare infos pool k a c h1' hn]
        by_cases hb : ((k == "footnote_reference") && a.auto) = true
        · rw [if_pos hb, if_pos hb]
          cases pool with
          | nil => rfl
          | cons fi rest =>
              cases hfid : fi.fid with
              | some i =>
                  simp only [hfid]
                  rw [labelText_addBackrefsList]
              | none => simp only [hfid]
        · rw [if_neg hb, if_neg hb]

mutual

/-- The resolution walk commutes with backref population. -/
theorem fnRes_addBackrefs (infos : List FInfo) (prs : List (String × String)) :
    ∀ (pool : List FInfo) (y : Node),
    fnResNode infos pool (addBackrefs prs y) =
      ((fnResNode infos pool y).1, (fnResNode infos pool y).2.1,
       addBackrefs prs (fnResNode infos pool y).2.2)
  | _, .text _ => rfl
  | pool, .elem k a c => by
      by_cases hk : k = "footnote_reference" ∨ k = "citation_reference"
      · have hk2 : ¬(k = "footnote" ∨ k = "citation") := by
          rcases hk with h | h <;> subst h <;> decide
        simp only [addBackrefs, if_neg hk2, fnResNode, if_pos hk]
        rw [refUpdate_addBackrefs]
      · by_cases hk2 : k = "footnote" ∨ k = "citation"
        · simp only [addBackrefs, if_pos hk2, fnResNode, if_neg hk]
          rw [fnResList_addBackrefs infos prs pool c]
        · simp only [addBackrefs, if_neg hk2, fnResNode, if_neg hk]
          rw [fnResList_addBackrefs infos prs pool c]

/-- List form of `fnRes_addBackrefs`. -/
theorem fnResList_addBackrefs (infos : List FInfo) (prs : List (String × String)) :
    ∀ (pool : List FInfo) (l : List Node),
    fnResList infos pool (addBackrefsList prs l) =
      ((fnResList infos pool l).1, (fnResList infos pool l).2.1,
       addBackrefsList prs (fnResList infos pool l).2.2)
  | _, [] => rfl
  | pool, n :: ns => by
      simp only [addBackrefsList, fnResList]
      rw [fnRes_addBackrefs infos prs pool n]
      dsimp only
      rw [fnResList_addBackrefs infos prs (fnResNode infos pool n).1 ns]

end

/-- Label text keeps full labeledness of the children. -/
theorem allLabeled_labelText (fi : FInfo) (c : List Node) :
    allLabeledList (labelText fi c) = allLabeledList c := by
  cases c with
  | nil => cases hl : fi.label <;> simp [labelText, hl, allLabeledList, allLabeled]
  | cons x xs => rfl

/-- The resolution walk keeps whether a child list leads with a
label. -/
theorem hasLabelChild_fnResList (infos : List FInfo) (pool : List FInfo) (c : List Node) :
    hasLabelChild (fnResList infos pool c).2.2 = hasLabelChild c := by
  cases c with
  | nil => rfl
  | cons x xs =>
      cases x with
      | text s =>
          simp only [fnResList, fnResNode]
          rw [hasLabelChild_cons_text, hasLabelChild_cons_text]
      | elem k a c2 =>
          obtain ⟨a2, c3, hsh⟩ := fnResNode_elem_shape infos pool k a c2
          simp only [fnResList]
          rw [hsh]
          by_cases hkl : k = "label"
          · subst hkl
            rw [hasLabelChild_cons_label, hasLabelChild_cons_label]
          · rw [hasLabelChild_cons_ne _ _ _ _ hkl, hasLabelChild_cons_ne _ _ _ _ hkl]

mutual

/-- The resolution walk keeps full labeledness. -/
theorem allLabeled_fnRes (infos : List FInfo) : ∀ (pool : List FInfo) (y : Node),
    allLabeled (fnResNode infos pool y).2.2 = allLabeled y
  | _, .text _ => rfl
  | pool, .elem k a c => by
      by_cases hk : k = "footnote_reference" ∨ k = "citation_reference"
      · have hnf : (k == "footnote") = false := by
          rcases hk with h | h <;> subst h <;> decide
        simp only [fnResNode, if_pos hk, allLabeled, hnf, Bool.false_and,
          Bool.not_false, Bool.true_or, Bool.true_and]
        rcases refUpdate_children_form infos pool k a c with hc | ⟨fi, hc⟩
        · rw [hc]
        · rw [hc, allLabeled_labelText]
      · simp only [fnResNode, if_neg hk, allLabeled]
        rw [hasLabelChild_fnResList, allLabeledList_fnResList infos pool c]

/-- List form of `allLabeled_fnRes`. -/
theorem allLabeledList_fnResList (infos : List FInfo) : ∀ (pool : List FInfo) (l : List Node),
    allLabeledList (fnResList infos pool l).2.2 = allLabeledList l
  | _, [] => rfl
  | pool, n :: ns => by
      simp only [fnResList, allLabeledList]
      rw [allLabeled_fnRes infos pool n,
          allLabeledList_fnResList infos (fnResNode infos pool n).1 ns]

end

mutual

/-- Backref population keeps full labeledness. -/
theorem allLabeled_addBackrefs (prs : List (String × String)) :
    ∀ (y : Node), allLabeled (addBackrefs prs y) = allLabeled y
  | .text _ => rfl
  | .elem k a c => by
      by_cases hk : k = "footnote" ∨ k = "citation"
      · simp only [addBackrefs, if_pos hk, allLabeled]
        rw [hasLabelChild_addBackrefsList, allLabeledList_addBackrefsList prs c]
      · simp only [addBackrefs, if_neg hk, allLabeled]
        rw [hasLabelChild_addBackrefsList, allLabeledList_addBackrefsList prs c]

/-- List form of `allLabeled_addBackrefs`. -/
theorem allLabeledList_addBackrefsList (prs : List (String × String)) :
    ∀ (l : List Node), allLabeledList (addBackrefsList prs l) = allLabeledList l
  | [] => rfl
  | n :: ns => by
      simp only [addBackrefsList, allLabeledList]
      rw [allLabeled_addBackrefs prs n, allLabeledList_addBackrefsList prs ns]

end

/-- A fully labeled tree whose resolution walk is a no-op is a fixed
point of the Footnotes pass. -/
theorem footnotesT_fixed (u : Node) (hall : allLabeled u = true) (q : List FInfo)
    (hq : fnResNode (fnInfos u) (fnPool (fnInfos u)) u = (q, [], u)) :
    footnotesT u = u := by
  simp only [footnotesT, numberNode_fix 0 u hall, hq, addBackrefs_nil]

/-- Pass 6, Footnotes, is idempotent. -/
theorem footnotesT_idem (t : Node) : footnotesT (footnotesT t) = footnotesT t := by
  have hall1 : allLabeled (numberNode 0 t).2 = true := allLabeled_numberNode 0 t
  have hallW : allLabeled (fnResNode (fnInfos (numberNode 0 t).2)
      (fnPool (fnInfos (numberNode 0 t).2)) (numberNode 0 t).2).2.2 = true := by
    rw [allLabeled_fnRes]
    exact hall1
  have hallu : allLabeled (footnotesT t) = true := by
    simp only [footnotesT]
    rw [allLabeled_addBackrefs]
    exact hallW
  have hinf : fnInfos (footnotesT t) = fnInfos (numberNode 0 t).2 := by
    simp only [footnotesT]
    rw [fnInfos_addBackrefs, fnInfos_fnRes]
  obtain ⟨q, hq, -⟩ := fnRes_rerun (fnInfos (numberNode 0 t).2) (numberNode 0 t).2
      (fnPool (fnInfos (numberNode 0 t).2)) (fnPool (fnInfos (numberNode 0 t).2))
      (List.suffix_refl _) (fnPool_fid _)
  have hwalk : fnResNode (fnInfos (numberNode 0 t).2)
      (fnPool (fnInfos (numberNode 0 t).2)) (footnotesT t) = (q, [], footnotesT t) := by
    simp only [footnotesT]
    rw [fnRes_addBackrefs, hq]
  exact footnotesT_fixed (footnotesT t) hallu q (by rw [hinf]; exact hwalk)



/-- Equation: the collected definitions of a definition element. -/
theorem subDefs_def (a : Attrs) (c : List Node) :
    subDefs (.elem "substitution_definition" a c) =
      a.names.map (fun nm => (lower nm, c)) ++ subDefsList c := by
  simp [subDefs]

/-- Equation: the collected definitions of a non-definition
element. -/
theorem subDefs_ne (k : String) (a : Attrs) (c : List Node)
    (h : ¬k = "substitution_definition") :
    subDefs (.elem k a c) = subDefsList c := by
  simp [subDefs, h]

/-- Definition collection distributes over list append. -/
theorem subDefsList_append : ∀ (l1 l2 : List Node),
    subDefsList (l1 ++ l2) = subDefsList l1 ++ subDefsList l2
  | [], l2 => rfl
  | n :: ns, l2 => by
      have hc : subDefsList ((n :: ns) ++ l2) = subDefs n ++ subDefsList (ns ++ l2) := rfl
      have hc2 : subDefsList (n :: ns) = subDefs n ++ subDefsList ns := rfl
      rw [hc, hc2, subDefsList_append ns l2, List.append_assoc]



mutual

/-- Nested definitions are already collected: the definitions of an
entry's stored children are entries themselves. -/
theorem subDefs_nested : ∀ (y : Node), ∀ p ∈ subDefs y, ∀ q ∈ subDefsList p.2, q ∈ subDefs y
  | .text _ => by intro p hp; simp [subDefs] at hp
  | .elem k a c => by
      intro p hp q hq
      by_cases hd : k = "substitution_definition"
      · subst hd
        rw [subDefs_def] at hp ⊢
        rw [List.mem_append] at hp ⊢
        rcases hp with hp | hp
        · rw [List.mem_map] at hp
          obtain ⟨nm, hnm, hpe⟩ := hp
          right
          rw [← hpe] at hq
          exact hq
        · exact Or.inr (subDefsList_nested c p hp q hq)
      · rw [subDefs_ne k a c hd] at hp ⊢
        exact subDefsList_nested c p hp q hq

/-- List form of `subDefs_nested`. -/
theorem subDefsList_nested : ∀ (l : List Node),
    ∀ p ∈ subDefsList l, ∀ q ∈ subDefsList p.2, q ∈ subDefsList l
  | [] => by intro p hp; simp [subDefsList] at hp
  | n :: ns => by
      intro p hp q hq
      have he : subDefsList (n :: ns) = subDefs n ++ subDefsList ns := rfl
      rw [he] at hp ⊢
      rw [List.mem_append] at hp ⊢
      rcases hp with hp | hp
      · exact Or.inl (subDefs_nested n p hp q hq)
      · exact Or.inr (subDefsList_nested ns p hp q hq)

end

/-! #### Pass 1, Substitutions, is idempotent -/

/-- Equation: one sweep of an empty list. -/
theorem sweepList_nil (defs : List (String × List Node)) :
    sweepList defs [] = [] := rfl

/-- Equation: one sweep of a cons. -/
theorem sweepList_cons (defs : List (String × List Node)) (n : Node) (ns : List Node) :
    sweepList defs (n :: ns) = sweepNode defs n ++ sweepList defs ns := rfl

/-- Equation: one sweep of a non-reference element. -/
theorem sweepNode_ne (defs : List (String × List Node)) (k : String) (a : Attrs)
    (c : List Node) (h : ¬k = "substitution_reference") :
    sweepNode defs (.elem k a c) = [.elem k a (sweepList defs c)] := by
  simp [sweepNode, h]

/-- Equation: one sweep of a reference with no refname. -/
theorem sweepNode_noname (defs : List (String × List Node)) (a : Attrs)
    (c : List Node) (hn : a.refname = none) :
    sweepNode defs (.elem "substitution_reference" a c) =
      [.elem "substitution_reference" a (sweepList defs c)] := by
  simp [sweepNode, hn]

/-- Equation: one sweep of an unmatched reference. -/
theorem sweepNode_unmatched (defs : List (String × List Node)) (a : Attrs)
    (c : List Node) (r : String) (hn : a.refname = some r)
    (hl : lookupName defs (lower r) = none) :
    sweepNode defs (.elem "substitution_reference" a c) =
      [.elem "substitution_reference" a (sweepList defs c)] := by
  simp [sweepNode, hn, hl]

/-- Equation: one sweep of a matched reference splices the entry's
stored children. -/
theorem sweepNode_matched (defs : List (String × List Node)) (a : Attrs)
    (c : List Node) (r : String) (repl : List Node) (hn : a.refname = some r)
    (hl : lookupName defs (lower r) = some repl) :
    sweepNode defs (.elem "substitution_reference" a c) = repl := by
  simp [sweepNode, hn, hl]

/-- The settledness of a list splits over an append. -/
theorem settledSubList_append (keys : List String) : ∀ (l1 l2 : List Node),
    settledSubList keys (l1 ++ l2) = (settledSubList keys l1 && settledSubList keys l2)
  | [], l2 => by simp [settledSubList]
  | n :: ns, l2 => by
      have hc : ∀ m : List Node, settledSubList keys (n :: m) =
          (settledSub keys n && settledSubList keys m) := fun m => rfl
      rw [List.cons_append, hc, hc, settledSubList_append keys ns l2, Bool.and_assoc]

/-- A name outside the key list is found by no lookup. -/
theorem lookupName_none_of_not_mem (tbl : List (String × List Node)) (nm : String)
    (h : ¬nm ∈ tbl.map Prod.fst) : lookupName tbl nm = none := by
  rw [lookupName_none]
  intro p hp hbeq
  exact h (List.mem_map.mpr ⟨p, hp, by simpa using hbeq⟩)

/-- A name found by no lookup is outside the key list. -/
theorem not_mem_keys_of_lookup_none (tbl : List (String × List Node)) (nm : String)
    (h : lookupName tbl nm = none) : ¬nm ∈ tbl.map Prod.fst := by
  intro hmem
  obtain ⟨p, hp, hfst⟩ := List.mem_map.mp hmem
  exact (lookupName_none tbl nm).mp h p hp (by simp [hfst])

mutual

/-- Settledness is antitone in the key list, node form. -/
theorem settledSub_mono (K1 K2 : List String) (hk : ∀ x, x ∈ K2 → x ∈ K1) :
    ∀ (y : Node), settledSub K1 y = true → settledSub K2 y = true
  | .text _, _ => rfl
  | .elem k a c, h => by
      have he : ∀ K : List String, settledSub K (.elem k a c) =
          ((!(k == "substitution_reference" &&
             (match a.refname with
              | some r => decide ((lower r) ∈ K)
              | none => false))) && settledSubList K c) := fun K => rfl
      rw [he, Bool.and_eq_true] at h
      rw [he, Bool.and_eq_true]
      refine ⟨?_, settledSubList_mono K1 K2 hk c h.2⟩
      cases hn : a.refname with
      | none => simp [hn]
      | some r =>
          have h1 := h.1
          simp only [hn] at h1
          simp only [hn]
          by_cases hm : (lower r) ∈ K2
          · rw [decide_eq_true (hk _ hm), Bool.and_true] at h1
            rw [decide_eq_true hm, Bool.and_true]
            exact h1
          · rw [decide_eq_false hm, Bool.and_false]
            rfl

/-- Settledness is antitone in the key list, list form. -/
theorem settledSubList_mono (K1 K2 : List String) (hk : ∀ x, x ∈ K2 → x ∈ K1) :
    ∀ (l : List Node), settledSubList K1 l = true → settledSubList K2 l = true
  | [], _ => rfl
  | n :: ns, h => by
      have hc : ∀ K : List String, settledSubList K (n :: ns) =
          (settledSub K n && settledSubList K ns) := fun K => rfl
      rw [hc, Bool.and_eq_true] at h
      rw [hc, Bool.and_eq_true]
      exact ⟨settledSub_mono K1 K2 hk n h.1, settledSubList_mono K1 K2 hk ns h.2⟩

end

mutual

/-- One sweep is the identity on a tree settled for the table's keys,
node form. -/
theorem sweepNode_of_settled (defs : List (String × List Node)) :
    ∀ (y : Node), settledSub (defs.map Prod.fst) y = true → sweepNode defs y = [y]
  | .text s, _ => rfl
  | .elem k a c, h => by
      have he : settledSub (defs.map Prod.fst) (.elem k a c) =
          ((!(k == "substitution_reference" &&
             (match a.refname with
              | some r => decide ((lower r) ∈ defs.map Prod.fst)
              | none => false))) && settledSubList (defs.map Prod.fst) c) := rfl
      rw [he, Bool.and_eq_true] at h
      by_cases hk : k = "substitution_reference"
      · subst hk
        cases hn : a.refname with
        | none =>
            rw [sweepNode_noname defs a c hn, sweepList_of_settled defs c h.2]
        | some r =>
            have h1 := h.1
            simp only [hn] at h1
            have hnm : ¬(lower r) ∈ defs.map Prod.fst := by
              simpa using h1
            rw [sweepNode_unmatched defs a c r hn
              (lookupName_none_of_not_mem defs (lower r) hnm),
              sweepList_of_settled defs c h.2]
      · rw [sweepNode_ne defs k a c hk, sweepList_of_settled defs c h.2]

/-- One sweep is the identity on a list settled for the table's keys,
list form. -/
theorem sweepList_of_settled (defs : List (String × List Node)) :
    ∀ (l : List Node), settledSubList (defs.map Prod.fst) l = true →
      sweepList defs l = l
  | [], _ => rfl
  | n :: ns, h => by
      have hc : settledSubList (defs.map Prod.fst) (n :: ns) =
          (settledSub (defs.map Prod.fst) n &&
            settledSubList (defs.map Prod.fst) ns) := rfl
      rw [hc, Bool.and_eq_true] at h
      rw [sweepList_cons, sweepNode_of_settled defs n h.1,
        sweepList_of_settled defs ns h.2]
      rfl

end

mutual

/-- A sweep against a table of settled bodies leaves no reference
naming one of the table's keys, node form. -/
theorem settled_sweepNode (defs : List (String × List Node)) (K : List String)
    (hkeys : defs.map Prod.fst = K)
    (hv : ∀ p ∈ defs, settledSubList K p.2 = true) :
    ∀ (y : Node), settledSubList K (sweepNode defs y) = true
  | .text s => by simp [sweepNode, settledSubList, settledSub]
  | .elem k a c => by
      by_cases hk : k = "substitution_reference"
      · subst hk
        cases hn : a.refname with
        | none =>
            rw [sweepNode_noname defs a c hn]
            have hrec := settled_sweepList defs K hkeys hv c
            simp [settledSubList, settledSub, hn, hrec]
        | some r =>
            cases hd : lookupName defs (lower r) with
            | none =>
                rw [sweepNode_unmatched defs a c r hn hd]
                have hrec := settled_sweepList defs K hkeys hv c
                have hnm : ¬(lower r) ∈ K := by
                  rw [← hkeys]
                  exact not_mem_keys_of_lookup_none defs (lower r) hd
                simp [settledSubList, settledSub, hn, hrec, hnm]
            | some repl =>
                rw [sweepNode_matched defs a c r repl hn hd]
                exact hv _ (lookupName_some_mem defs (lower r) repl hd)
      · rw [sweepNode_ne defs k a c hk]
        have hrec := settled_sweepList defs K hkeys hv c
        simp [settledSubList, settledSub, hk, hrec]

/-- A sweep against a table of settled bodies leaves no reference
naming one of the table's keys, list form. -/
theorem settled_sweepList (defs : List (String × List Node)) (K : List String)
    (hkeys : defs.map Prod.fst = K)
    (hv : ∀ p ∈ defs, settledSubList K p.2 = true) :
    ∀ (l : List Node), settledSubList K (sweepList defs l) = true
  | [] => rfl
  | n :: ns => by
      rw [sweepList_cons, settledSubList_append,
        settled_sweepNode defs K hkeys hv n, settled_sweepList defs K hkeys hv ns]
      rfl

end

/-- The keys of the definitions stored inside a table's entries. -/
def keysDeep : List (String × List Node) → List String
  | [] => []
  | p :: ps => (subDefsList p.2).map Prod.fst ++ keysDeep ps

/-- A stored definition's keys are deep keys of any table holding the
entry. -/
theorem mem_keysDeep_of : ∀ (tbl : List (String × List Node)) (p : String × List Node),
    p ∈ tbl → ∀ x ∈ (subDefsList p.2).map Prod.fst, x ∈ keysDeep tbl
  | [], p, hp => by cases hp
  | q :: qs, p, hp => by
      intro x hx
      have he : keysDeep (q :: qs) = (subDefsList q.2).map Prod.fst ++ keysDeep qs := rfl
      rw [he]
      rcases List.mem_cons.mp hp with h | h
      · subst h
        exact List.mem_append.mpr (Or.inl hx)
      · exact List.mem_append.mpr (Or.inr (mem_keysDeep_of qs p h x hx))

/-- A deep key comes from some entry's stored definitions. -/
theorem exists_of_mem_keysDeep : ∀ (tbl : List (String × List Node)) (x : String),
    x ∈ keysDeep tbl → ∃ p, p ∈ tbl ∧ x ∈ (subDefsList p.2).map Prod.fst
  | [], x, h => by simp [keysDeep] at h
  | q :: qs, x, h => by
      have he : keysDeep (q :: qs) = (subDefsList q.2).map Prod.fst ++ keysDeep qs := rfl
      rw [he, List.mem_append] at h
      rcases h with h | h
      · exact ⟨q, List.mem_cons_self q qs, h⟩
      · obtain ⟨p, hp, hx⟩ := exists_of_mem_keysDeep qs x h
        exact ⟨p, List.mem_cons_of_mem q hp, hx⟩

/-- The key prefix a single element contributes does not depend on the
stored children. -/
theorem subDefs_keys_elem (k : String) (a : Attrs) : ∀ (c2 : List Node),
    (subDefs (.elem k a c2)).map Prod.fst =
      (if k = "substitution_definition" then a.names.map lower else []) ++
        (subDefsList c2).map Prod.fst := by
  intro c2
  by_cases hd : k = "substitution_definition"
  · subst hd
    simp [subDefs, List.map_map, Function.comp_def]
  · simp [subDefs, hd]

mutual

/-- Keys of definitions in the swept output all come from the input
element or from stored definition bodies, node form. -/
theorem subDefsKeys_sweepNode (defs : List (String × List Node)) :
    ∀ (y : Node), ∀ x ∈ (subDefsList (sweepNode defs y)).map Prod.fst,
      x ∈ (subDefs y).map Prod.fst ++ keysDeep defs
  | .text s => by
      intro x hx
      simp [sweepNode, subDefsList, subDefs] at hx
  | .elem k a c => by
      intro x hx
      have hone : ∀ (c2 : List Node),
          (subDefsList [Node.elem k a c2]).map Prod.fst =
            (subDefs (.elem k a c2)).map Prod.fst := by
        intro c2
        have h1 : subDefsList [Node.elem k a c2] =
            subDefs (.elem k a c2) ++ subDefsList [] := rfl
        rw [h1, show subDefsList ([] : List Node) = [] from rfl, List.append_nil]
      have hkeep : ∀ (c2 : List Node),
          x ∈ (subDefsList [Node.elem k a c2]).map Prod.fst →
          (∀ z ∈ (subDefsList c2).map Prod.fst,
            z ∈ (subDefsList c).map Prod.fst ++ keysDeep defs) →
          x ∈ (subDefs (.elem k a c)).map Prod.fst ++ keysDeep defs := by
        intro c2 hx2 hrec
        rw [hone, subDefs_keys_elem] at hx2
        rw [List.mem_append] at hx2
        rw [subDefs_keys_elem, List.append_assoc, List.mem_append]
        rcases hx2 with h | h
        · exact Or.inl h
        · rcases List.mem_append.mp (hrec x h) with h2 | h2
          · exact Or.inr (List.mem_append.mpr (Or.inl h2))
          · exact Or.inr (List.mem_append.mpr (Or.inr h2))
      by_cases hk : k = "substitution_reference"
      · subst hk
        cases hn : a.refname with
        | none =>
            rw [sweepNode_noname defs a c hn] at hx
            exact hkeep _ hx (fun z hz => subDefsKeysList_sweepList defs c z hz)
        | some r =>
            cases hd : lookupName defs (lower r) with
            | none =>
                rw [sweepNode_unmatched defs a c r hn hd] at hx
                exact hkeep _ hx (fun z hz => subDefsKeysList_sweepList defs c z hz)
            | some repl =>
                rw [sweepNode_matched defs a c r repl hn hd] at hx
                exact List.mem_append.mpr (Or.inr
                  (mem_keysDeep_of defs ((lower r), repl)
                    (lookupName_some_mem defs (lower r) repl hd) x hx))
      · rw [sweepNode_ne defs k a c hk] at hx
        exact hkeep _ hx (fun z hz => subDefsKeysList_sweepList defs c z hz)

/-- Keys of definitions in the swept output all come from the input
list or from stored definition bodies, list form. -/
theorem subDefsKeysList_sweepList (defs : List (String × List Node)) :
    ∀ (l : List Node), ∀ x ∈ (subDefsList (sweepList defs l)).map Prod.fst,
      x ∈ (subDefsList l).map Prod.fst ++ keysDeep defs
  | [] => by
      intro x hx
      simp [sweepList, subDefsList] at hx
  | n :: ns => by
      intro x hx
      rw [sweepList_cons, subDefsList_append, List.map_append, List.mem_append] at hx
      have hc : (subDefsList (n :: ns)).map Prod.fst =
          (subDefs n).map Prod.fst ++ (subDefsList ns).map Prod.fst := by
        rw [show subDefsList (n :: ns) = subDefs n ++ subDefsList ns from rfl,
          List.map_append]
      rw [hc, List.append_assoc, List.mem_append]
      rcases hx with hx | hx
      · rcases List.mem_append.mp (subDefsKeys_sweepNode defs n x hx) with h | h
        · exact Or.inl h
        · exact Or.inr (List.mem_append.mpr (Or.inr h))
      · rcases List.mem_append.mp (subDefsKeysList_sweepList defs ns x hx) with h | h
        · exact Or.inr (List.mem_append.mpr (Or.inl h))
        · exact Or.inr (List.mem_append.mpr (Or.inr h))

end

/-- An expansion step keeps the table's keys. -/
theorem keys_expandStep (E : List (String × List Node)) :
    (expandStep E).map Prod.fst = E.map Prod.fst := by
  rw [expandStep, List.map_map]
  rfl

/-- Iterated expansion keeps the table's keys. -/
theorem keys_expandStep_iterate : ∀ (n : Nat) (E : List (String × List Node)),
    (expandStep^[n] E).map Prod.fst = E.map Prod.fst
  | 0, E => rfl
  | n + 1, E => by
      rw [Function.iterate_succ_apply, keys_expandStep_iterate n (expandStep E),
        keys_expandStep]

/-- The circularity cleanup keeps the table's keys, entrywise. -/
theorem keys_map_branch (K : List String) : ∀ (E : List (String × List Node)),
    (E.map (fun p => if settledSubList K p.2 then p
      else (p.1, [Node.elem "problematic" {} [Node.text ("|" ++ p.1 ++ "|")]]))).map
        Prod.fst = E.map Prod.fst
  | [] => rfl
  | p :: ps => by
      rw [List.map_cons, List.map_cons, List.map_cons, keys_map_branch K ps]
      by_cases h : settledSubList K p.2 = true
      · rw [if_pos h]
      · rw [if_neg h]

/-- The final substitution table has the collected keys. -/
theorem keys_finalTbl (D : List (String × List Node)) :
    (finalTbl D).map Prod.fst = D.map Prod.fst := by
  rw [finalTbl, keys_map_branch]
  exact keys_expandStep_iterate (D.length + 1) D

/-- Every body of the final substitution table is settled for the
collected keys. -/
theorem finalTbl_settled (D : List (String × List Node)) :
    ∀ p ∈ finalTbl D, settledSubList (D.map Prod.fst) p.2 = true := by
  intro p hp
  rw [finalTbl] at hp
  obtain ⟨q, hq, hfq⟩ := List.mem_map.mp hp
  by_cases h : settledSubList (D.map Prod.fst) q.2 = true
  · rw [if_pos h] at hfq
    rw [← hfq]
    exact h
  · rw [if_neg h] at hfq
    rw [← hfq]
    simp [settledSubList, settledSub]

/-- An expansion step introduces no deep key beyond the table's. -/
theorem keysDeep_expandStep (E : List (String × List Node)) :
    ∀ x ∈ keysDeep (expandStep E), x ∈ keysDeep E := by
  intro x hx
  obtain ⟨p, hp, hxk⟩ := exists_of_mem_keysDeep (expandStep E) x hx
  rw [expandStep] at hp
  obtain ⟨q, hq, hfq⟩ := List.mem_map.mp hp
  have h2 : p.2 = sweepList E q.2 := by rw [← hfq]
  rw [h2] at hxk
  rcases List.mem_append.mp (subDefsKeysList_sweepList E q.2 x hxk) with h | h
  · exact mem_keysDeep_of E q hq x h
  · exact h

/-- Iterated expansion introduces no deep key beyond the table's. -/
theorem keysDeep_expandStep_iterate : ∀ (n : Nat) (E : List (String × List Node)),
    ∀ x ∈ keysDeep (expandStep^[n] E), x ∈ keysDeep E
  | 0, _ => fun _ hx => hx
  | n + 1, E => fun x hx => by
      rw [Function.iterate_succ_apply] at hx
      exact keysDeep_expandStep E x
        (keysDeep_expandStep_iterate n (expandStep E) x hx)

/-- The circularity cleanup introduces no deep key beyond the expanded
table's. -/
theorem keysDeep_finalTbl (D : List (String × List Node)) :
    ∀ x ∈ keysDeep (finalTbl D), x ∈ keysDeep (expandedTbl D) := by
  intro x hx
  obtain ⟨p, hp, hxk⟩ := exists_of_mem_keysDeep (finalTbl D) x hx
  rw [finalTbl] at hp
  obtain ⟨q, hq, hfq⟩ := List.mem_map.mp hp
  by_cases h : settledSubList (D.map Prod.fst) q.2 = true
  · rw [if_pos h] at hfq
    rw [← hfq] at hxk
    exact mem_keysDeep_of _ q hq x hxk
  · rw [if_neg h] at hfq
    have h2 : p.2 = [Node.elem "problematic" {} [Node.text ("|" ++ q.1 ++ "|")]] := by
      rw [← hfq]
    rw [h2] at hxk
    simp [subDefsList, subDefs] at hxk

/-- Pass 1, Substitutions, is idempotent: a rerun's table resolves no
reference the first run left, so the rerun changes nothing. -/
theorem substT_idem (t : Node) : substT (substT t) = substT t := by
  cases t with
  | text s => rfl
  | elem k a c =>
      have hs : ∀ c0 : List Node, substT (.elem k a c0) =
          .elem k a (sweepList (finalTbl (subDefsList c0)) c0) := fun c0 => rfl
      rw [hs, hs]
      congr 1
      apply sweepList_of_settled
      rw [keys_finalTbl]
      have hu : settledSubList ((subDefsList c).map Prod.fst)
          (sweepList (finalTbl (subDefsList c)) c) = true :=
        settled_sweepList (finalTbl (subDefsList c)) ((subDefsList c).map Prod.fst)
          (keys_finalTbl (subDefsList c)) (finalTbl_settled (subDefsList c)) c
      refine settledSubList_mono ((subDefsList c).map Prod.fst) _ ?_ _ hu
      intro x hx
      rcases List.mem_append.mp
        (subDefsKeysList_sweepList (finalTbl (subDefsList c)) c x hx) with h | h
      · exact h
      · have h2 := keysDeep_expandStep_iterate ((subDefsList c).length + 1)
          (subDefsList c) x (keysDeep_finalTbl (subDefsList c) x h)
        obtain ⟨p, hp, hx2⟩ := exists_of_mem_keysDeep (subDefsList c) x h2
        obtain ⟨q, hq, hq1⟩ := List.mem_map.mp hx2
        exact List.mem_map.mpr ⟨q, subDefsList_nested c p hp q hq, hq1⟩




/-! #### Shared infrastructure for the pipeline composition -/

/-- Equation: attribute rewriting on an element. -/
theorem mapAttrs_elem (f : String → Attrs → Attrs) (k : String) (a : Attrs)
    (c : List Node) : mapAttrs f (.elem k a c) = .elem k (f k a) (mapAttrsList f c) := rfl

/-- Equation: attribute rewriting on a cons. -/
theorem mapAttrsList_cons (f : String → Attrs → Attrs) (n : Node) (ns : List Node) :
    mapAttrsList f (n :: ns) = mapAttrs f n :: mapAttrsList f ns := rfl

mutual

/-- Does every element of the tree satisfy a kind-indexed attrs
predicate? -/
def allElems (P : String → Attrs → Bool) : Node → Bool
  | .text _ => true
  | .elem k a c => P k a && allElemsList P c

/-- List form of `allElems`. -/
def allElemsList (P : String → Attrs → Bool) : List Node → Bool
  | [] => true
  | n :: ns => allElems P n && allElemsList P ns

end

mutual

/-- Attribute rewriting is the identity on a tree all of whose
elements it fixes. -/
theorem mapAttrs_fix (f : String → Attrs → Attrs) :
    ∀ (y : Node), allElems (fun k a => f k a == a) y = true → mapAttrs f y = y
  | .text _, _ => rfl
  | .elem k a c, h => by
      have he : allElems (fun k a => f k a == a) (.elem k a c) =
          ((f k a == a) && allElemsList (fun k a => f k a == a) c) := rfl
      rw [he, Bool.and_eq_true] at h
      have hfa : f k a = a := by simpa using h.1
      rw [mapAttrs_elem, hfa, mapAttrsList_fix f c h.2]

/-- List form of `mapAttrs_fix`. -/
theorem mapAttrsList_fix (f : String → Attrs → Attrs) :
    ∀ (l : List Node), allElemsList (fun k a => f k a == a) l = true →
      mapAttrsList f l = l
  | [], _ => rfl
  | n :: ns, h => by
      have he : allElemsList (fun k a => f k a == a) (n :: ns) =
          (allElems (fun k a => f k a == a) n &&
            allElemsList (fun k a => f k a == a) ns) := rfl
      rw [he, Bool.and_eq_true] at h
      rw [mapAttrsList_cons, mapAttrs_fix f n h.1, mapAttrsList_fix f ns h.2]

end

mutual

/-- A tree fixed by an attribute rewrite has every element fixed by
it. -/
theorem allElems_of_mapAttrs_fix (f : String → Attrs → Attrs) :
    ∀ (y : Node), mapAttrs f y = y → allElems (fun k a => f k a == a) y = true
  | .text _, _ => rfl
  | .elem k a c, h => by
      rw [mapAttrs_elem] at h
      injection h with _ h2 h3
      have he : allElems (fun k a => f k a == a) (.elem k a c) =
          ((f k a == a) && allElemsList (fun k a => f k a == a) c) := rfl
      rw [he, Bool.and_eq_true]
      exact ⟨by simpa using h2, allElemsList_of_mapAttrs_fix f c h3⟩

/-- List form of `allElems_of_mapAttrs_fix`. -/
theorem allElemsList_of_mapAttrs_fix (f : String → Attrs → Attrs) :
    ∀ (l : List Node), mapAttrsList f l = l →
      allElemsList (fun k a => f k a == a) l = true
  | [], _ => rfl
  | n :: ns, h => by
      rw [mapAttrsList_cons] at h
      injection h with h1 h2
      have he : allElemsList (fun k a => f k a == a) (n :: ns) =
          (allElems (fun k a => f k a == a) n &&
            allElemsList (fun k a => f k a == a) ns) := rfl
      rw [he, Bool.and_eq_true]
      exact ⟨allElems_of_mapAttrs_fix f n h1, allElemsList_of_mapAttrs_fix f ns h2⟩

end

mutual

/-- Element satisfaction transfers along a pointwise implication. -/
theorem allElems_mono (P Q : String → Attrs → Bool)
    (himp : ∀ k a, P k a = true → Q k a = true) :
    ∀ (y : Node), allElems P y = true → allElems Q y = true
  | .text _, _ => rfl
  | .elem k a c, h => by
      have he : allElems P (.elem k a c) = (P k a && allElemsList P c) := rfl
      rw [he, Bool.and_eq_true] at h
      have he2 : allElems Q (.elem k a c) = (Q k a && allElemsList Q c) := rfl
      rw [he2, Bool.and_eq_true]
      exact ⟨himp k a h.1, allElemsList_mono P Q himp c h.2⟩

/-- List form of `allElems_mono`. -/
theorem allElemsList_mono (P Q : String → Attrs → Bool)
    (himp : ∀ k a, P k a = true → Q k a = true) :
    ∀ (l : List Node), allElemsList P l = true → allElemsList Q l = true
  | [], _ => rfl
  | n :: ns, h => by
      have he : allElemsList P (n :: ns) = (allElems P n && allElemsList P ns) := rfl
      rw [he, Bool.and_eq_true] at h
      have he2 : allElemsList Q (n :: ns) = (allElems Q n && allElemsList Q ns) := rfl
      rw [he2, Bool.and_eq_true]
      exact ⟨allElems_mono P Q himp n h.1, allElemsList_mono P Q himp ns h.2⟩

end

/-- `allElemsList` distributes over append. -/
theorem allElemsList_append (P : String → Attrs → Bool) : ∀ (A B : List Node),
    allElemsList P (A ++ B) = (allElemsList P A && allElemsList P B)
  | [], B => by simp [allElemsList]
  | n :: ns, B => by
      have h1 : allElemsList P ((n :: ns) ++ B) =
          (allElems P n && allElemsList P (ns ++ B)) := rfl
      have h2 : allElemsList P (n :: ns) = (allElems P n && allElemsList P ns) := rfl
      rw [h1, h2, allElemsList_append P ns B, Bool.and_assoc]

/-- The footnote table distributes over append. -/
theorem fnInfosList_append : ∀ (A B : List Node),
    fnInfosList (A ++ B) = fnInfosList A ++ fnInfosList B
  | [], B => rfl
  | n :: ns, B => by
      have h1 : fnInfosList ((n :: ns) ++ B) = fnInfos n ++ fnInfosList (ns ++ B) := rfl
      have h2 : fnInfosList (n :: ns) = fnInfos n ++ fnInfosList ns := rfl
      rw [h1, h2, fnInfosList_append ns B, List.append_assoc]

/-- The named-target table distributes over append. -/
theorem tgtTableList_append : ∀ (A B : List Node),
    tgtTableList (A ++ B) = tgtTableList A ++ tgtTableList B
  | [], B => rfl
  | n :: ns, B => by
      have h1 : tgtTableList ((n :: ns) ++ B) = tgtTable n ++ tgtTableList (ns ++ B) := rfl
      have h2 : tgtTableList (n :: ns) = tgtTable n ++ tgtTableList ns := rfl
      rw [h1, h2, tgtTableList_append ns B, List.append_assoc]

/-- The anonymous-target list distributes over append. -/
theorem anonTgtsList_append : ∀ (A B : List Node),
    anonTgtsList (A ++ B) = anonTgtsList A ++ anonTgtsList B
  | [], B => rfl
  | n :: ns, B => by
      have h1 : anonTgtsList ((n :: ns) ++ B) = anonTgts n ++ anonTgtsList (ns ++ B) := rfl
      have h2 : anonTgtsList (n :: ns) = anonTgts n ++ anonTgtsList ns := rfl
      rw [h1, h2, anonTgtsList_append ns B, List.append_assoc]

/-- The anonymous-reference list distributes over append. -/
theorem anonRefsList_append : ∀ (A B : List Node),
    anonRefsList (A ++ B) = anonRefsList A ++ anonRefsList B
  | [], B => rfl
  | n :: ns, B => by
      have h1 : anonRefsList ((n :: ns) ++ B) = anonRefs n ++ anonRefsList (ns ++ B) := rfl
      have h2 : anonRefsList (n :: ns) = anonRefs n ++ anonRefsList ns := rfl
      rw [h1, h2, anonRefsList_append ns B, List.append_assoc]

/-- Comment absence distributes over append. -/
theorem noCommentList_append : ∀ (A B : List Node),
    noCommentList (A ++ B) = (noCommentList A && noCommentList B)
  | [], B => by simp [noCommentList]
  | n :: ns, B => by
      have h1 : noCommentList ((n :: ns) ++ B) =
          (noComment n && noCommentList (ns ++ B)) := rfl
      have h2 : noCommentList (n :: ns) = (noComment n && noCommentList ns) := rfl
      rw [h1, h2, noCommentList_append ns B, Bool.and_assoc]

/-- Full labeledness distributes over append. -/
theorem allLabeledList_append : ∀ (A B : List Node),
    allLabeledList (A ++ B) = (allLabeledList A && allLabeledList B)
  | [], B => by simp [allLabeledList]
  | n :: ns, B => by
      have h1 : allLabeledList ((n :: ns) ++ B) =
          (allLabeled n && allLabeledList (ns ++ B)) := rfl
      have h2 : allLabeledList (n :: ns) = (allLabeled n && allLabeledList ns) := rfl
      rw [h1, h2, allLabeledList_append ns B, Bool.and_assoc]

/-- The resolution walk threads its pool and pairs through append. -/
theorem fnResList_append_thread (infos : List FInfo) : ∀ (pool : List FInfo)
    (l1 l2 : List Node),
    fnResList infos pool (l1 ++ l2) =
      ((fnResList infos (fnResList infos pool l1).1 l2).1,
       (fnResList infos pool l1).2.1 ++
         (fnResList infos (fnResList infos pool l1).1 l2).2.1,
       (fnResList infos pool l1).2.2 ++
         (fnResList infos (fnResList infos pool l1).1 l2).2.2)
  | pool, [], l2 => rfl
  | pool, n :: ns, l2 => by
      have h1 : fnResList infos pool ((n :: ns) ++ l2) =
          ((fnResList infos (fnResNode infos pool n).1 (ns ++ l2)).1,
           (fnResNode infos pool n).2.1 ++
             (fnResList infos (fnResNode infos pool n).1 (ns ++ l2)).2.1,
           (fnResNode infos pool n).2.2 ::
             (fnResList infos (fnResNode infos pool n).1 (ns ++ l2)).2.2) := rfl
      rw [h1, fnResList_append_thread infos (fnResNode infos pool n).1 ns l2]
      have h2 : fnResList infos pool (n :: ns) =
          ((fnResList infos (fnResNode infos pool n).1 ns).1,
           (fnResNode infos pool n).2.1 ++
             (fnResList infos (fnResNode infos pool n).1 ns).2.1,
           (fnResNode infos pool n).2.2 ::
             (fnResList infos (fnResNode infos pool n).1 ns).2.2) := rfl
      rw [h2]
      dsimp only
      rw [List.append_assoc, List.cons_append]

/-- The anonymous rewrite threads its target list through append. -/
theorem anonRwList_append_thread : ∀ (tgts : List Attrs) (l1 l2 : List Node),
    anonRwList tgts (l1 ++ l2) =
      ((anonRwList (anonRwList tgts l1).1 l2).1,
       (anonRwList tgts l1).2 ++ (anonRwList (anonRwList tgts l1).1 l2).2)
  | tgts, [], l2 => rfl
  | tgts, n :: ns, l2 => by
      have h1 : anonRwList tgts ((n :: ns) ++ l2) =
          ((anonRwList (anonRw tgts n).1 (ns ++ l2)).1,
           (anonRw tgts n).2 :: (anonRwList (anonRw tgts n).1 (ns ++ l2)).2) := rfl
      rw [h1, anonRwList_append_thread (anonRw tgts n).1 ns l2]
      have h2 : anonRwList tgts (n :: ns) =
          ((anonRwList (anonRw tgts n).1 ns).1,
           (anonRw tgts n).2 :: (anonRwList (anonRw tgts n).1 ns).2) := rfl
      rw [h2]
      dsimp only
      rw [List.cons_append]

/-- The shape of the Transitions pass on an element: kind and attrs
pass through. -/
theorem transNode_elem_shape (k : String) (a : Attrs) (c : List Node) :
    ∃ c2 r, transNode (.elem k a c) = (.elem k a c2, r) := by
  by_cases hk : k = "section"
  · subst hk
    refine ⟨(splitTrailingTrans (transList c)).1, (splitTrailingTrans (transList c)).2, ?_⟩
    simp [transNode]
  · exact ⟨transList c, [], by simp [transNode, hk]⟩

/-- The Transitions pass preserves being a transition. -/
theorem isTransition_transNode : ∀ (y : Node), isTransition (transNode y).1 = isTransition y
  | .text _ => rfl
  | .elem k a c => by
      obtain ⟨c2, r, hsh⟩ := transNode_elem_shape k a c
      rw [hsh]
      rfl


/-! #### Stability of the collectors under the Transitions pass -/

/-- Equation: the Transitions pass on a non-section element. -/
theorem transNode_nonsection (k : String) (a : Attrs) (c : List Node)
    (h : ¬k = "section") :
    transNode (.elem k a c) = (.elem k a (transList c), []) := by
  simp [transNode, h]

/-- Equation: the Transitions pass on a section. -/
theorem transNode_section (a : Attrs) (c : List Node) :
    transNode (.elem "section" a c) =
      (.elem "section" a (splitTrailingTrans (transList c)).1,
       (splitTrailingTrans (transList c)).2) := by
  simp [transNode]

/-- Equation: the Transitions pass on a cons. -/
theorem transList_cons (n : Node) (rest : List Node) :
    transList (n :: rest) = (transNode n).1 :: ((transNode n).2 ++ transList rest) := rfl

/-- The Transitions pass keeps a child list's emptiness. -/
theorem transList_isEmpty (c : List Node) : (transList c).isEmpty = c.isEmpty := by
  cases c with
  | nil => rfl
  | cons n rest => rw [transList_cons]; rfl

/-- The Transitions pass keeps eligibility for propagation. -/
theorem eligibleTgt_transNode : ∀ (y : Node), eligibleTgt (transNode y).1 = eligibleTgt y
  | .text _ => rfl
  | .elem k a c => by
      by_cases hk : k = "section"
      · subst hk
        rw [transNode_section]
        rfl
      · rw [transNode_nonsection k a c hk]
        have h1 : eligibleTgt (.elem k a (transList c)) =
            ((k == "target") && (transList c).isEmpty && a.refid.isNone &&
              a.refuri.isNone && a.refname.isNone) := rfl
        have h2 : eligibleTgt (.elem k a c) =
            ((k == "target") && c.isEmpty && a.refid.isNone &&
              a.refuri.isNone && a.refname.isNone) := rfl
        rw [h1, h2, transList_isEmpty]

/-- A singleton-text test is unchanged by the Transitions pass. -/
theorem singleTextOf_transList (lc : List Node) :
    singleTextOf (transList lc) = singleTextOf lc := by
  cases lc with
  | nil => rfl
  | cons y ys =>
      cases y with
      | text s =>
          cases ys with
          | nil => rfl
          | cons z zs =>
              rw [transList_cons]
              have hz : transList (z :: zs) =
                  (transNode z).1 :: ((transNode z).2 ++ transList zs) := rfl
              have ht : transNode (Node.text s) = (Node.text s, []) := rfl
              rw [ht]
              dsimp only
              rw [List.nil_append, hz, singleTextOf_text_cons, singleTextOf_text_cons]
      | elem k a c =>
          rw [transList_cons]
          obtain ⟨c2, r, hsh⟩ := transNode_elem_shape k a c
          rw [hsh]
          dsimp only
          rw [singleTextOf_elem_head, singleTextOf_elem_head]

/-- The label text of a child list is unchanged by the Transitions
pass. -/
theorem labelOf_transList (c : List Node) : labelOf (transList c) = labelOf c := by
  cases c with
  | nil => rfl
  | cons x xs =>
      cases x with
      | text s =>
          rw [transList_cons]
          have ht : transNode (Node.text s) = (Node.text s, []) := rfl
          rw [ht]
          dsimp only
          rw [labelOf_cons_text, labelOf_cons_text]
      | elem k a c2 =>
          by_cases hkl : k = "label"
          · subst hkl
            rw [transList_cons, transNode_nonsection _ a c2 (by decide)]
            dsimp only
            rw [labelOf_cons_label, labelOf_cons_label, singleTextOf_transList]
          · rw [transList_cons]
            obtain ⟨c3, r, hsh⟩ := transNode_elem_shape k a c2
            rw [hsh]
            dsimp only
            rw [labelOf_cons_ne _ _ _ _ hkl, labelOf_cons_ne _ _ _ _ hkl]

/-- Whether a child list leads with a label is unchanged by the
Transitions pass. -/
theorem hasLabelChild_transList (c : List Node) :
    hasLabelChild (transList c) = hasLabelChild c := by
  cases c with
  | nil => rfl
  | cons x xs =>
      cases x with
      | text s =>
          rw [transList_cons]
          have ht : transNode (Node.text s) = (Node.text s, []) := rfl
          rw [ht]
          dsimp only
          rw [hasLabelChild_cons_text, hasLabelChild_cons_text]
      | elem k a c2 =>
          rw [transList_cons]
          obtain ⟨c3, r, hsh⟩ := transNode_elem_shape k a c2
          rw [hsh]
          dsimp only
          by_cases hkl : k = "label"
          · subst hkl
            rw [hasLabelChild_cons_label, hasLabelChild_cons_label]
          · rw [hasLabelChild_cons_ne _ _ _ _ hkl, hasLabelChild_cons_ne _ _ _ _ hkl]

/-- Equation: landing on an element head. -/
theorem lands_cons_elem (k : String) (a : Attrs) (c rest : List Node) :
    lands (.elem k a c :: rest) =
      (if eligibleTgt (.elem k a c) then lands rest else true) := rfl

/-- The landing status of a chain is unchanged by the Transitions
pass. -/
theorem lands_transList : ∀ (l : List Node), lands (transList l) = lands l
  | [] => rfl
  | .text s :: rest => by
      rw [transList_cons]
      have ht : transNode (Node.text s) = (Node.text s, []) := rfl
      rw [ht]
      rfl
  | .elem k a c :: rest => by
      rw [transList_cons]
      obtain ⟨c2, r, hsh⟩ := transNode_elem_shape k a c
      rw [hsh]
      dsimp only
      rw [lands_cons_elem, lands_cons_elem]
      have helig : eligibleTgt (Node.elem k a c2) = eligibleTgt (Node.elem k a c) := by
        have := eligibleTgt_transNode (.elem k a c)
        rw [hsh] at this
        exact this
      rw [helig]
      by_cases he : eligibleTgt (Node.elem k a c) = true
      · rw [if_pos he, if_pos he]
        have hr : r = [] := by
          have hkt : (k == "target") = true := by
            have h2 : eligibleTgt (.elem k a c) =
                ((k == "target") && c.isEmpty && a.refid.isNone &&
                  a.refuri.isNone && a.refname.isNone) := rfl
            rw [h2] at he
            rw [Bool.and_eq_true] at he
            rw [Bool.and_eq_true] at he
            rw [Bool.and_eq_true] at he
            rw [Bool.and_eq_true] at he
            exact he.1.1.1.1
          have hks : ¬k = "section" := by
            intro hs
            subst hs
            exact absurd hkt (by decide)
          rw [transNode_nonsection k a c hks] at hsh
          injection hsh with _ h2
          exact h2.symm
        subst hr
        rw [List.nil_append]
        exact lands_transList rest
      · rw [if_neg he, if_neg he]

mutual

/-- The named-target table of the Transitions output, node form. -/
theorem tgtTable_transNode : ∀ (y : Node),
    tgtTable (transNode y).1 ++ tgtTableList (transNode y).2 = tgtTable y
  | .text _ => rfl
  | .elem k a c => by
      have hown : ∀ c2 : List Node, tgtTable (.elem k a c2) =
          (if k = "target" then a.names.map (fun nm => (lower nm, a)) else []) ++
            tgtTableList c2 := fun c2 => rfl
      by_cases hk : k = "section"
      · subst hk
        rw [transNode_section]
        dsimp only
        rw [hown, List.append_assoc, ← tgtTableList_append, splitTT_concat,
          tgtTableList_transList c]
        rw [hown]
      · rw [transNode_nonsection k a c hk]
        dsimp only
        have hnil : tgtTableList ([] : List Node) = [] := rfl
        rw [hnil, List.append_nil, hown, tgtTableList_transList c, hown]

/-- The named-target table is unchanged by the Transitions pass. -/
theorem tgtTableList_transList : ∀ (l : List Node),
    tgtTableList (transList l) = tgtTableList l
  | [] => rfl
  | n :: rest => by
      rw [transList_cons]
      have hc : ∀ (x : Node) (xs : List Node), tgtTableList (x :: xs) =
          tgtTable x ++ tgtTableList xs := fun x xs => rfl
      rw [hc, tgtTableList_append, ← List.append_assoc, tgtTable_transNode n,
        tgtTableList_transList rest, hc]

end

mutual

/-- The anonymous-target list of the Transitions output, node form. -/
theorem anonTgts_transNode : ∀ (y : Node),
    anonTgts (transNode y).1 ++ anonTgtsList (transNode y).2 = anonTgts y
  | .text _ => rfl
  | .elem k a c => by
      have hown : ∀ c2 : List Node, anonTgts (.elem k a c2) =
          (if k = "target" ∧ a.anonymous then [a] else []) ++ anonTgtsList c2 :=
        fun c2 => rfl
      by_cases hk : k = "section"
      · subst hk
        rw [transNode_section]
        dsimp only
        rw [hown, List.append_assoc, ← anonTgtsList_append, splitTT_concat,
          anonTgtsList_transList c]
        rw [hown]
      · rw [transNode_nonsection k a c hk]
        dsimp only
        have hnil : anonTgtsList ([] : List Node) = [] := rfl
        rw [hnil, List.append_nil, hown, anonTgtsList_transList c, hown]

/-- The anonymous-target list is unchanged by the Transitions pass. -/
theorem anonTgtsList_transList : ∀ (l : List Node),
    anonTgtsList (transList l) = anonTgtsList l
  | [] => rfl
  | n :: rest => by
      rw [transList_cons]
      have hc : ∀ (x : Node) (xs : List Node), anonTgtsList (x :: xs) =
          anonTgts x ++ anonTgtsList xs := fun x xs => rfl
      rw [hc, anonTgtsList_append, ← List.append_assoc, anonTgts_transNode n,
        anonTgtsList_transList rest, hc]

end

mutual

/-- The footnote table of the Transitions output, node form. -/
theorem fnInfos_transNode : ∀ (y : Node),
    fnInfos (transNode y).1 ++ fnInfosList (transNode y).2 = fnInfos y
  | .text _ => rfl
  | .elem k a c => by
      have hown : ∀ c2 : List Node, fnInfos (.elem k a c2) =
          (if k = "footnote" then [⟨true, a.names.map lower, a.ids.head?, labelOf c2, a.auto⟩]
           else if k = "citation" then
             [⟨false, a.names.map lower, a.ids.head?, labelOf c2, a.auto⟩]
           else []) ++ fnInfosList c2 := fun c2 => rfl
      by_cases hk : k = "section"
      · subst hk
        rw [transNode_section]
        dsimp only
        have hif : ∀ c2 : List Node, fnInfos (.elem "section" a c2) = fnInfosList c2 := by
          intro c2
          rw [hown, if_neg (by decide : ¬"section" = "footnote"),
            if_neg (by decide : ¬"section" = "citation"), List.nil_append]
        rw [hif, hif, ← fnInfosList_append, splitTT_concat, fnInfosList_transList c]
      · rw [transNode_nonsection k a c hk]
        dsimp only
        have hnil : fnInfosList ([] : List Node) = [] := rfl
        rw [hnil, List.append_nil, hown, labelOf_transList, fnInfosList_transList c, hown]

/-- The footnote table is unchanged by the Transitions pass. -/
theorem fnInfosList_transList : ∀ (l : List Node),
    fnInfosList (transList l) = fnInfosList l
  | [] => rfl
  | n :: rest => by
      rw [transList_cons]
      have hc : ∀ (x : Node) (xs : List Node), fnInfosList (x :: xs) =
          fnInfos x ++ fnInfosList xs := fun x xs => rfl
      rw [hc, fnInfosList_append, ← List.append_assoc, fnInfos_transNode n,
        fnInfosList_transList rest, hc]

end

mutual

/-- Element satisfaction of the Transitions output, node form. -/
theorem allElems_transNode (P : String → Attrs → Bool) : ∀ (y : Node),
    (allElems P (transNode y).1 && allElemsList P (transNode y).2) = allElems P y
  | .text _ => rfl
  | .elem k a c => by
      have hown : ∀ c2 : List Node, allElems P (.elem k a c2) =
          (P k a && allElemsList P c2) := fun c2 => rfl
      by_cases hk : k = "section"
      · subst hk
        rw [transNode_section]
        dsimp only
        rw [hown, hown, Bool.and_assoc, ← allElemsList_append, splitTT_concat,
          allElemsList_transList P c]
      · rw [transNode_nonsection k a c hk]
        dsimp only
        have hnil : allElemsList P ([] : List Node) = true := rfl
        rw [hnil, Bool.and_true, hown, allElemsList_transList P c, hown]

/-- Element satisfaction is unchanged by the Transitions pass. -/
theorem allElemsList_transList (P : String → Attrs → Bool) : ∀ (l : List Node),
    allElemsList P (transList l) = allElemsList P l
  | [] => rfl
  | n :: rest => by
      rw [transList_cons]
      have hc : ∀ (x : Node) (xs : List Node), allElemsList P (x :: xs) =
          (allElems P x && allElemsList P xs) := fun x xs => rfl
      rw [hc, allElemsList_append, ← Bool.and_assoc, allElems_transNode P n,
        allElemsList_transList P rest, hc]

end

mutual

/-- Comment absence of the Transitions output, node form. -/
theorem noComment_transNode : ∀ (y : Node),
    (noComment (transNode y).1 && noCommentList (transNode y).2) = noComment y
  | .text _ => rfl
  | .elem k a c => by
      have hown : ∀ c2 : List Node, noComment (.elem k a c2) =
          (!(k == "comment") && noCommentList c2) := fun c2 => rfl
      by_cases hk : k = "section"
      · subst hk
        rw [transNode_section]
        dsimp only
        rw [hown, hown, Bool.and_assoc, ← noCommentList_append, splitTT_concat,
          noCommentList_transList c]
      · rw [transNode_nonsection k a c hk]
        dsimp only
        have hnil : noCommentList ([] : List Node) = true := rfl
        rw [hnil, Bool.and_true, hown, noCommentList_transList c, hown]

/-- Comment absence is unchanged by the Transitions pass. -/
theorem noCommentList_transList : ∀ (l : List Node),
    noCommentList (transList l) = noCommentList l
  | [] => rfl
  | n :: rest => by
      rw [transList_cons]
      have hc : ∀ (x : Node) (xs : List Node), noCommentList (x :: xs) =
          (noComment x && noCommentList xs) := fun x xs => rfl
      rw [hc, noCommentList_append, ← Bool.and_assoc, noComment_transNode n,
        noCommentList_transList rest, hc]

end

mutual

/-- Full labeledness of the Transitions output, node form. -/
theorem allLabeled_transNode : ∀ (y : Node),
    (allLabeled (transNode y).1 && allLabeledList (transNode y).2) = allLabeled y
  | .text _ => rfl
  | .elem k a c => by
      have hown : ∀ c2 : List Node, allLabeled (.elem k a c2) =
          ((!(k == "footnote" && a.auto) || hasLabelChild c2) && allLabeledList c2) :=
        fun c2 => rfl
      by_cases hk : k = "section"
      · subst hk
        rw [transNode_section]
        dsimp only
        rw [hown, hown]
        have hg : ("section" == "footnote") = false := by decide
        rw [hg, Bool.false_and, Bool.not_false, Bool.true_or, Bool.true_and,
          Bool.true_or, Bool.true_and]
        rw [← allLabeledList_append, splitTT_concat, allLabeledList_transList c]
      · rw [transNode_nonsection k a c hk]
        dsimp only
        have hnil : allLabeledList ([] : List Node) = true := rfl
        rw [hnil, Bool.and_true, hown, hasLabelChild_transList,
          allLabeledList_transList c, hown]

/-- Full labeledness is unchanged by the Transitions pass. -/
theorem allLabeledList_transList : ∀ (l : List Node),
    allLabeledList (transList l) = allLabeledList l
  | [] => rfl
  | n :: rest => by
      rw [transList_cons]
      have hc : ∀ (x : Node) (xs : List Node), allLabeledList (x :: xs) =
          (allLabeled x && allLabeledList xs) := fun x xs => rfl
      rw [hc, allLabeledList_append, ← Bool.and_assoc, allLabeled_transNode n,
        allLabeledList_transList rest, hc]

end

mutual

/-- The substitution-definition keys of the Transitions output, node
form. -/
theorem subDefsKeys_transNode : ∀ (y : Node),
    (subDefs (transNode y).1).map Prod.fst ++ (subDefsList (transNode y).2).map Prod.fst =
      (subDefs y).map Prod.fst
  | .text _ => rfl
  | .elem k a c => by
      have hown : ∀ c2 : List Node, subDefs (.elem k a c2) =
          (if k = "substitution_definition" then a.names.map (fun nm => (lower nm, c2))
           else []) ++ subDefsList c2 := fun c2 => rfl
      have hkeys : ∀ c2 : List Node,
          ((if k = "substitution_definition" then a.names.map (fun nm => (lower nm, c2))
            else []) : List (String × List Node)).map Prod.fst =
          (if k = "substitution_definition" then a.names.map lower else []) := by
        intro c2
        by_cases hd : k = "substitution_definition"
        · rw [if_pos hd, if_pos hd, List.map_map]
          rfl
        · rw [if_neg hd, if_neg hd]
          rfl
      by_cases hk : k = "section"
      · subst hk
        rw [transNode_section]
        dsimp only
        rw [hown, hown, List.map_append, List.map_append, hkeys, hkeys,
          List.append_assoc, ← List.map_append, ← subDefsList_append, splitTT_concat,
          subDefsKeysList_transList c]
      · rw [transNode_nonsection k a c hk]
        dsimp only
        have hnil : subDefsList ([] : List Node) = [] := rfl
        rw [hnil]
        have hmapnil : (([] : List (String × List Node)).map Prod.fst) = [] := rfl
        rw [hmapnil, List.append_nil, hown, hown, List.map_append, List.map_append,
          hkeys, hkeys, subDefsKeysList_transList c]

/-- The substitution-definition keys are unchanged by the Transitions
pass. -/
theorem subDefsKeysList_transList : ∀ (l : List Node),
    (subDefsList (transList l)).map Prod.fst = (subDefsList l).map Prod.fst
  | [] => rfl
  | n :: rest => by
      rw [transList_cons]
      have hc : ∀ (x : Node) (xs : List Node), subDefsList (x :: xs) =
          subDefs x ++ subDefsList xs := fun x xs => rfl
      rw [hc, subDefsList_append, List.map_append, List.map_append,
        ← List.append_assoc, subDefsKeys_transNode n,
        subDefsKeysList_transList rest, hc, List.map_append]

end


/-! #### Comment absence is preserved by every pass -/

mutual

/-- StripComments leaves a comment-free node unchanged. -/
theorem stripNode_fix : ∀ (y : Node), noComment y = true → stripNode y = y
  | .text _, _ => rfl
  | .elem k a c, h => by
      have he : noComment (.elem k a c) = (!(k == "comment") && noCommentList c) := rfl
      rw [he, Bool.and_eq_true] at h
      have hs : stripNode (.elem k a c) = .elem k a (stripList c) := rfl
      rw [hs, stripList_fix c h.2]

/-- StripComments leaves a comment-free list unchanged. -/
theorem stripList_fix : ∀ (l : List Node), noCommentList l = true → stripList l = l
  | [], _ => rfl
  | n :: ns, h => by
      have he : noCommentList (n :: ns) = (noComment n && noCommentList ns) := rfl
      rw [he, Bool.and_eq_true] at h
      cases n with
      | text s => rw [stripList_cons_text, stripList_fix ns h.2]
      | elem k a c =>
          have hk : ¬k = "comment" := by
            intro hk
            subst hk
            have := h.1
            rw [show noComment (Node.elem "comment" a c) =
              (!("comment" == "comment") && noCommentList c) from rfl] at this
            simp at this
          rw [stripList_cons_elem k a c ns hk, stripList_fix ns h.2]
          have hcc : noCommentList c = true := by
            have := h.1
            rw [show noComment (Node.elem k a c) =
              (!(k == "comment") && noCommentList c) from rfl, Bool.and_eq_true] at this
            exact this.2
          rw [stripList_fix c hcc]

end

mutual

/-- Attribute rewriting keeps comment absence. -/
theorem noComment_mapAttrs (f : String → Attrs → Attrs) :
    ∀ (y : Node), noComment (mapAttrs f y) = noComment y
  | .text _ => rfl
  | .elem k a c => by
      rw [mapAttrs_elem]
      have h1 : noComment (.elem k (f k a) (mapAttrsList f c)) =
          (!(k == "comment") && noCommentList (mapAttrsList f c)) := rfl
      have h2 : noComment (.elem k a c) = (!(k == "comment") && noCommentList c) := rfl
      rw [h1, h2, noCommentList_mapAttrsList f c]

/-- List form of `noComment_mapAttrs`. -/
theorem noCommentList_mapAttrsList (f : String → Attrs → Attrs) :
    ∀ (l : List Node), noCommentList (mapAttrsList f l) = noCommentList l
  | [] => rfl
  | n :: ns => by
      rw [mapAttrsList_cons]
      have h1 : noCommentList (mapAttrs f n :: mapAttrsList f ns) =
          (noComment (mapAttrs f n) && noCommentList (mapAttrsList f ns)) := rfl
      have h2 : noCommentList (n :: ns) = (noComment n && noCommentList ns) := rfl
      rw [h1, h2, noComment_mapAttrs f n, noCommentList_mapAttrsList f ns]

end

mutual

/-- A comment-free tree's substitution tables store comment-free
children. -/
theorem subDefs_noComment : ∀ (y : Node), noComment y = true →
    ∀ p ∈ subDefs y, noCommentList p.2 = true
  | .text _, _ => by intro p hp; simp [subDefs] at hp
  | .elem k a c, h => by
      intro p hp
      have he : noComment (.elem k a c) = (!(k == "comment") && noCommentList c) := rfl
      rw [he, Bool.and_eq_true] at h
      by_cases hd : k = "substitution_definition"
      · subst hd
        rw [subDefs_def, List.mem_append] at hp
        rcases hp with hp | hp
        · rw [List.mem_map] at hp
          obtain ⟨nm, hnm, hpe⟩ := hp
          rw [← hpe]
          exact h.2
        · exact subDefsList_noComment c h.2 p hp
      · rw [subDefs_ne k a c hd] at hp
        exact subDefsList_noComment c h.2 p hp

/-- List form of `subDefs_noComment`. -/
theorem subDefsList_noComment : ∀ (l : List Node), noCommentList l = true →
    ∀ p ∈ subDefsList l, noCommentList p.2 = true
  | [], _ => by intro p hp; simp [subDefsList] at hp
  | n :: ns, h => by
      intro p hp
      have he : noCommentList (n :: ns) = (noComment n && noCommentList ns) := rfl
      rw [he, Bool.and_eq_true] at h
      have hc : subDefsList (n :: ns) = subDefs n ++ subDefsList ns := rfl
      rw [hc, List.mem_append] at hp
      rcases hp with hp | hp
      · exact subDefs_noComment n h.1 p hp
      · exact subDefsList_noComment ns h.2 p hp

end



/-- Carry merging keeps comment absence. -/
theorem noComment_mergeCarry (ci cn : List String) (y : Node) :
    noComment (mergeCarry ci cn y) = noComment y := by
  cases y with
  | text s => rfl
  | elem k a c => rfl

mutual

/-- Target propagation keeps comment absence, node form. -/
theorem noComment_propNode : ∀ (y : Node), noComment (propNode y) = noComment y
  | .text _ => rfl
  | .elem k a c => by
      have hp : propNode (.elem k a c) = .elem k a (propList [] [] c) := rfl
      rw [hp]
      have h1 : noComment (.elem k a (propList [] [] c)) =
          (!(k == "comment") && noCommentList (propList [] [] c)) := rfl
      have h2 : noComment (.elem k a c) = (!(k == "comment") && noCommentList c) := rfl
      rw [h1, h2, noCommentList_propList [] [] c]

/-- Target propagation keeps comment absence, list form. -/
theorem noCommentList_propList : ∀ (ci cn : List String) (l : List Node),
    noCommentList (propList ci cn l) = noCommentList l
  | _, _, [] => rfl
  | ci, cn, .text s :: rest => by
      have hp : propList ci cn (.text s :: rest) = .text s :: propList [] [] rest := rfl
      rw [hp]
      have h1 : ∀ xs : List Node, noCommentList (Node.text s :: xs) =
          (true && noCommentList xs) := fun xs => rfl
      rw [h1, h1, noCommentList_propList [] [] rest]
  | ci, cn, .elem k a c :: rest => by
      have hcons : ∀ (x : Node) (xs : List Node), noCommentList (x :: xs) =
          (noComment x && noCommentList xs) := fun x xs => rfl
      by_cases hb : (eligibleTgt (.elem k a c) && lands rest) = true
      · have hp : propList ci cn (.elem k a c :: rest) =
            .elem k { a with ids := [], names := [], refid := a.ids.head? } c ::
              propList (a.ids ++ ci) (a.names ++ cn) rest := by
          have hq : propList ci cn (.elem k a c :: rest) =
              (if eligibleTgt (.elem k a c) && lands rest then
                .elem k { a with ids := [], names := [], refid := a.ids.head? } c ::
                  propList (a.ids ++ ci) (a.names ++ cn) rest
               else
                mergeCarry ci cn (propNode (.elem k a c)) :: propList [] [] rest) := rfl
          rw [hq, if_pos hb]
        rw [hp, hcons, hcons]
        have hkk : ∀ c2 : List Node, ∀ a2 : Attrs, noComment (Node.elem k a2 c2) =
            (!(k == "comment") && noCommentList c2) := fun c2 a2 => rfl
        rw [hkk, hkk, noCommentList_propList (a.ids ++ ci) (a.names ++ cn) rest]
      · have hp : propList ci cn (.elem k a c :: rest) =
            mergeCarry ci cn (propNode (.elem k a c)) :: propList [] [] rest := by
          have hq : propList ci cn (.elem k a c :: rest) =
              (if eligibleTgt (.elem k a c) && lands rest then
                .elem k { a with ids := [], names := [], refid := a.ids.head? } c ::
                  propList (a.ids ++ ci) (a.names ++ cn) rest
               else
                mergeCarry ci cn (propNode (.elem k a c)) :: propList [] [] rest) := rfl
          rw [hq, if_neg hb]
        rw [hp, hcons, hcons, noComment_mergeCarry, noComment_propNode,
          noCommentList_propList [] [] rest]

end

/-- The PropagateTargets pass keeps comment absence. -/
theorem noComment_propagateT (t : Node) : noComment (propagateT t) = noComment t :=
  noComment_propNode t

/-- The DocTitle promotion keeps comment absence. -/
theorem noComment_docTitleT (t : Node) (h : noComment t = true) :
    noComment (docTitleT t) = true := by
  rw [docTitleT.eq_def]
  split
  · rename_i a sa ta tc srest
    revert h
    simp [noComment, noCommentList]
  · exact h

/-- The DocInfo promotion keeps comment absence. -/
theorem noComment_docInfoT (t : Node) (h : noComment t = true) :
    noComment (docInfoT t) = true := by
  rw [docInfoT.eq_def]
  split
  · rename_i a ta tc fa fc rest
    revert h
    simp [noComment, noCommentList]
  · rename_i a fa fc rest
    revert h
    simp [noComment, noCommentList]
  · exact h

/-- The SectionSubTitle promotion keeps comment absence. -/
theorem noComment_subTitleT (t : Node) (h : noComment t = true) :
    noComment (subTitleT t) = true := by
  rw [subTitleT.eq_def]
  split
  · rename_i a ta tc sa ta2 tc2 srest
    revert h
    simp [noComment, noCommentList]
  · exact h

/-- The frontmatter promotions keep comment absence. -/
theorem noComment_frontmatterT (t : Node) (h : noComment t = true) :
    noComment (frontmatterT t) = true :=
  noComment_subTitleT _ (noComment_docInfoT _ (noComment_docTitleT t h))

mutual

/-- The anonymous rewrite keeps comment absence, node form. -/
theorem noComment_anonRw : ∀ (tgts : List Attrs) (y : Node),
    noComment (anonRw tgts y).2 = noComment y
  | _, .text _ => rfl
  | tgts, .elem k a c => by
      have hkk : ∀ (a2 : Attrs) (c2 : List Node), noComment (Node.elem k a2 c2) =
          (!(k == "comment") && noCommentList c2) := fun a2 c2 => rfl
      by_cases hk : k = "reference" ∧ a.anonymous = true
      · cases tgts with
        | nil =>
            have hp : anonRw [] (.elem k a c) =
                ((anonRwList [] c).1, .elem k a (anonRwList [] c).2) := by
              simp [anonRw, hk]
            rw [hp]
            dsimp only
            rw [hkk, hkk, noCommentList_anonRwList [] c]
        | cons tg rest =>
            have hp : anonRw (tg :: rest) (.elem k a c) =
                ((anonRwList rest c).1, .elem k (pairedRef tg a) (anonRwList rest c).2) := by
              simp [anonRw, hk]
            rw [hp]
            dsimp only
            rw [hkk, hkk, noCommentList_anonRwList rest c]
      · have hp : anonRw tgts (.elem k a c) =
            ((anonRwList tgts c).1, .elem k a (anonRwList tgts c).2) := by
          simp [anonRw, hk]
        rw [hp]
        dsimp only
        rw [hkk, hkk, noCommentList_anonRwList tgts c]

/-- The anonymous rewrite keeps comment absence, list form. -/
theorem noCommentList_anonRwList : ∀ (tgts : List Attrs) (l : List Node),
    noCommentList (anonRwList tgts l).2 = noCommentList l
  | _, [] => rfl
  | tgts, n :: ns => by
      have hp : anonRwList tgts (n :: ns) =
          ((anonRwList (anonRw tgts n).1 ns).1,
           (anonRw tgts n).2 :: (anonRwList (anonRw tgts n).1 ns).2) := rfl
      rw [hp]
      have hcons : ∀ (x : Node) (xs : List Node), noCommentList (x :: xs) =
          (noComment x && noCommentList xs) := fun x xs => rfl
      dsimp only
      rw [hcons, hcons, noComment_anonRw tgts n,
        noCommentList_anonRwList (anonRw tgts n).1 ns]

end

/-- The AnonymousHyperlinks pass keeps comment absence. -/
theorem noComment_anonymousT (t : Node) : noComment (anonymousT t) = noComment t :=
  noComment_anonRw (anonTgts t) t

mutual

/-- Autonumbering keeps comment absence, node form. -/
theorem noComment_numberNode : ∀ (n : Nat) (y : Node),
    noComment (numberNode n y).2 = noComment y
  | _, .text _ => rfl
  | n, .elem k a c => by
      have hkk : ∀ c2 : List Node, noComment (Node.elem k a c2) =
          (!(k == "comment") && noCommentList c2) := fun c2 => rfl
      by_cases hf : k = "footnote" ∧ a.auto = true
      · by_cases hl : hasLabelChild c = true
        · simp only [numberNode, if_pos hf, if_pos hl]
          rw [hkk, hkk, noCommentList_numberList (n + 1) c]
        · simp only [numberNode, if_pos hf, if_neg hl]
          rw [hkk, hkk]
          have hcons : noCommentList (Node.elem "label" {} [Node.text (toString (n + 1))] ::
              (numberList (n + 1) c).2) = (true &&
                noCommentList (numberList (n + 1) c).2) := rfl
          rw [hcons, Bool.true_and, noCommentList_numberList (n + 1) c]
      · simp only [numberNode, if_neg hf]
        rw [hkk, hkk, noCommentList_numberList n c]

/-- Autonumbering keeps comment absence, list form. -/
theorem noCommentList_numberList : ∀ (n : Nat) (l : List Node),
    noCommentList (numberList n l).2 = noCommentList l
  | _, [] => rfl
  | n, x :: xs => by
      simp only [numberList]
      have hcons : ∀ (y : Node) (ys : List Node), noCommentList (y :: ys) =
          (noComment y && noCommentList ys) := fun y ys => rfl
      rw [hcons, hcons, noComment_numberNode n x,
        noCommentList_numberList (numberNode n x).1 xs]

end

/-- Label text keeps comment absence. -/
theorem noCommentList_labelText (fi : FInfo) (c : List Node) :
    noCommentList (labelText fi c) = noCommentList c := by
  cases c with
  | nil =>
      unfold labelText
      cases fi.label with
      | none => rfl
      | some s => rfl
  | cons x xs => rfl

mutual

/-- The resolution walk keeps comment absence, node form. -/
theorem noComment_fnRes (infos : List FInfo) : ∀ (pool : List FInfo) (y : Node),
    noComment (fnResNode infos pool y).2.2 = noComment y
  | _, .text _ => rfl
  | pool, .elem k a c => by
      have hkk : ∀ (a2 : Attrs) (c2 : List Node), noComment (Node.elem k a2 c2) =
          (!(k == "comment") && noCommentList c2) := fun a2 c2 => rfl
      by_cases hk : k = "footnote_reference" ∨ k = "citation_reference"
      · simp only [fnResNode, if_pos hk]
        rw [hkk, hkk]
        rcases refUpdate_children_form infos pool k a c with hc | ⟨fi, hc⟩
        · rw [hc]
        · rw [hc, noCommentList_labelText]
      · simp only [fnResNode, if_neg hk]
        rw [hkk, hkk, noCommentList_fnResList infos pool c]

/-- The resolution walk keeps comment absence, list form. -/
theorem noCommentList_fnResList (infos : List FInfo) : ∀ (pool : List FInfo)
    (l : List Node), noCommentList (fnResList infos pool l).2.2 = noCommentList l
  | _, [] => rfl
  | pool, n :: ns => by
      simp only [fnResList]
      have hcons : ∀ (y : Node) (ys : List Node), noCommentList (y :: ys) =
          (noComment y && noCommentList ys) := fun y ys => rfl
      rw [hcons, hcons, noComment_fnRes infos pool n,
        noCommentList_fnResList infos (fnResNode infos pool n).1 ns]

end

mutual

/-- Backref population keeps comment absence, node form. -/
theorem noComment_addBackrefs (prs : List (String × String)) :
    ∀ (y : Node), noComment (addBackrefs prs y) = noComment y
  | .text _ => rfl
  | .elem k a c => by
      have hkk : ∀ (a2 : Attrs) (c2 : List Node), noComment (Node.elem k a2 c2) =
          (!(k == "comment") && noCommentList c2) := fun a2 c2 => rfl
      obtain ⟨a2, hsh⟩ := addBackrefs_elem_shape prs k a c
      rw [hsh, hkk, hkk, noCommentList_addBackrefsList prs c]

/-- Backref population keeps comment absence, list form. -/
theorem noCommentList_addBackrefsList (prs : List (String × String)) :
    ∀ (l : List Node), noCommentList (addBackrefsList prs l) = noCommentList l
  | [] => rfl
  | n :: ns => by
      have hp : addBackrefsList prs (n :: ns) =
          addBackrefs prs n :: addBackrefsList prs ns := rfl
      rw [hp]
      have hcons : ∀ (y : Node) (ys : List Node), noCommentList (y :: ys) =
          (noComment y && noCommentList ys) := fun y ys => rfl
      rw [hcons, hcons, noComment_addBackrefs prs n, noCommentList_addBackrefsList prs ns]

end

/-- The Footnotes pass keeps comment absence. -/
theorem noComment_footnotesT (t : Node) : noComment (footnotesT t) = noComment t := by
  simp only [footnotesT]
  rw [noComment_addBackrefs, noComment_fnRes, noComment_numberNode]

/-- The ExternalTargets and InternalTargets passes keep comment
absence. -/
theorem noComment_extIntT (t : Node) : noComment (extIntT t) = noComment t := by
  simp only [extIntT, intT, extT]
  rw [noComment_mapAttrs, noComment_mapAttrs]

/-- The Transitions pass keeps comment absence. -/
theorem noComment_transitionsT (t : Node) (h : noComment t = true) :
    noComment (transitionsT t) = true := by
  have hx := noComment_transNode t
  rw [h] at hx
  rw [Bool.and_eq_true] at hx
  exact hx.1

/-- StripComments leaves a comment-free tree unchanged. -/
theorem stripT_fix (t : Node) (h : noComment t = true) : stripT t = t :=
  stripNode_fix t h


/-! #### Root kind through the pipeline, and fixedness of pass 7 at
the pipeline output -/

/-- Is the tree rooted at a section element?  The pipeline operates on
document-rooted trees, whose trailing transitions are never
discarded. -/
def sectionRoot : Node → Bool
  | .elem k _ _ => k == "section"
  | .text _ => false

/-- The Substitutions pass keeps the root kind. -/
theorem sectionRoot_substT (t : Node) : sectionRoot (substT t) = sectionRoot t := by
  cases t with
  | text s => rfl
  | elem k a c => rfl

/-- The PropagateTargets pass keeps the root kind. -/
theorem sectionRoot_propagateT (t : Node) : sectionRoot (propagateT t) = sectionRoot t := by
  cases t with
  | text s => rfl
  | elem k a c => rfl

/-- The DocTitle promotion never creates a section root. -/
theorem sectionRoot_docTitleT (t : Node) (h : sectionRoot t = false) :
    sectionRoot (docTitleT t) = false := by
  rw [docTitleT.eq_def]
  split
  · rfl
  · exact h

/-- The DocInfo promotion never creates a section root. -/
theorem sectionRoot_docInfoT (t : Node) (h : sectionRoot t = false) :
    sectionRoot (docInfoT t) = false := by
  rw [docInfoT.eq_def]
  split
  · rfl
  · rfl
  · exact h

/-- The SectionSubTitle promotion never creates a section root. -/
theorem sectionRoot_subTitleT (t : Node) (h : sectionRoot t = false) :
    sectionRoot (subTitleT t) = false := by
  rw [subTitleT.eq_def]
  split
  · rfl
  · exact h

/-- The frontmatter promotions never create a section root. -/
theorem sectionRoot_frontmatterT (t : Node) (h : sectionRoot t = false) :
    sectionRoot (frontmatterT t) = false :=
  sectionRoot_subTitleT _ (sectionRoot_docInfoT _ (sectionRoot_docTitleT t h))

/-- The AnonymousHyperlinks pass keeps the root kind. -/
theorem sectionRoot_anonymousT (t : Node) : sectionRoot (anonymousT t) = sectionRoot t := by
  cases t with
  | text s => rfl
  | elem k a c =>
      simp only [anonymousT]
      by_cases hk : k = "reference" ∧ a.anonymous = true
      · cases htg : anonTgts (.elem k a c) with
        | nil =>
            have hp : anonRw [] (.elem k a c) =
                ((anonRwList [] c).1, .elem k a (anonRwList [] c).2) := by
              simp [anonRw, hk]
            rw [hp]
            rfl
        | cons tg rest =>
            have hp : anonRw (tg :: rest) (.elem k a c) =
                ((anonRwList rest c).1, .elem k (pairedRef tg a) (anonRwList rest c).2) := by
              simp [anonRw, hk]
            rw [hp]
            rfl
      · have hp : anonRw (anonTgts (.elem k a c)) (.elem k a c) =
            ((anonRwList (anonTgts (.elem k a c)) c).1,
             .elem k a (anonRwList (anonTgts (.elem k a c)) c).2) := by
          simp [anonRw, hk]
        rw [hp]
        rfl

/-- Attribute rewriting keeps the root kind. -/
theorem sectionRoot_mapAttrs (f : String → Attrs → Attrs) (t : Node) :
    sectionRoot (mapAttrs f t) = sectionRoot t := by
  cases t with
  | text s => rfl
  | elem k a c => rfl

/-- The shape of autonumbering on an element. -/
theorem numberNode_elem_shape (n : Nat) (k : String) (a : Attrs) (c : List Node) :
    ∃ c2, (numberNode n (.elem k a c)).2 = .elem k a c2 := by
  by_cases hf : k = "footnote" ∧ a.auto = true
  · by_cases hl : hasLabelChild c = true
    · simp only [numberNode, if_pos hf, if_pos hl]
      exact ⟨_, rfl⟩
    · simp only [numberNode, if_pos hf, if_neg hl]
      exact ⟨_, rfl⟩
  · simp only [numberNode, if_neg hf]
    exact ⟨_, rfl⟩

/-- The Footnotes pass keeps the root kind. -/
theorem sectionRoot_footnotesT (t : Node) : sectionRoot (footnotesT t) = sectionRoot t := by
  cases t with
  | text s => rfl
  | elem k a c =>
      simp only [footnotesT]
      obtain ⟨c2, hnum⟩ := numberNode_elem_shape 0 k a c
      rw [hnum]
      obtain ⟨a3, c3, hres⟩ := fnResNode_elem_shape (fnInfos (Node.elem k a c2))
        (fnPool (fnInfos (Node.elem k a c2))) k a c2
      rw [hres]
      obtain ⟨a4, hadd⟩ := addBackrefs_elem_shape
        (fnResNode (fnInfos (Node.elem k a c2)) (fnPool (fnInfos (Node.elem k a c2)))
          (Node.elem k a c2)).2.1 k a3 c3
      rw [hadd]
      rfl

/-- Pass 7 keeps the root kind. -/
theorem sectionRoot_extIntT (t : Node) : sectionRoot (extIntT t) = sectionRoot t := by
  simp only [extIntT, intT, extT]
  rw [sectionRoot_mapAttrs, sectionRoot_mapAttrs]

/-- StripComments keeps the root kind. -/
theorem sectionRoot_stripT (t : Node) : sectionRoot (stripT t) = sectionRoot t := by
  cases t with
  | text s => rfl
  | elem k a c => rfl

/-- Equation: the Transitions pass on a non-section-rooted element. -/
theorem transitionsT_nonsection (k : String) (a : Attrs) (c : List Node)
    (h : ¬k = "section") :
    transitionsT (.elem k a c) = .elem k a (transList c) := by
  simp only [transitionsT]
  rw [transNode_nonsection k a c h]

/-- A non-section root's kind test, unfolded. -/
theorem sectionRoot_elem (k : String) (a : Attrs) (c : List Node) :
    sectionRoot (.elem k a c) = (k == "section") := rfl

/-- The named-target table is unchanged by the Transitions pass on a
non-section-rooted tree. -/
theorem tgtTable_transitionsT (y : Node) (hroot : sectionRoot y = false) :
    tgtTable (transitionsT y) = tgtTable y := by
  cases y with
  | text s => rfl
  | elem k a c =>
      rw [sectionRoot_elem] at hroot
      have hk : ¬k = "section" := by simpa using hroot
      rw [transitionsT_nonsection k a c hk]
      have hown : ∀ c2 : List Node, tgtTable (.elem k a c2) =
          (if k = "target" then a.names.map (fun nm => (lower nm, a)) else []) ++
            tgtTableList c2 := fun c2 => rfl
      rw [hown, hown, tgtTableList_transList c]

/-- Element satisfaction passes to the Transitions output. -/
theorem allElems_transitionsT (P : String → Attrs → Bool) (y : Node)
    (h : allElems P y = true) : allElems P (transitionsT y) = true := by
  have hx := allElems_transNode P y
  rw [h] at hx
  rw [Bool.and_eq_true] at hx
  exact hx.1

/-- A tree fixed by pass 7 stays fixed after the Transitions pass. -/
theorem extIntT_fixed_transitions (y : Node) (hroot : sectionRoot y = false)
    (hfix : extIntT y = y) : extIntT (transitionsT y) = transitionsT y := by
  have hcomp : ∀ z : Node, tgtTable z = tgtTable y →
      extIntT z = mapAttrs (fun k a => intAttrs (tgtTable y) k
        (extAttrs (tgtTable y) k a)) z := by
    intro z hz
    simp only [extIntT, intT, extT]
    rw [hz, tgtTable_mapAttrs _ (fun a => extAttrs_target _ a) z, hz, mapAttrs_comp]
  have hfix2 : mapAttrs (fun k a => intAttrs (tgtTable y) k
      (extAttrs (tgtTable y) k a)) y = y := by
    rw [← hcomp y rfl]
    exact hfix
  have hP := allElems_of_mapAttrs_fix _ y hfix2
  rw [hcomp (transitionsT y) (tgtTable_transitionsT y hroot)]
  exact mapAttrs_fix _ (transitionsT y) (allElems_transitionsT _ y hP)


/-! #### Fixedness of pass 5 at the pipeline output -/

/-- IndirectHyperlinks leaves non-target non-reference elements
alone. -/
theorem indirectAttrs_nonTR (tbl rtbl : List (String × Attrs)) (k : String) (a : Attrs)
    (h1 : ¬k = "target") (h2 : ¬k = "reference") :
    indirectAttrs tbl rtbl k a = a := by
  simp [indirectAttrs, h1, h2]

/-- IndirectHyperlinks leaves a reference without a refname alone. -/
theorem indirectAttrs_ref_noname (tbl rtbl : List (String × Attrs)) (a : Attrs)
    (hn : a.refname = none) :
    indirectAttrs tbl rtbl "reference" a = a := by
  simp [indirectAttrs, hn]

/-- ExternalTargets fixes the attrs or fires on a reference, clearing
the refname. -/
theorem extAttrs_cases2 (tbl : List (String × Attrs)) (k : String) (a : Attrs) :
    extAttrs tbl k a = a ∨
      (k = "reference" ∧ (extAttrs tbl k a).refname = none) := by
  unfold extAttrs
  split
  · rename_i hg
    split
    · split
      · split
        · exact Or.inr ⟨hg.1, rfl⟩
        · exact Or.inl rfl
      · exact Or.inl rfl
    · exact Or.inl rfl
  · exact Or.inl rfl

/-- InternalTargets fixes the attrs or fires on a reference, clearing
the refname. -/
theorem intAttrs_cases2 (tbl : List (String × Attrs)) (k : String) (a : Attrs) :
    intAttrs tbl k a = a ∨
      (k = "reference" ∧ (intAttrs tbl k a).refname = none) := by
  unfold intAttrs
  split
  · rename_i hg
    split
    · split
      · split
        · split
          · exact Or.inr ⟨hg.1, rfl⟩
          · exact Or.inl rfl
        · exact Or.inl rfl
      · exact Or.inl rfl
    · exact Or.inl rfl
  · exact Or.inl rfl

mutual

/-- Element satisfaction transfers through an attribute rewrite whose
updates keep the predicate. -/
theorem allElems_mapAttrs_impl (P : String → Attrs → Bool) (f : String → Attrs → Attrs)
    (hf : ∀ k a, P k a = true → P k (f k a) = true) :
    ∀ (y : Node), allElems P y = true → allElems P (mapAttrs f y) = true
  | .text _, _ => rfl
  | .elem k a c, h => by
      have he : allElems P (.elem k a c) = (P k a && allElemsList P c) := rfl
      rw [he, Bool.and_eq_true] at h
      rw [mapAttrs_elem]
      have he2 : allElems P (.elem k (f k a) (mapAttrsList f c)) =
          (P k (f k a) && allElemsList P (mapAttrsList f c)) := rfl
      rw [he2, Bool.and_eq_true]
      exact ⟨hf k a h.1, allElemsList_mapAttrsList_impl P f hf c h.2⟩

/-- List form of `allElems_mapAttrs_impl`. -/
theorem allElemsList_mapAttrsList_impl (P : String → Attrs → Bool)
    (f : String → Attrs → Attrs) (hf : ∀ k a, P k a = true → P k (f k a) = true) :
    ∀ (l : List Node), allElemsList P l = true → allElemsList P (mapAttrsList f l) = true
  | [], _ => rfl
  | n :: ns, h => by
      have he : allElemsList P (n :: ns) = (allElems P n && allElemsList P ns) := rfl
      rw [he, Bool.and_eq_true] at h
      rw [mapAttrsList_cons]
      have he2 : allElemsList P (mapAttrs f n :: mapAttrsList f ns) =
          (allElems P (mapAttrs f n) && allElemsList P (mapAttrsList f ns)) := rfl
      rw [he2, Bool.and_eq_true]
      exact ⟨allElems_mapAttrs_impl P f hf n h.1,
        allElemsList_mapAttrsList_impl P f hf ns h.2⟩

end

/-- Label text keeps element satisfaction. -/
theorem allElemsList_labelText (P : String → Attrs → Bool) (fi : FInfo) (c : List Node)
    (h : allElemsList P c = true) : allElemsList P (labelText fi c) = true := by
  cases c with
  | nil =>
      unfold labelText
      cases fi.label with
      | none => rfl
      | some s => rfl
  | cons x xs => exact h

mutual

/-- Autonumbering keeps element satisfaction when the predicate holds
on every label attrs. -/
theorem allElems_numberNode (P : String → Attrs → Bool)
    (hlab : ∀ a, P "label" a = true) :
    ∀ (n : Nat) (y : Node), allElems P y = true → allElems P (numberNode n y).2 = true
  | _, .text _, _ => rfl
  | n, .elem k a c, h => by
      have he : allElems P (.elem k a c) = (P k a && allElemsList P c) := rfl
      rw [he, Bool.and_eq_true] at h
      have hrec := allElemsList_numberList P hlab (n + 1) c h.2
      have hrec0 := allElemsList_numberList P hlab n c h.2
      by_cases hf : k = "footnote" ∧ a.auto = true
      · by_cases hl : hasLabelChild c = true
        · simp only [numberNode, if_pos hf, if_pos hl]
          have he2 : allElems P (.elem k a (numberList (n + 1) c).2) =
              (P k a && allElemsList P (numberList (n + 1) c).2) := rfl
          rw [he2, Bool.and_eq_true]
          exact ⟨h.1, hrec⟩
        · simp only [numberNode, if_pos hf, if_neg hl]
          have he2 : allElems P (.elem k a
              (Node.elem "label" {} [Node.text (toString (n + 1))] ::
                (numberList (n + 1) c).2)) =
              (P k a && (allElems P (Node.elem "label" {}
                [Node.text (toString (n + 1))]) &&
                allElemsList P (numberList (n + 1) c).2)) := rfl
          rw [he2, Bool.and_eq_true, Bool.and_eq_true]
          refine ⟨h.1, ?_, hrec⟩
          have he3 : allElems P (Node.elem "label" {} [Node.text (toString (n + 1))]) =
              (P "label" {} && true) := by
            have : allElems P (Node.elem "label" {} [Node.text (toString (n + 1))]) =
                (P "label" {} && allElemsList P [Node.text (toString (n + 1))]) := rfl
            rw [this]
            rfl
          rw [he3, hlab {}]
          rfl
      · simp only [numberNode, if_neg hf]
        have he2 : allElems P (.elem k a (numberList n c).2) =
            (P k a && allElemsList P (numberList n c).2) := rfl
        rw [he2, Bool.and_eq_true]
        exact ⟨h.1, hrec0⟩

/-- List form of `allElems_numberNode`. -/
theorem allElemsList_numberList (P : String → Attrs → Bool)
    (hlab : ∀ a, P "label" a = true) :
    ∀ (n : Nat) (l : List Node), allElemsList P l = true →
      allElemsList P (numberList n l).2 = true
  | _, [], _ => rfl
  | n, x :: xs, h => by
      have he : allElemsList P (x :: xs) = (allElems P x && allElemsList P xs) := rfl
      rw [he, Bool.and_eq_true] at h
      simp only [numberList]
      have he2 : allElemsList P ((numberNode n x).2 :: (numberList (numberNode n x).1 xs).2) =
          (allElems P (numberNode n x).2 &&
            allElemsList P (numberList (numberNode n x).1 xs).2) := rfl
      rw [he2, Bool.and_eq_true]
      exact ⟨allElems_numberNode P hlab n x h.1,
        allElemsList_numberList P hlab (numberNode n x).1 xs h.2⟩

end

mutual

/-- The resolution walk keeps element satisfaction when the predicate
holds on every footnote-reference and citation-reference attrs. -/
theorem allElems_fnRes (P : String → Attrs → Bool)
    (hfr : ∀ a, P "footnote_reference" a = true)
    (hcr : ∀ a, P "citation_reference" a = true) (infos : List FInfo) :
    ∀ (pool : List FInfo) (y : Node), allElems P y = true →
      allElems P (fnResNode infos pool y).2.2 = true
  | _, .text _, _ => rfl
  | pool, .elem k a c, h => by
      have he : allElems P (.elem k a c) = (P k a && allElemsList P c) := rfl
      rw [he, Bool.and_eq_true] at h
      by_cases hk : k = "footnote_reference" ∨ k = "citation_reference"
      · simp only [fnResNode, if_pos hk]
        have he2 : allElems P (.elem k (refUpdate infos pool k a c).1
            (refUpdate infos pool k a c).2.1) =
            (P k (refUpdate infos pool k a c).1 &&
              allElemsList P (refUpdate infos pool k a c).2.1) := rfl
        rw [he2, Bool.and_eq_true]
        constructor
        · rcases hk with hk | hk <;> subst hk
          · exact hfr _
          · exact hcr _
        · rcases refUpdate_children_form infos pool k a c with hc | ⟨fi, hc⟩
          · rw [hc]
            exact h.2
          · rw [hc]
            exact allElemsList_labelText P fi c h.2
      · simp only [fnResNode, if_neg hk]
        have he2 : allElems P (.elem k a (fnResList infos pool c).2.2) =
            (P k a && allElemsList P (fnResList infos pool c).2.2) := rfl
        rw [he2, Bool.and_eq_true]
        exact ⟨h.1, allElemsList_fnResList P hfr hcr infos pool c h.2⟩

/-- List form of `allElems_fnRes`. -/
theorem allElemsList_fnResList (P : String → Attrs → Bool)
    (hfr : ∀ a, P "footnote_reference" a = true)
    (hcr : ∀ a, P "citation_reference" a = true) (infos : List FInfo) :
    ∀ (pool : List FInfo) (l : List Node), allElemsList P l = true →
      allElemsList P (fnResList infos pool l).2.2 = true
  | _, [], _ => rfl
  | pool, n :: ns, h => by
      have he : allElemsList P (n :: ns) = (allElems P n && allElemsList P ns) := rfl
      rw [he, Bool.and_eq_true] at h
      simp only [fnResList]
      have he2 : allElemsList P ((fnResNode infos pool n).2.2 ::
          (fnResList infos (fnResNode infos pool n).1 ns).2.2) =
          (allElems P (fnResNode infos pool n).2.2 &&
            allElemsList P (fnResList infos (fnResNode infos pool n).1 ns).2.2) := rfl
      rw [he2, Bool.and_eq_true]
      exact ⟨allElems_fnRes P hfr hcr infos pool n h.1,
        allElemsList_fnResList P hfr hcr infos (fnResNode infos pool n).1 ns h.2⟩

end

mutual

/-- Backref population keeps element satisfaction when the predicate
holds on every footnote and citation attrs. -/
theorem allElems_addBackrefs (P : String → Attrs → Bool)
    (hfn : ∀ a, P "footnote" a = true) (hcit : ∀ a, P "citation" a = true)
    (prs : List (String × String)) :
    ∀ (y : Node), allElems P y = true → allElems P (addBackrefs prs y) = true
  | .text _, _ => rfl
  | .elem k a c, h => by
      have he : allElems P (.elem k a c) = (P k a && allElemsList P c) := rfl
      rw [he, Bool.and_eq_true] at h
      obtain ⟨a2, hsh⟩ := addBackrefs_elem_shape prs k a c
      rw [hsh]
      have he2 : allElems P (.elem k a2 (addBackrefsList prs c)) =
          (P k a2 && allElemsList P (addBackrefsList prs c)) := rfl
      rw [he2, Bool.and_eq_true]
      constructor
      · by_cases hk : k = "footnote" ∨ k = "citation"
        · rcases hk with hk | hk <;> subst hk
          · exact hfn _
          · exact hcit _
        · have heq : addBackrefs prs (Node.elem k a c) = .elem k a (addBackrefsList prs c) := by
            simp only [addBackrefs, if_neg hk]
          rw [heq] at hsh
          injection hsh with _ ha _
          rw [← ha]
          exact h.1
      · exact allElemsList_addBackrefsList P hfn hcit prs c h.2

/-- List form of `allElems_addBackrefs`. -/
theorem allElemsList_addBackrefsList (P : String → Attrs → Bool)
    (hfn : ∀ a, P "footnote" a = true) (hcit : ∀ a, P "citation" a = true)
    (prs : List (String × String)) :
    ∀ (l : List Node), allElemsList P l = true →
      allElemsList P (addBackrefsList prs l) = true
  | [], _ => rfl
  | n :: ns, h => by
      have he : allElemsList P (n :: ns) = (allElems P n && allElemsList P ns) := rfl
      rw [he, Bool.and_eq_true] at h
      have hp : addBackrefsList prs (n :: ns) =
          addBackrefs prs n :: addBackrefsList prs ns := rfl
      rw [hp]
      have he2 : allElemsList P (addBackrefs prs n :: addBackrefsList prs ns) =
          (allElems P (addBackrefs prs n) && allElemsList P (addBackrefsList prs ns)) := rfl
      rw [he2, Bool.and_eq_true]
      exact ⟨allElems_addBackrefs P hfn hcit prs n h.1,
        allElemsList_addBackrefsList P hfn hcit prs ns h.2⟩

end

/-- The Footnotes pass keeps element satisfaction when the predicate
holds universally on the five footnote-machinery kinds. -/
theorem allElems_footnotesT (P : String → Attrs → Bool)
    (hfn : ∀ a, P "footnote" a = true) (hcit : ∀ a, P "citation" a = true)
    (hfr : ∀ a, P "footnote_reference" a = true)
    (hcr : ∀ a, P "citation_reference" a = true)
    (hlab : ∀ a, P "label" a = true) (t : Node) (h : allElems P t = true) :
    allElems P (footnotesT t) = true := by
  simp only [footnotesT]
  exact allElems_addBackrefs P hfn hcit _ _
    (allElems_fnRes P hfr hcr _ _ _ (allElems_numberNode P hlab 0 t h))

/-- Label text keeps the named-target table of the children. -/
theorem tgtTableList_labelText (fi : FInfo) (c : List Node) :
    tgtTableList (labelText fi c) = tgtTableList c := by
  cases c with
  | nil =>
      unfold labelText
      cases fi.label with
      | none => rfl
      | some s => rfl
  | cons x xs => rfl

mutual

/-- Autonumbering keeps the named-target table, node form. -/
theorem tgtTable_numberNode : ∀ (n : Nat) (y : Node),
    tgtTable (numberNode n y).2 = tgtTable y
  | _, .text _ => rfl
  | n, .elem k a c => by
      have hown : ∀ c2 : List Node, tgtTable (.elem k a c2) =
          (if k = "target" then a.names.map (fun nm => (lower nm, a)) else []) ++
            tgtTableList c2 := fun c2 => rfl
      by_cases hf : k = "footnote" ∧ a.auto = true
      · by_cases hl : hasLabelChild c = true
        · simp only [numberNode, if_pos hf, if_pos hl]
          rw [hown, hown, tgtTableList_numberList (n + 1) c]
        · simp only [numberNode, if_pos hf, if_neg hl]
          rw [hown, hown]
          have hcons : tgtTableList (Node.elem "label" {}
              [Node.text (toString (n + 1))] :: (numberList (n + 1) c).2) =
              tgtTable (Node.elem "label" {} [Node.text (toString (n + 1))]) ++
                tgtTableList (numberList (n + 1) c).2 := rfl
          rw [hcons]
          have hlabnil : tgtTable (Node.elem "label" {}
              [Node.text (toString (n + 1))]) = [] := rfl
          rw [hlabnil, List.nil_append, tgtTableList_numberList (n + 1) c]
      · simp only [numberNode, if_neg hf]
        rw [hown, hown, tgtTableList_numberList n c]

/-- Autonumbering keeps the named-target table, list form. -/
theorem tgtTableList_numberList : ∀ (n : Nat) (l : List Node),
    tgtTableList (numberList n l).2 = tgtTableList l
  | _, [] => rfl
  | n, x :: xs => by
      simp only [numberList]
      have hc : ∀ (y : Node) (ys : List Node), tgtTableList (y :: ys) =
          tgtTable y ++ tgtTableList ys := fun y ys => rfl
      rw [hc, hc, tgtTable_numberNode n x, tgtTableList_numberList (numberNode n x).1 xs]

end

mutual

/-- The resolution walk keeps the named-target table, node form. -/
theorem tgtTable_fnRes (infos : List FInfo) : ∀ (pool : List FInfo) (y : Node),
    tgtTable (fnResNode infos pool y).2.2 = tgtTable y
  | _, .text _ => rfl
  | pool, .elem k a c => by
      have hown : ∀ (a2 : Attrs) (c2 : List Node), tgtTable (.elem k a2 c2) =
          (if k = "target" then a2.names.map (fun nm => (lower nm, a2)) else []) ++
            tgtTableList c2 := fun a2 c2 => rfl
      by_cases hk : k = "footnote_reference" ∨ k = "citation_reference"
      · have hnt : ¬k = "target" := by
          rcases hk with hk | hk <;> subst hk <;> decide
        simp only [fnResNode, if_pos hk]
        rw [hown, hown, if_neg hnt, if_neg hnt, List.nil_append, List.nil_append]
        rcases refUpdate_children_form infos pool k a c with hc | ⟨fi, hc⟩
        · rw [hc]
        · rw [hc, tgtTableList_labelText]
      · simp only [fnResNode, if_neg hk]
        rw [hown, hown, tgtTableList_fnResList infos pool c]

/-- The resolution walk keeps the named-target table, list form. -/
theorem tgtTableList_fnResList (infos : List FInfo) : ∀ (pool : List FInfo)
    (l : List Node), tgtTableList (fnResList infos pool l).2.2 = tgtTableList l
  | _, [] => rfl
  | pool, n :: ns => by
      simp only [fnResList]
      have hc : ∀ (y : Node) (ys : List Node), tgtTableList (y :: ys) =
          tgtTable y ++ tgtTableList ys := fun y ys => rfl
      rw [hc, hc, tgtTable_fnRes infos pool n,
        tgtTableList_fnResList infos (fnResNode infos pool n).1 ns]

end

mutual

/-- Backref population keeps the named-target table, node form. -/
theorem tgtTable_addBackrefs (prs : List (String × String)) :
    ∀ (y : Node), tgtTable (addBackrefs prs y) = tgtTable y
  | .text _ => rfl
  | .elem k a c => by
      have hown : ∀ (a2 : Attrs) (c2 : List Node), tgtTable (.elem k a2 c2) =
          (if k = "target" then a2.names.map (fun nm => (lower nm, a2)) else []) ++
            tgtTableList c2 := fun a2 c2 => rfl
      by_cases hk : k = "footnote" ∨ k = "citation"
      · have hnt : ¬k = "target" := by
          rcases hk with hk | hk <;> subst hk <;> decide
        obtain ⟨a2, hsh⟩ := addBackrefs_elem_shape prs k a c
        rw [hsh, hown, hown, if_neg hnt, if_neg hnt, List.nil_append, List.nil_append,
          tgtTableList_addBackrefsList prs c]
      · have heq : addBackrefs prs (Node.elem k a c) =
            .elem k a (addBackrefsList prs c) := by
          simp only [addBackrefs, if_neg hk]
        rw [heq, hown, hown, tgtTableList_addBackrefsList prs c]

/-- Backref population keeps the named-target table, list form. -/
theorem tgtTableList_addBackrefsList (prs : List (String × String)) :
    ∀ (l : List Node), tgtTableList (addBackrefsList prs l) = tgtTableList l
  | [] => rfl
  | n :: ns => by
      have hp : addBackrefsList prs (n :: ns) =
          addBackrefs prs n :: addBackrefsList prs ns := rfl
      rw [hp]
      have hc : ∀ (y : Node) (ys : List Node), tgtTableList (y :: ys) =
          tgtTable y ++ tgtTableList ys := fun y ys => rfl
      rw [hc, hc, tgtTable_addBackrefs prs n, tgtTableList_addBackrefsList prs ns]

end

/-- The Footnotes pass keeps the named-target table. -/
theorem tgtTable_footnotesT (t : Node) : tgtTable (footnotesT t) = tgtTable t := by
  simp only [footnotesT]
  rw [tgtTable_addBackrefs, tgtTable_fnRes, tgtTable_numberNode]

/-- Pass 7 keeps the named-target table. -/
theorem tgtTable_extIntT (t : Node) : tgtTable (extIntT t) = tgtTable t := by
  simp only [extIntT, intT, extT]
  rw [tgtTable_mapAttrs _ (fun a => intAttrs_target _ a),
    tgtTable_mapAttrs _ (fun a => extAttrs_target _ a)]

/-- A tree fixed by pass 5 stays fixed through passes 6 to 10. -/
theorem indirectT_fixed_tail (x : Node) (hfix : indirectT x = x)
    (hnc : noComment (extIntT (footnotesT x)) = true)
    (hroot : sectionRoot (extIntT (footnotesT x)) = false) :
    indirectT (transitionsT (danglingT (stripT (extIntT (footnotesT x))))) =
      transitionsT (danglingT (stripT (extIntT (footnotesT x)))) := by
  have hstrip : stripT (extIntT (footnotesT x)) = extIntT (footnotesT x) :=
    stripT_fix _ hnc
  have hdang : danglingT (stripT (extIntT (footnotesT x))) =
      stripT (extIntT (footnotesT x)) := rfl
  rw [hdang, hstrip]
  have hPind : allElems (fun k a =>
      indirectAttrs (tgtTable x) (resolvedTbl (tgtTable x)) k a == a) x := by
    apply allElems_of_mapAttrs_fix
    exact hfix
  have hP6 : allElems (fun k a =>
      indirectAttrs (tgtTable x) (resolvedTbl (tgtTable x)) k a == a) (footnotesT x) := by
    refine allElems_footnotesT _ ?_ ?_ ?_ ?_ ?_ x hPind
    · intro a
      rw [indirectAttrs_nonTR _ _ _ a (by decide) (by decide)]
      simp
    · intro a
      rw [indirectAttrs_nonTR _ _ _ a (by decide) (by decide)]
      simp
    · intro a
      rw [indirectAttrs_nonTR _ _ _ a (by decide) (by decide)]
      simp
    · intro a
      rw [indirectAttrs_nonTR _ _ _ a (by decide) (by decide)]
      simp
    · intro a
      rw [indirectAttrs_nonTR _ _ _ a (by decide) (by decide)]
      simp
  have hkeep : ∀ (tbl2 : List (String × Attrs)) (g : String → Attrs → Attrs),
      (∀ k a, g k a = extAttrs tbl2 k a) ∨ (∀ k a, g k a = intAttrs tbl2 k a) →
      ∀ k a, (indirectAttrs (tgtTable x) (resolvedTbl (tgtTable x)) k a == a) = true →
        (indirectAttrs (tgtTable x) (resolvedTbl (tgtTable x)) k (g k a) == g k a) = true := by
    intro tbl2 g hg k a hP
    rcases hg with hg | hg
    · rw [hg]
      rcases extAttrs_cases2 tbl2 k a with hc | ⟨hk, hn⟩
      · rw [hc]
        exact hP
      · subst hk
        rw [indirectAttrs_ref_noname _ _ _ hn]
        simp
    · rw [hg]
      rcases intAttrs_cases2 tbl2 k a with hc | ⟨hk, hn⟩
      · rw [hc]
        exact hP
      · subst hk
        rw [indirectAttrs_ref_noname _ _ _ hn]
        simp
  have hP7 : allElems (fun k a =>
      indirectAttrs (tgtTable x) (resolvedTbl (tgtTable x)) k a == a)
      (extIntT (footnotesT x)) := by
    simp only [extIntT, intT, extT]
    refine allElems_mapAttrs_impl _ _ ?_ _ (allElems_mapAttrs_impl _ _ ?_ _ hP6)
    · exact hkeep _ _ (Or.inr (fun k a => rfl))
    · exact hkeep _ _ (Or.inl (fun k a => rfl))
  have hPu : allElems (fun k a =>
      indirectAttrs (tgtTable x) (resolvedTbl (tgtTable x)) k a == a)
      (transitionsT (extIntT (footnotesT x))) :=
    allElems_transitionsT _ _ hP7
  have htblu : tgtTable (transitionsT (extIntT (footnotesT x))) = tgtTable x := by
    rw [tgtTable_transitionsT _ hroot, tgtTable_extIntT, tgtTable_footnotesT]
  simp only [indirectT]
  rw [htblu]
  exact mapAttrs_fix _ _ hPu


/-! #### The anonymous-target list through the later passes -/

/-- Pairing always clears the refname. -/
theorem pairedRef_refname (tg a : Attrs) : (pairedRef tg a).refname = none := by
  cases h : tg.refuri <;> simp [pairedRef, h]

/-- A resolution step never changes the anonymous flag. -/
theorem stepAttrs_anonymous (tbl : List (String × Attrs)) (a : Attrs) :
    (stepAttrs tbl a).anonymous = a.anonymous := by
  unfold stepAttrs
  repeat' split
  all_goals rfl

/-- IndirectHyperlinks never changes the anonymous flag. -/
theorem indirectAttrs_anonymous (tbl rtbl : List (String × Attrs)) (k : String)
    (a : Attrs) : (indirectAttrs tbl rtbl k a).anonymous = a.anonymous := by
  unfold indirectAttrs
  repeat' split
  all_goals first
    | rfl
    | exact stepAttrs_anonymous _ _

/-- ExternalTargets never changes the anonymous flag. -/
theorem extAttrs_anonymous (tbl : List (String × Attrs)) (k : String) (a : Attrs) :
    (extAttrs tbl k a).anonymous = a.anonymous := by
  unfold extAttrs
  repeat' split
  all_goals rfl

/-- InternalTargets never changes the anonymous flag. -/
theorem intAttrs_anonymous (tbl : List (String × Attrs)) (k : String) (a : Attrs) :
    (intAttrs tbl k a).anonymous = a.anonymous := by
  unfold intAttrs
  repeat' split
  all_goals rfl

mutual

/-- Node form: attribute rewriting that fixes targets keeps the
anonymous-target list. -/
theorem anonTgts_mapAttrs_node (f : String → Attrs → Attrs)
    (hf : ∀ a, f "target" a = a) :
    ∀ (y : Node), anonTgts (mapAttrs f y) = anonTgts y
  | .text _ => rfl
  | .elem k a c => by
      rw [mapAttrs_elem]
      have hown : ∀ (a2 : Attrs) (c2 : List Node), anonTgts (.elem k a2 c2) =
          (if k = "target" ∧ a2.anonymous then [a2] else []) ++ anonTgtsList c2 :=
        fun a2 c2 => rfl
      rw [hown, hown, anonTgtsList_mapAttrs_list f hf c]
      by_cases hk : k = "target"
      · subst hk
        rw [hf a]
      · rw [if_neg (fun hc => hk hc.1), if_neg (fun hc => hk hc.1)]

/-- List form of `anonTgts_mapAttrs_node`. -/
theorem anonTgtsList_mapAttrs_list (f : String → Attrs → Attrs)
    (hf : ∀ a, f "target" a = a) :
    ∀ (l : List Node), anonTgtsList (mapAttrsList f l) = anonTgtsList l
  | [] => rfl
  | n :: ns => by
      rw [mapAttrsList_cons]
      have hc : ∀ (y : Node) (ys : List Node), anonTgtsList (y :: ys) =
          anonTgts y ++ anonTgtsList ys := fun y ys => rfl
      rw [hc, hc, anonTgts_mapAttrs_node f hf n, anonTgtsList_mapAttrs_list f hf ns]

end

mutual

/-- IndirectHyperlinks keeps the anonymous-target list on trees with
no anonymous indirect target. -/
theorem anonTgts_indirect (tbl rtbl : List (String × Attrs)) :
    ∀ (y : Node), noAnonIndirect y = true →
      anonTgts (mapAttrs (indirectAttrs tbl rtbl) y) = anonTgts y
  | .text _, _ => rfl
  | .elem k a c, h => by
      have he : noAnonIndirect (.elem k a c) =
          (!(k == "target" && a.anonymous && a.refname.isSome) &&
            noAnonIndirectList c) := rfl
      rw [he, Bool.and_eq_true] at h
      rw [mapAttrs_elem]
      have hown : ∀ (a2 : Attrs) (c2 : List Node), anonTgts (.elem k a2 c2) =
          (if k = "target" ∧ a2.anonymous then [a2] else []) ++ anonTgtsList c2 :=
        fun a2 c2 => rfl
      rw [hown, hown, anonTgtsList_indirect tbl rtbl c h.2]
      by_cases hk : k = "target"
      · subst hk
        by_cases han : a.anonymous = true
        · have hrn : a.refname = none := by
            have h1 := h.1
            rw [show ("target" == "target") = true from by decide, Bool.true_and,
              han, Bool.true_and] at h1
            cases hq : a.refname with
            | none => rfl
            | some r => rw [hq] at h1; simp at h1
          have hfa : indirectAttrs tbl rtbl "target" a = a := by
            have hp : pendingA a = false := by
              simp [pendingA, hrn]
            simp [indirectAttrs, stepAttrs_settled rtbl a hp]
          rw [hfa]
        · have hcond : ∀ a2 : Attrs, a2.anonymous = a.anonymous →
              (if ("target" = "target" ∧ a2.anonymous = true) then [a2] else []) = [] := by
            intro a2 ha2
            rw [if_neg]
            rintro ⟨-, hx⟩
            rw [ha2] at hx
            exact han hx
          rw [hcond _ rfl, hcond _ (indirectAttrs_anonymous tbl rtbl "target" a)]
      · rw [if_neg (fun hc => hk hc.1), if_neg (fun hc => hk hc.1)]

/-- List form of `anonTgts_indirect`. -/
theorem anonTgtsList_indirect (tbl rtbl : List (String × Attrs)) :
    ∀ (l : List Node), noAnonIndirectList l = true →
      anonTgtsList (mapAttrsList (indirectAttrs tbl rtbl) l) = anonTgtsList l
  | [], _ => rfl
  | n :: ns, h => by
      have he : noAnonIndirectList (n :: ns) =
          (noAnonIndirect n && noAnonIndirectList ns) := rfl
      rw [he, Bool.and_eq_true] at h
      rw [mapAttrsList_cons]
      have hc : ∀ (y : Node) (ys : List Node), anonTgtsList (y :: ys) =
          anonTgts y ++ anonTgtsList ys := fun y ys => rfl
      rw [hc, hc, anonTgts_indirect tbl rtbl n h.1, anonTgtsList_indirect tbl rtbl ns h.2]

end

/-- Label text keeps the anonymous-target list of the children. -/
theorem anonTgtsList_labelText (fi : FInfo) (c : List Node) :
    anonTgtsList (labelText fi c) = anonTgtsList c := by
  cases c with
  | nil =>
      unfold labelText
      cases fi.label with
      | none => rfl
      | some s => rfl
  | cons x xs => rfl

mutual

/-- Autonumbering keeps the anonymous-target list, node form. -/
theorem anonTgts_numberNode : ∀ (n : Nat) (y : Node),
    anonTgts (numberNode n y).2 = anonTgts y
  | _, .text _ => rfl
  | n, .elem k a c => by
      have hown : ∀ c2 : List Node, anonTgts (.elem k a c2) =
          (if k = "target" ∧ a.anonymous then [a] else []) ++ anonTgtsList c2 :=
        fun c2 => rfl
      by_cases hf : k = "footnote" ∧ a.auto = true
      · by_cases hl : hasLabelChild c = true
        · simp only [numberNode, if_pos hf, if_pos hl]
          rw [hown, hown, anonTgtsList_numberList (n + 1) c]
        · simp only [numberNode, if_pos hf, if_neg hl]
          rw [hown, hown]
          have hcons : anonTgtsList (Node.elem "label" {}
              [Node.text (toString (n + 1))] :: (numberList (n + 1) c).2) =
              anonTgts (Node.elem "label" {} [Node.text (toString (n + 1))]) ++
                anonTgtsList (numberList (n + 1) c).2 := rfl
          rw [hcons]
          have hlabnil : anonTgts (Node.elem "label" {}
              [Node.text (toString (n + 1))]) = [] := rfl
          rw [hlabnil, List.nil_append, anonTgtsList_numberList (n + 1) c]
      · simp only [numberNode, if_neg hf]
        rw [hown, hown, anonTgtsList_numberList n c]

/-- Autonumbering keeps the anonymous-target list, list form. -/
theorem anonTgtsList_numberList : ∀ (n : Nat) (l : List Node),
    anonTgtsList (numberList n l).2 = anonTgtsList l
  | _, [] => rfl
  | n, x :: xs => by
      simp only [numberList]
      have hc : ∀ (y : Node) (ys : List Node), anonTgtsList (y :: ys) =
          anonTgts y ++ anonTgtsList ys := fun y ys => rfl
      rw [hc, hc, anonTgts_numberNode n x, anonTgtsList_numberList (numberNode n x).1 xs]

end

mutual

/-- The resolution walk keeps the anonymous-target list, node form. -/
theorem anonTgts_fnRes (infos : List FInfo) : ∀ (pool : List FInfo) (y : Node),
    anonTgts (fnResNode infos pool y).2.2 = anonTgts y
  | _, .text _ => rfl
  | pool, .elem k a c => by
      have hown : ∀ (a2 : Attrs) (c2 : List Node), anonTgts (.elem k a2 c2) =
          (if k = "target" ∧ a2.anonymous then [a2] else []) ++ anonTgtsList c2 :=
        fun a2 c2 => rfl
      by_cases hk : k = "footnote_reference" ∨ k = "citation_reference"
      · have hnt : ¬k = "target" := by
          rcases hk with hk | hk <;> subst hk <;> decide
        simp only [fnResNode, if_pos hk]
        rw [hown, hown, if_neg (fun hc => hnt hc.1), if_neg (fun hc => hnt hc.1),
          List.nil_append, List.nil_append]
        rcases refUpdate_children_form infos pool k a c with hc | ⟨fi, hc⟩
        · rw [hc]
        · rw [hc, anonTgtsList_labelText]
      · simp only [fnResNode, if_neg hk]
        rw [hown, hown, anonTgtsList_fnResList infos pool c]

/-- The resolution walk keeps the anonymous-target list, list form. -/
theorem anonTgtsList_fnResList (infos : List FInfo) : ∀ (pool : List FInfo)
    (l : List Node), anonTgtsList (fnResList infos pool l).2.2 = anonTgtsList l
  | _, [] => rfl
  | pool, n :: ns => by
      simp only [fnResList]
      have hc : ∀ (y : Node) (ys : List Node), anonTgtsList (y :: ys) =
          anonTgts y ++ anonTgtsList ys := fun y ys => rfl
      rw [hc, hc, anonTgts_fnRes infos pool n,
        anonTgtsList_fnResList infos (fnResNode infos pool n).1 ns]

end

mutual

/-- Backref population keeps the anonymous-target list, node form. -/
theorem anonTgts_addBackrefs (prs : List (String × String)) :
    ∀ (y : Node), anonTgts (addBackrefs prs y) = anonTgts y
  | .text _ => rfl
  | .elem k a c => by
      have hown : ∀ (a2 : Attrs) (c2 : List Node), anonTgts (.elem k a2 c2) =
          (if k = "target" ∧ a2.anonymous then [a2] else []) ++ anonTgtsList c2 :=
        fun a2 c2 => rfl
      by_cases hk : k = "footnote" ∨ k = "citation"
      · have hnt : ¬k = "target" := by
          rcases hk with hk | hk <;> subst hk <;> decide
        obtain ⟨a2, hsh⟩ := addBackrefs_elem_shape prs k a c
        rw [hsh, hown, hown, if_neg (fun hc => hnt hc.1), if_neg (fun hc => hnt hc.1),
          List.nil_append, List.nil_append, anonTgtsList_addBackrefsList prs c]
      · have heq : addBackrefs prs (Node.elem k a c) =
            .elem k a (addBackrefsList prs c) := by
          simp only [addBackrefs, if_neg hk]
        rw [heq, hown, hown, anonTgtsList_addBackrefsList prs c]

/-- Backref population keeps the anonymous-target list, list form. -/
theorem anonTgtsList_addBackrefsList (prs : List (String × String)) :
    ∀ (l : List Node), anonTgtsList (addBackrefsList prs l) = anonTgtsList l
  | [] => rfl
  | n :: ns => by
      have hp : addBackrefsList prs (n :: ns) =
          addBackrefs prs n :: addBackrefsList prs ns := rfl
      rw [hp]
      have hc : ∀ (y : Node) (ys : List Node), anonTgtsList (y :: ys) =
          anonTgts y ++ anonTgtsList ys := fun y ys => rfl
      rw [hc, hc, anonTgts_addBackrefs prs n, anonTgtsList_addBackrefsList prs ns]

end

/-- The Footnotes pass keeps the anonymous-target list. -/
theorem anonTgts_footnotesT (t : Node) : anonTgts (footnotesT t) = anonTgts t := by
  simp only [footnotesT]
  rw [anonTgts_addBackrefs, anonTgts_fnRes, anonTgts_numberNode]

/-- The anonymous-target list is unchanged by the Transitions pass on
a non-section-rooted tree. -/
theorem anonTgts_transitionsT (y : Node) (hroot : sectionRoot y = false) :
    anonTgts (transitionsT y) = anonTgts y := by
  cases y with
  | text s => rfl
  | elem k a c =>
      rw [sectionRoot_elem] at hroot
      have hk : ¬k = "section" := by simpa using hroot
      rw [transitionsT_nonsection k a c hk]
      have hown : ∀ c2 : List Node, anonTgts (.elem k a c2) =
          (if k = "target" ∧ a.anonymous then [a] else []) ++ anonTgtsList c2 :=
        fun c2 => rfl
      rw [hown, hown, anonTgtsList_transList c]


/-! ## Claim C2: idempotence of the transform passes -/

/-- A document pairing an anonymous reference with an anonymous
indirect target: the first pipeline run resolves the reference
against the target's pre-indirect state (a refid), then rewrites the
target to its chain's external terminal; a second run re-pairs the
reference against the resolved target and gives it the terminal
refuri. -/
def anonIndirectDoc : Node :=
  .elem "document" {}
    [.elem "paragraph" {} [.elem "reference" { anonymous := true } [.text "click"]],
     .elem "target" { anonymous := true, ids := ["id1"], refname := some "ext" } [],
     .elem "target" { names := ["ext"], ids := ["id2"], refuri := some "http://e" } []]

end Rst
